import Mathlib

/-!
# Verification development for `experimental/wgsl.h` (gpu.cpp)

The header defines two text-to-text passes over shader source:

* `gpu::loopUnrolling(code, threshold)`, a `while (std::regex_search ...)` loop that
  unrolls or marks counting loops found by `forLoopPattern`;
* `gpu::removeUnnecessaryIfStatements(code)`, four successive
  `while (std::regex_search ...)` loops over four literal-guard patterns.

## Embedding

* A `std::string` is a `List Char`.  The character classes of the patterns only
  distinguish ASCII characters (under the "C" locale no other character is a space,
  a word character or a digit), which the predicates below reproduce.
* The five `std::regex` objects are ECMAScript patterns that are plain
  concatenations of literal text, greedy repetitions of one character class
  (`\s*`, `\s+`, `(\w+)`, `(\d+)`, `([^{}]*)`) and back-references (`\1`).  They are
  written down atom by atom (`Atom`), and `matchHere` is the backtracking matcher of
  ECMAScript for such a concatenation: a repetition first takes as many characters
  as it can and gives them back one at a time when the rest of the pattern fails.
* `regex_search` tries the start positions from left to right and reports
  `position()`, `length()` and the sub-matches of the first match.
* `std::stoi` raises `std::out_of_range` / `std::invalid_argument`; the functions
  that can throw return `Except Exn _`.
* The `while` loops are run with a fuel argument: `none` means that the fuel ran
  out, `some r` that the loop has finished with the result `r`.
-/

namespace gpu

/-! ## Character classes (`<cctype>` in the "C" locale) -/

/-- Class `\s`: the six characters for which `isspace` holds. -/
def isspace (c : Char) : Bool :=
  c == ' ' || c == '\t' || c == '\n' || c == '\x0b' || c == '\x0c' || c == '\r'

/-- Class `\d`: the decimal digits. -/
def isdigit (c : Char) : Bool :=
  decide ('0' ≤ c) && decide (c ≤ '9')

/-- Class `\w`: letters, digits and the underscore. -/
def isword (c : Char) : Bool :=
  (decide ('a' ≤ c) && decide (c ≤ 'z')) || (decide ('A' ≤ c) && decide (c ≤ 'Z'))
    || isdigit c || c == '_'

/-- Class `[^{}]`: every character except the two braces. -/
def notBrace (c : Char) : Bool :=
  !(c == '{' || c == '}')

/-! ## The regular-expression fragment used by the header -/

/-- The sub-matches of a `std::smatch`; index 0 is the whole match. -/
abbrev Groups := List (List Char)

/-- One item of a pattern.
* `lit s`: the literal text `s`;
* `many p min cap`: a greedy repetition (at least `min` times) of the character
  class `p`, captured as group `i` when `cap = some i`;
* `backref i`: the back-reference `\i`. -/
inductive Atom where
  | lit (s : List Char)
  | many (p : Char → Bool) (min : Nat) (cap : Option Nat)
  | backref (i : Nat)

/-- Remove the literal `l` from the front of the input, if it is there. -/
def stripPrefix : List Char → List Char → Option (List Char)
  | [], s => some s
  | _ :: _, [] => none
  | a :: l, c :: s => if a = c then stripPrefix l s else none

/-- Record a captured group. -/
def setGroup (g : Groups) (cap : Option Nat) (v : List Char) : Groups :=
  match cap with
  | none => g
  | some i => g.set i v

/-- Greedy repetition of the class `p` followed by the continuation `k`: take the
next character when it is in the class and try the longer repetition first; when
that fails (or the character is not in the class) stop here and run `k` on what
was taken (`acc`) and what is left. -/
def manyThen {α : Type} (p : Char → Bool) (k : List Char → List Char → Option α) :
    List Char → List Char → Option α
  | acc, [] => k acc []
  | acc, c :: cs =>
    match (if p c then manyThen p k (acc ++ [c]) cs else none) with
    | some r => some r
    | none => k acc (c :: cs)

/-- Backtracking match of a concatenation of atoms at the front of the input:
the groups and the unconsumed rest of the first way to match, in the order in
which an ECMAScript matcher explores them. -/
def matchHere : List Atom → Groups → List Char → Option (Groups × List Char)
  | [], g, s => some (g, s)
  | Atom.lit l :: pat, g, s =>
    match stripPrefix l s with
    | some rest => matchHere pat g rest
    | none => none
  | Atom.many p min cap :: pat, g, s =>
    manyThen p
      (fun acc rest => if min ≤ acc.length then matchHere pat (setGroup g cap acc) rest else none)
      [] s
  | Atom.backref i :: pat, g, s =>
    match stripPrefix (g.getD i []) s with
    | some rest => matchHere pat g rest
    | none => none

/-- A compiled `std::regex`: its atoms and the number of capture groups. -/
structure Regex where
  atoms : List Atom
  ngroups : Nat

/-- The part of a `std::smatch` the header reads: `position()`, `length()` and the
sub-matches `match[i]`. -/
structure SMatch where
  position : Nat
  length : Nat
  sub : Groups
  deriving DecidableEq, Repr

/-- Match of the whole pattern at the front of `s`; sub-match 0 is the matched text. -/
def matchAt (re : Regex) (s : List Char) : Option (Groups × List Char) :=
  match matchHere re.atoms (List.replicate (re.ngroups + 1) []) s with
  | some (g, rest) => some (g.set 0 (s.take (s.length - rest.length)), rest)
  | none => none

/-- Scan of `std::regex_search`: the start positions are tried from left to right,
`pos` is the number of characters already passed. -/
def searchFrom (re : Regex) : Nat → List Char → Option SMatch
  | pos, [] =>
    match matchAt re [] with
    | some (g, _) => some ⟨pos, 0, g⟩
    | none => none
  | pos, c :: cs =>
    match matchAt re (c :: cs) with
    | some (g, rest) => some ⟨pos, (c :: cs).length - rest.length, g⟩
    | none => searchFrom re (pos + 1) cs

/-- Model of `std::regex_search(s, match, re)`: `none` when it returns `false`. -/
def regex_search (s : List Char) (re : Regex) : Option SMatch :=
  searchFrom re 0 s

/-- Model of `s.substr(pos)`. -/
def substrFrom (s : List Char) (pos : Nat) : List Char := s.drop pos

/-- Model of `s.substr(0, n)`. -/
def substrTo (s : List Char) (n : Nat) : List Char := s.take n

/-! ## The patterns -/

/-- Atom `\s*`. -/
def ws : Atom := Atom.many isspace 0 none

/-- Atom `\s+`. -/
def ws1 : Atom := Atom.many isspace 1 none

/-- Literal text of a pattern. -/
def txt (s : String) : Atom := Atom.lit s.toList

/-- Pattern `forLoopPattern`:
`for\s*\(\s*var\s+(\w+):\s*u32\s*=\s*(\d+)\s*;\s*\1\s*<\s*(\d+)\s*;\s*\1\+\+\s*\)\s*\{\s*([^{}]*)\}`. -/
def forLoopPattern : Regex where
  atoms :=
    [txt "for", ws, txt "(", ws, txt "var", ws1, Atom.many isword 1 (some 1), txt ":", ws,
     txt "u32", ws, txt "=", ws, Atom.many isdigit 1 (some 2), ws, txt ";", ws,
     Atom.backref 1, ws, txt "<", ws, Atom.many isdigit 1 (some 3), ws, txt ";", ws,
     Atom.backref 1, txt "++", ws, txt ")", ws, txt "\x7b", ws,
     Atom.many notBrace 0 (some 4), txt "\x7d"]
  ngroups := 4

/-- Common head of the four conditional patterns: `if\s*\(\s*` guard `\s*\)\s*\{([^{}]*)\}`. -/
def ifAtoms (guard : String) : List Atom :=
  [txt "if", ws, txt "(", ws, txt guard, ws, txt ")", ws, txt "\x7b",
   Atom.many notBrace 0 (some 1), txt "\x7d"]

/-- Tail `\s*else\s*\{([^{}]*)\}` of the two patterns with an else branch. -/
def elseAtoms : List Atom :=
  [ws, txt "else", ws, txt "\x7b", Atom.many notBrace 0 (some 2), txt "\x7d"]

/-- Pattern `ifTrueElsePattern`: `if\s*\(\s*true\s*\)\s*\{([^{}]*)\}\s*else\s*\{([^{}]*)\}`. -/
def ifTrueElsePattern : Regex := ⟨ifAtoms "true" ++ elseAtoms, 2⟩

/-- Pattern `ifFalseElsePattern`: `if\s*\(\s*false\s*\)\s*\{([^{}]*)\}\s*else\s*\{([^{}]*)\}`. -/
def ifFalseElsePattern : Regex := ⟨ifAtoms "false" ++ elseAtoms, 2⟩

/-- Pattern `ifTruePattern`: `if\s*\(\s*true\s*\)\s*\{([^{}]*)\}`. -/
def ifTruePattern : Regex := ⟨ifAtoms "true", 1⟩

/-- Pattern `ifFalsePattern`: `if\s*\(\s*false\s*\)\s*\{([^{}]*)\}`. -/
def ifFalsePattern : Regex := ⟨ifAtoms "false", 1⟩

/-! ## Library functions used by `loopUnrolling` -/

/-- The exceptions `std::stoi` can raise, with the text of `what()`. -/
inductive Exn where
  | invalid_argument (what : String)
  | out_of_range (what : String)
  deriving DecidableEq, Repr

/-- Largest value of the type `int`. -/
def INT_MAX : Int := 2147483647

/-- Smallest value of the type `int`. -/
def INT_MIN : Int := -2147483648

/-- Value of a run of decimal digits read after the value `acc`. -/
def digitsValue (acc : Nat) : List Char → Nat
  | [] => acc
  | c :: cs => digitsValue (acc * 10 + (c.toNat - '0'.toNat)) cs

/-- The optional sign read by `std::stoi`: whether it is a minus sign, and the text after it. -/
def stoiSign : List Char → Bool × List Char
  | '-' :: r => (true, r)
  | '+' :: r => (false, r)
  | s => (false, s)

/-- Model of `std::stoi(str)` (base 10): leading white space is skipped, an optional
sign is read, then the longest run of digits; without a digit it raises
`std::invalid_argument`, with a value outside `int` it raises `std::out_of_range`. -/
def stoi (str : List Char) : Except Exn Int :=
  let sd := stoiSign (str.dropWhile isspace)
  let ds := sd.2.takeWhile isdigit
  if ds = [] then Except.error (Exn.invalid_argument "stoi")
  else
    let v : Int := if sd.1 then - (digitsValue 0 ds : Int) else (digitsValue 0 ds : Int)
    if v < INT_MIN ∨ INT_MAX < v then Except.error (Exn.out_of_range "stoi")
    else Except.ok v

/-- Model of `std::to_string(int)`: the decimal numeral, with a minus sign for a
negative value. -/
def to_string (i : Int) : List Char :=
  match i with
  | Int.ofNat n => Nat.toDigits 10 n
  | Int.negSucc n => '-' :: Nat.toDigits 10 (n + 1)

/-- Scan of `regex_replace` for a literal pattern `pat`: `skip` characters of
the match in progress are still to be dropped; at a position where `pat` starts
the replacement `fmt` is written and the match is dropped. -/
def replaceFrom (pat fmt : List Char) : Nat → List Char → List Char
  | _, [] => []
  | skip + 1, _ :: cs => replaceFrom pat fmt skip cs
  | 0, c :: cs =>
    match stripPrefix pat (c :: cs) with
    | some _ => fmt ++ replaceFrom pat fmt (pat.length - 1) cs
    | none => c :: replaceFrom pat fmt 0 cs

/-- Model of `std::regex_replace(s, std::regex(varName), fmt)` where `varName` is a
run of word characters, so that the pattern is the literal text `varName`, and
`fmt` is a numeral, so that it is copied as it is: every match found from left to
right (matches do not overlap) is replaced by `fmt`.  (The empty pattern, which
group `(\w+)` never yields, matches before every character and at the end.) -/
def regex_replace (s varName fmt : List Char) : List Char :=
  match varName with
  | [] => fmt ++ s.flatMap (fun c => c :: fmt)
  | _ :: _ => replaceFrom varName fmt 0 s

/-! ## `loopUnrolling` -/

/-- The `for (int i = start; i < end; ++i)` loop of the unrolling branch, with `n`
iterations left and `i` the current value: one copy of the body per iteration with
the variable replaced by `std::to_string(i)`. -/
def unrollIterations (loopBody varName : List Char) : Int → Nat → List Char
  | _, 0 => []
  | i, n + 1 =>
    regex_replace loopBody varName (to_string i) ++ unrollIterations loopBody varName (i + 1) n

/-- The text `skippedLoop` built from the four sub-matches. -/
def skippedLoop (m1 m2 m3 m4 : List Char) : List Char :=
  "for (var ".toList ++ m1 ++ ": u32 = ".toList ++ m2 ++ ";".toList ++
  m1 ++ " < ".toList ++ m3 ++ ";".toList ++
  m1 ++ "++) /* Skipped */ \x7b".toList ++
  m4 ++
  "\x7d".toList

/-- Body of the `while` loop of `loopUnrolling` for the match `m`: the new value of
`unrolledCode`, or the exception of `std::stoi`.  The values of `start` and `end`
lie in `0 .. INT_MAX`, so `end - start` and `++i` do not overflow. -/
def unrollStep (unrolledCode : List Char) (m : SMatch) (threshold : Int) :
    Except Exn (List Char) :=
  let varName := m.sub.getD 1 []
  match stoi (m.sub.getD 2 []) with
  | Except.error e => Except.error e
  | Except.ok start =>
    match stoi (m.sub.getD 3 []) with
    | Except.error e => Except.error e
    | Except.ok end_ =>
      let loopBody := m.sub.getD 4 []
      if end_ - start > threshold then
        Except.ok (substrTo unrolledCode m.position
          ++ skippedLoop (m.sub.getD 1 []) (m.sub.getD 2 []) (m.sub.getD 3 []) (m.sub.getD 4 [])
          ++ substrFrom unrolledCode (m.position + m.length))
      else
        Except.ok (substrTo unrolledCode m.position
          ++ unrollIterations loopBody varName start (end_ - start).toNat
          ++ substrFrom unrolledCode (m.position + m.length))

/-- The loop `while (std::regex_search(unrolledCode, match, forLoopPattern))` of
`loopUnrolling` run with `fuel` iterations at most: `none` when the fuel does not
suffice, `some (ok r)` when the function returns `r`, `some (error e)` when it
leaves with the exception `e`. -/
def loopUnrollingFuel : Nat → List Char → Int → Option (Except Exn (List Char))
  | 0, _, _ => none
  | fuel + 1, unrolledCode, threshold =>
    match regex_search unrolledCode forLoopPattern with
    | none => some (Except.ok unrolledCode)
    | some m =>
      match unrollStep unrolledCode m threshold with
      | Except.error e => some (Except.error e)
      | Except.ok code' => loopUnrollingFuel fuel code' threshold

/-! ## `removeUnnecessaryIfStatements` -/

/-- One of the four `while (std::regex_search(optimizedCode, match, re))` loops:
the match is replaced by its sub-match `keep` (by nothing when `keep = none`). -/
def reduceFuel (re : Regex) (keep : Option Nat) : Nat → List Char → Option (List Char)
  | 0, _ => none
  | fuel + 1, optimizedCode =>
    match regex_search optimizedCode re with
    | none => some optimizedCode
    | some m =>
      let block : List Char :=
        match keep with
        | some i => m.sub.getD i []
        | none => []
      reduceFuel re keep fuel
        (substrTo optimizedCode m.position ++ block
          ++ substrFrom optimizedCode (m.position + m.length))

/-- The function `removeUnnecessaryIfStatements`, each of its four loops run with
`fuel` iterations at most. -/
def removeUnnecessaryIfStatementsFuel (fuel : Nat) (code : List Char) : Option (List Char) :=
  (reduceFuel ifTrueElsePattern (some 1) fuel code).bind fun c1 =>
  (reduceFuel ifFalseElsePattern (some 2) fuel c1).bind fun c2 =>
  (reduceFuel ifTruePattern (some 1) fuel c2).bind fun c3 =>
  reduceFuel ifFalsePattern none fuel c3

/-! ## Specification-side notions used to state the theorems -/

/-- Declarative reading of a pattern: `Sem pat g c g'` says that the text `c` is
matched by the atoms `pat`, starting with the groups `g` and ending with `g'`. -/
def Sem : List Atom → Groups → List Char → Groups → Prop
  | [], g, c, g' => c = [] ∧ g' = g
  | Atom.lit l :: pat, g, c, g' => ∃ c', c = l ++ c' ∧ Sem pat g c' g'
  | Atom.many p min cap :: pat, g, c, g' =>
    ∃ xs c', c = xs ++ c' ∧ (∀ x ∈ xs, p x = true) ∧ min ≤ xs.length ∧
      Sem pat (setGroup g cap xs) c' g'
  | Atom.backref i :: pat, g, c, g' => ∃ c', c = g.getD i [] ++ c' ∧ Sem pat g c' g'

/-- An identifier as group `(\w+)` reads it: a non-empty run of word characters. -/
def IsIdent (v : List Char) : Prop := v ≠ [] ∧ ∀ c ∈ v, isword c = true

/-- A digit literal as group `(\d+)` reads it: a non-empty run of digits. -/
def IsDigits (d : List Char) : Prop := d ≠ [] ∧ ∀ c ∈ d, isdigit c = true

/-- A text without the characters `{` and `}`. -/
def BraceFree (b : List Char) : Prop := ∀ c ∈ b, notBrace c = true

instance (v : List Char) : Decidable (IsIdent v) := by
  unfold IsIdent
  infer_instance

instance (d : List Char) : Decidable (IsDigits d) := by
  unfold IsDigits
  infer_instance

instance (b : List Char) : Decidable (BraceFree b) := by
  unfold BraceFree
  infer_instance

/-- The loop text `for (var V: u32 = S; V < E; V++) {X}` with `X` between the braces. -/
def loopText (V S E X : List Char) : List Char :=
  "for (var ".toList ++ V ++ ": u32 = ".toList ++ S ++ "; ".toList ++ V ++ " < ".toList ++ E
    ++ "; ".toList ++ V ++ "++) \x7b".toList ++ X ++ "\x7d".toList

/-- The text `for (var V: u32 = S; V < E; V++) ` of a loop in front of its opening brace. -/
def loopHeader (V S E : List Char) : List Char :=
  "for (var ".toList ++ V ++ ": u32 = ".toList ++ S ++ "; ".toList ++ V ++ " < ".toList ++ E
    ++ "; ".toList ++ V ++ "++) ".toList

/-- The conditional text `if (guard) {A}`. -/
def ifText (guard : String) (A : List Char) : List Char :=
  "if (".toList ++ guard.toList ++ ") \x7b".toList ++ A ++ "\x7d".toList

/-- The conditional text `if (guard) {A} else {B}`. -/
def ifElseText (guard : String) (A B : List Char) : List Char :=
  ifText guard A ++ " else \x7b".toList ++ B ++ "\x7d".toList

/-- Whether the last character of a text that is not white space is `)`; `st` is the
answer for the text read so far. -/
def lastIsParen : Bool → List Char → Bool
  | st, [] => st
  | st, c :: cs => lastIsParen (if isspace c then st else c == ')') cs

/-- Weight of the opening braces of a text: an opening brace that directly follows
`)` and white space counts 2, any other opening brace counts 1.  It decreases with
every rewrite of `loopUnrolling`. -/
def braceWeight : Bool → List Char → Nat
  | _, [] => 0
  | st, c :: cs =>
    (if c = '{' then (if st then 2 else 1) else 0)
      + braceWeight (if isspace c then st else c == ')') cs

/-- An atom that cannot match a brace: a literal without braces, a repetition of a
class without braces, or a back-reference (the groups never hold a brace). -/
def Atom.Safe : Atom → Prop
  | Atom.lit l => BraceFree l
  | Atom.many p _ _ => ∀ c, p c = true → notBrace c = true
  | Atom.backref _ => True

/-- A repetition whose class does not contain a brace (every other atom qualifies). -/
def Atom.ClassSafe : Atom → Prop
  | Atom.many p _ _ => ∀ c, p c = true → notBrace c = true
  | _ => True

/-- Groups without braces. -/
def GroupsFree (g : Groups) : Prop := ∀ v ∈ g, BraceFree v

/-- The atoms of `forLoopPattern` up to and including the increment `\1\+\+\s*`. -/
def forHead : List Atom :=
  [txt "for", ws, txt "(", ws, txt "var", ws1, Atom.many isword 1 (some 1), txt ":", ws,
   txt "u32", ws, txt "=", ws, Atom.many isdigit 1 (some 2), ws, txt ";", ws,
   Atom.backref 1, ws, txt "<", ws, Atom.many isdigit 1 (some 3), ws, txt ";", ws,
   Atom.backref 1, txt "++", ws]

/-- The atoms `\)\s*\{\s*([^{}]*)\}` that end `forLoopPattern`. -/
def forTail : List Atom :=
  [txt ")", ws, txt "\x7b", ws, Atom.many notBrace 0 (some 4), txt "\x7d"]

/-- The atoms `if\s*\(\s*` guard `\s*\)\s*` in front of the first brace of a conditional pattern. -/
def ifHead (guard : String) : List Atom :=
  [txt "if", ws, txt "(", ws, txt guard, ws, txt ")", ws]

/-- The atoms `\{([^{}]*)\}` of a block captured as group `i`. -/
def blockAtoms (i : Nat) : List Atom :=
  [txt "\x7b", Atom.many notBrace 0 (some i), txt "\x7d"]

/-- The atoms `\s*else\s*` in front of the second block. -/
def elseHead : List Atom := [ws, txt "else", ws]

/-- A pattern whose atoms in front of its first `{` are safe. -/
def OpensBlock (re : Regex) : Prop :=
  ∃ hd tl, re.atoms = hd ++ txt "\x7b" :: tl ∧ ∀ a ∈ hd, Atom.Safe a

/-- An atom that is not a back-reference. -/
def Atom.NoBackref : Atom → Prop
  | Atom.backref _ => False
  | _ => True

/-- The text of a loop header after its `(`, as the pattern reads it, with the white
space `w[i]` at the places where the pattern has `\s*` or `\s+`:
`w2 var w3 V : w4 u32 w5 = w6 S w7 ; w8 V w9 < w10 E w11 ; w12 V ++ w13`. -/
def headerTail (w : List (List Char)) (V S E : List Char) : List Char :=
  w.getD 2 [] ++ ("var".toList ++
  (w.getD 3 [] ++ (V ++ (":".toList ++ (w.getD 4 [] ++ ("u32".toList ++ (w.getD 5 [] ++
  ("=".toList ++ (w.getD 6 [] ++ (S ++ (w.getD 7 [] ++ (";".toList ++ (w.getD 8 [] ++
  (V ++ (w.getD 9 [] ++ ("<".toList ++ (w.getD 10 [] ++ (E ++ (w.getD 11 [] ++
  (";".toList ++ (w.getD 12 [] ++ (V ++ ("++".toList ++ w.getD 13 [])))))))))))))))))))))))

/-- The text of a loop header as the pattern reads it: `for w1 (` and the rest. -/
def headerText (w : List (List Char)) (V S E : List Char) : List Char :=
  "for".toList ++ (w.getD 1 [] ++ ("(".toList ++ headerTail w V S E))

/-- White space runs. -/
def AllSpaces (w : List (List Char)) : Prop := ∀ x ∈ w, ∀ c ∈ x, isspace c = true

/-- A character of a token: a word character or the minus sign. -/
def istoken (c : Char) : Bool := isword c || c == '-'

/-- A text made of token characters (an identifier, a number, a negative number). -/
def IsToken (s : List Char) : Prop := ∀ c ∈ s, istoken c = true

instance (s : List Char) : Decidable (IsToken s) := by
  unfold IsToken
  infer_instance

/-- The text without its white space. -/
def squeeze (s : List Char) : List Char := s.filter (fun c => !isspace c)

/-- The loop-shaped text `for (var V: u32 = S; W < N; U++) {B}` with any tokens in the
places of the variable and of the bounds. -/
def loopLike (V S W N U B : List Char) : List Char :=
  "for (var ".toList ++ V ++ ": u32 = ".toList ++ S ++ "; ".toList ++ W ++ " < ".toList ++ N
    ++ "; ".toList ++ U ++ "++) \x7b".toList ++ B ++ "\x7d".toList

/-- The text ends with a loop header of the recognised shape (up to the white space
after `)`). -/
def EndsWithLoopHeader (P : List Char) : Prop :=
  ∃ t g, t <:+ P ∧ Sem (forHead ++ [txt ")", ws]) (List.replicate 5 []) t g

/-- The text a pass writes in place of the loop: the skipped form or the copies. -/
def rewritten (V S E X : List Char) (start end_ threshold : Int) : List Char :=
  if end_ - start > threshold then skippedLoop V S E (X.dropWhile isspace)
  else unrollIterations (X.dropWhile isspace) V start (end_ - start).toNat

/-- The text one of the reduction loops puts in place of the match `m`. -/
def blockOf (keep : Option Nat) (m : SMatch) : List Char :=
  match keep with
  | some i => m.sub.getD i []
  | none => []

/-- Every rewrite of the loop for the pattern `re` makes the text strictly shorter. -/
def StepShortens (re : Regex) (keep : Option Nat) : Prop :=
  ∀ code m, regex_search code re = some m →
    (substrTo code m.position ++ blockOf keep m
      ++ substrFrom code (m.position + m.length)).length < code.length

/-- The text holds a conditional with a literal guard, read as text: it has a part
`if ( G ) {A}` with `G` the word `true` or `false`, white space (possibly none) at the
four places between `if`, the brackets, the guard and the brace, and a brace-free `A`. -/
def HasLiteralGuard (code : List Char) : Prop :=
  ∃ (pre w1 w2 : List Char) (G : String) (w3 w4 A rest : List Char),
    (G = "true" ∨ G = "false") ∧ (∀ c ∈ w1 ++ w2 ++ w3 ++ w4, isspace c = true) ∧ BraceFree A ∧
    code = pre ++ "if".toList ++ w1 ++ "(".toList ++ w2 ++ G.toList ++ w3 ++ ")".toList ++ w4
      ++ "\x7b".toList ++ A ++ "\x7d".toList ++ rest

/-! ## Lemmas on the matcher -/

theorem stripPrefix_append (l r : List Char) : stripPrefix l (l ++ r) = some r := by
  induction l with
  | nil => cases r <;> rfl
  | cons a l ih => simp [stripPrefix, ih]

theorem stripPrefix_some {l s r : List Char} (h : stripPrefix l s = some r) : s = l ++ r := by
  induction l generalizing s with
  | nil => cases s <;> simp_all [stripPrefix]
  | cons a l ih =>
    cases s with
    | nil => simp [stripPrefix] at h
    | cons c s =>
      simp only [stripPrefix] at h
      split at h
      · rename_i hac
        rw [hac, ih h]; rfl
      · cases h

/-- What a successful repetition has done: it took a run `xs` of class characters
and the continuation succeeded on the rest. -/
theorem manyThen_sound {α : Type} (p : Char → Bool) (k : List Char → List Char → Option α)
    (acc s : List Char) (r : α) (h : manyThen p k acc s = some r) :
    ∃ xs rest, s = xs ++ rest ∧ (∀ x ∈ xs, p x = true) ∧ k (acc ++ xs) rest = some r := by
  induction s generalizing acc with
  | nil => exact ⟨[], [], rfl, by simp, by simpa [manyThen] using h⟩
  | cons c cs ih =>
    simp only [manyThen] at h
    split at h
    · rename_i r' hr
      cases h
      by_cases hp : p c = true
      · rw [if_pos hp] at hr
        obtain ⟨xs, rest, hs, hxs, hk⟩ := ih _ hr
        refine ⟨c :: xs, rest, by simp [hs], ?_, by simpa using hk⟩
        intro x hx
        rcases List.mem_cons.1 hx with rfl | hx
        · exact hp
        · exact hxs x hx
      · rw [if_neg hp] at hr; cases hr
    · exact ⟨[], c :: cs, rfl, by simp, by simpa using h⟩

/-- The greedy choice: when the whole run `xs` of class characters is taken and the
continuation succeeds there, that is the result of the repetition. -/
theorem manyThen_greedy {α : Type} (p : Char → Bool) (k : List Char → List Char → Option α)
    (acc xs rest : List Char) (r : α) (hxs : ∀ x ∈ xs, p x = true)
    (hrest : ∀ c ∈ rest.head?, p c = false) (hk : k (acc ++ xs) rest = some r) :
    manyThen p k acc (xs ++ rest) = some r := by
  induction xs generalizing acc with
  | nil =>
    cases rest with
    | nil => simpa [manyThen] using hk
    | cons c cs =>
      have hc : p c = false := hrest c (by simp)
      simpa [manyThen, hc] using hk
  | cons x xs ih =>
    have hx : p x = true := hxs x (by simp)
    have := ih (acc ++ [x]) (fun y hy => hxs y (by simp [hy])) (by simpa using hk)
    simp [manyThen, hx, this]

/-- Soundness of the matcher with respect to the declarative reading. -/
theorem matchHere_sound (pat : List Atom) (g : Groups) (s : List Char) (g' : Groups)
    (rest : List Char) (h : matchHere pat g s = some (g', rest)) :
    ∃ c, s = c ++ rest ∧ Sem pat g c g' := by
  induction pat generalizing g s with
  | nil =>
    simp only [matchHere, Option.some.injEq, Prod.mk.injEq] at h
    exact ⟨[], by simp [h.2], rfl, h.1.symm⟩
  | cons a pat ih =>
    cases a with
    | lit l =>
      simp only [matchHere] at h
      split at h
      · rename_i r hr
        obtain ⟨c, hc, hsem⟩ := ih _ _ h
        exact ⟨l ++ c, by rw [stripPrefix_some hr, hc, List.append_assoc], c, rfl, hsem⟩
      · cases h
    | many p min cap =>
      simp only [matchHere] at h
      obtain ⟨xs, r, hs, hxs, hk⟩ := manyThen_sound _ _ _ _ _ h
      simp only [List.nil_append] at hk
      split at hk
      · rename_i hmin
        obtain ⟨c, hc, hsem⟩ := ih _ _ hk
        exact ⟨xs ++ c, by rw [hs, hc, List.append_assoc], xs, c, rfl, hxs, hmin, hsem⟩
      · cases hk
    | backref i =>
      simp only [matchHere] at h
      split at h
      · rename_i r hr
        obtain ⟨c, hc, hsem⟩ := ih _ _ h
        exact ⟨g.getD i [] ++ c, by rw [stripPrefix_some hr, hc, List.append_assoc], c, rfl, hsem⟩
      · cases h

theorem isspace_iff (c : Char) : isspace c = true ↔
    c = ' ' ∨ c = '\t' ∨ c = '\n' ∨ c = '\x0b' ∨ c = '\x0c' ∨ c = '\r' := by
  simp [isspace, or_assoc]

theorem isword_of_isspace {c : Char} (h : isspace c = true) : isword c = false := by
  rcases (isspace_iff c).1 h with rfl | rfl | rfl | rfl | rfl | rfl <;> decide

theorem isdigit_of_isspace {c : Char} (h : isspace c = true) : isdigit c = false := by
  rcases (isspace_iff c).1 h with rfl | rfl | rfl | rfl | rfl | rfl <;> decide

theorem notBrace_of_isspace {c : Char} (h : isspace c = true) : notBrace c = true := by
  rcases (isspace_iff c).1 h with rfl | rfl | rfl | rfl | rfl | rfl <;> decide

theorem notBrace_iff (c : Char) : notBrace c = true ↔ c ≠ '{' ∧ c ≠ '}' := by
  simp [notBrace]

theorem isspace_of_isword {c : Char} (h : isword c = true) : isspace c = false := by
  cases hs : isspace c with
  | false => rfl
  | true => rw [isword_of_isspace hs] at h; cases h

theorem isword_of_isdigit {c : Char} (h : isdigit c = true) : isword c = true := by
  simp [isword, h]

theorem isspace_of_isdigit {c : Char} (h : isdigit c = true) : isspace c = false :=
  isspace_of_isword (isword_of_isdigit h)

theorem notBrace_of_isword {c : Char} (h : isword c = true) : notBrace c = true := by
  rw [notBrace_iff]
  constructor <;> rintro rfl <;> revert h <;> decide

theorem notBrace_of_isdigit {c : Char} (h : isdigit c = true) : notBrace c = true :=
  notBrace_of_isword (isword_of_isdigit h)

theorem lit_step {pat : List Atom} {g : Groups} {l rest : List Char} {r : Groups × List Char}
    (h : matchHere pat g rest = some r) : matchHere (Atom.lit l :: pat) g (l ++ rest) = some r := by
  simp [matchHere, stripPrefix_append, h]

theorem txt_step {pat : List Atom} {g : Groups} (t : String) {rest : List Char}
    {r : Groups × List Char}
    (h : matchHere pat g rest = some r) : matchHere (txt t :: pat) g (t.toList ++ rest) = some r :=
  lit_step h

theorem backref_step {pat : List Atom} {g : Groups} {i : Nat} {v rest : List Char}
    {r : Groups × List Char} (hv : g.getD i [] = v)
    (h : matchHere pat g rest = some r) : matchHere (Atom.backref i :: pat) g (v ++ rest) = some r := by
  subst hv
  simp only [matchHere, stripPrefix_append, h]

theorem many_step {pat : List Atom} {g : Groups} {p : Char → Bool} {min : Nat} {cap : Option Nat}
    (xs : List Char) {rest : List Char} {r : Groups × List Char}
    (hxs : ∀ x ∈ xs, p x = true) (hrest : ∀ c ∈ rest.head?, p c = false) (hmin : min ≤ xs.length)
    (h : matchHere pat (setGroup g cap xs) rest = some r) :
    matchHere (Atom.many p min cap :: pat) g (xs ++ rest) = some r := by
  simp only [matchHere]
  apply manyThen_greedy _ _ _ _ _ _ hxs hrest
  simp [hmin, h]

/-- `\s*` or `\s+` in front of a text that does not start with a space. -/
theorem ws_step {pat : List Atom} {g : Groups} {min : Nat} (xs : List Char) {rest : List Char}
    {r : Groups × List Char}
    (hxs : ∀ x ∈ xs, isspace x = true) (hrest : ∀ c ∈ rest.head?, isspace c = false)
    (hmin : min ≤ xs.length)
    (h : matchHere pat g rest = some r) :
    matchHere (Atom.many isspace min none :: pat) g (xs ++ rest) = some r :=
  many_step xs hxs hrest hmin h

theorem head_append_of_ne_nil {p : Char → Bool} {xs : List Char} (rest : List Char)
    (hne : xs ≠ []) (h : ∀ x ∈ xs, p x = false) : ∀ c ∈ (xs ++ rest).head?, p c = false := by
  cases xs with
  | nil => exact absurd rfl hne
  | cons x xs =>
    intro c hc
    simp only [List.cons_append, List.head?_cons, Option.mem_def, Option.some.injEq] at hc
    subst hc
    exact h _ (List.mem_cons_self _ _)

theorem head_takeWhile_dropWhile (p : Char → Bool) (xs : List Char) :
    ∀ c ∈ (xs.dropWhile p).head?, p c = false := by
  intro c hc
  induction xs with
  | nil => simp at hc
  | cons x xs ih =>
    by_cases hx : p x = true
    · rw [List.dropWhile_cons_of_pos hx] at hc; exact ih hc
    · rw [List.dropWhile_cons_of_neg hx] at hc
      simp only [List.head?_cons, Option.mem_def, Option.some.injEq] at hc
      subst hc
      simpa using hx

theorem loopText_pieces (V S E X rest : List Char) :
    loopText V S E X ++ rest =
      "for".toList ++ ([' '] ++ ("(".toList ++ ([] ++ ("var".toList ++ ([' '] ++ (V ++
      (":".toList ++ ([' '] ++ ("u32".toList ++ ([' '] ++ ("=".toList ++ ([' '] ++ (S ++
      ([] ++ (";".toList ++ ([' '] ++ (V ++ ([' '] ++ ("<".toList ++ ([' '] ++ (E ++
      ([] ++ (";".toList ++ ([' '] ++ (V ++ ("++".toList ++ ([] ++ (")".toList ++
      ([' '] ++ ("\x7b".toList ++ (X.takeWhile isspace ++ (X.dropWhile isspace ++
      ("\x7d".toList ++ rest))))))))))))))))))))))))))))))))) := by
  have hX : X.takeWhile isspace ++ (X.dropWhile isspace ++ ("\x7d".toList ++ rest))
      = X ++ ("\x7d".toList ++ rest) := by
    rw [← List.append_assoc, List.takeWhile_append_dropWhile]
  rw [hX]
  simp [loopText]

/-- The loop pattern matches the loop text at its start; the groups are the
variable, the two bounds and the body without its leading white space. -/
theorem matchHere_loopText (V S E X rest : List Char) (hV : IsIdent V) (hS : IsDigits S)
    (hE : IsDigits E) (hX : BraceFree X) :
    matchHere forLoopPattern.atoms (List.replicate 5 []) (loopText V S E X ++ rest)
      = some ([[], V, S, E, X.dropWhile isspace], rest) := by
  have sp : ∀ x ∈ [' '], isspace x = true := by simp [isspace]
  have nl : ∀ x ∈ ([] : List Char), isspace x = true := by simp
  have hVs : ∀ x ∈ V, isspace x = false := fun x hx => isspace_of_isword (hV.2 x hx)
  have hSs : ∀ x ∈ S, isspace x = false := fun x hx => isspace_of_isdigit (hS.2 x hx)
  have hEs : ∀ x ∈ E, isspace x = false := fun x hx => isspace_of_isdigit (hE.2 x hx)
  have hVl : 1 ≤ V.length := List.length_pos.2 hV.1
  have hSl : 1 ≤ S.length := List.length_pos.2 hS.1
  have hEl : 1 ≤ E.length := List.length_pos.2 hE.1
  rw [loopText_pieces]
  show matchHere [txt "for", ws, txt "(", ws, txt "var", ws1, Atom.many isword 1 (some 1),
     txt ":", ws, txt "u32", ws, txt "=", ws, Atom.many isdigit 1 (some 2), ws, txt ";", ws,
     Atom.backref 1, ws, txt "<", ws, Atom.many isdigit 1 (some 3), ws, txt ";", ws,
     Atom.backref 1, txt "++", ws, txt ")", ws, txt "\x7b", ws,
     Atom.many notBrace 0 (some 4), txt "\x7d"] [[], [], [], [], []] _ = _
  apply txt_step "for"
  apply ws_step [' '] sp (by simp [isspace]) (by simp)
  apply txt_step "("
  apply ws_step [] nl (by simp [isspace]) (by simp)
  apply txt_step "var"
  apply ws_step [' '] sp (head_append_of_ne_nil _ hV.1 hVs) (by simp)
  apply many_step V hV.2 (by simp [isword, isdigit]) hVl
  apply txt_step ":"
  apply ws_step [' '] sp (by simp [isspace]) (by simp)
  apply txt_step "u32"
  apply ws_step [' '] sp (by simp [isspace]) (by simp)
  apply txt_step "="
  apply ws_step [' '] sp (head_append_of_ne_nil _ hS.1 hSs) (by simp)
  apply many_step S hS.2 (by simp [isdigit]) hSl
  apply ws_step [] nl (by simp [isspace]) (by simp)
  apply txt_step ";"
  apply ws_step [' '] sp (head_append_of_ne_nil _ hV.1 hVs) (by simp)
  apply backref_step (v := V) (by simp [setGroup])
  apply ws_step [' '] sp (by simp [isspace]) (by simp)
  apply txt_step "<"
  apply ws_step [' '] sp (head_append_of_ne_nil _ hE.1 hEs) (by simp)
  apply many_step E hE.2 (by simp [isdigit]) hEl
  apply ws_step [] nl (by simp [isspace]) (by simp)
  apply txt_step ";"
  apply ws_step [' '] sp (head_append_of_ne_nil _ hV.1 hVs) (by simp)
  apply backref_step (v := V) (by simp [setGroup])
  apply txt_step "++"
  apply ws_step [] nl (by simp [isspace]) (by simp)
  apply txt_step ")"
  apply ws_step [' '] sp (by simp [isspace]) (by simp)
  apply txt_step "\x7b"
  apply ws_step (X.takeWhile isspace) (fun x hx => (List.mem_takeWhile_imp hx)) ?_ (by simp)
  · apply many_step (X.dropWhile isspace) ?_ (by simp [notBrace]) (by simp)
    · apply txt_step "\x7d"
      simp [matchHere, setGroup]
    · intro x hx
      exact hX x ((List.dropWhile_sublist _).subset hx)
  · intro c hc
    rcases hd : X.dropWhile isspace with _ | ⟨y, ys⟩
    · rw [hd] at hc
      simp at hc
      subst hc
      decide
    · have := head_takeWhile_dropWhile isspace X
      rw [hd] at hc this
      exact this c (by simpa using hc)

/-! ## Lemmas on the search -/

theorem searchFrom_of_matchAt {re : Regex} {s : List Char} {g : Groups} {rest : List Char}
    (pos : Nat) (h : matchAt re s = some (g, rest)) :
    searchFrom re pos s = some ⟨pos, s.length - rest.length, g⟩ := by
  cases s with
  | nil => simp [searchFrom, h]
  | cons c cs => simp [searchFrom, h]

theorem searchFrom_none_of_suffixes {re : Regex} {s : List Char} (pos : Nat)
    (h : ∀ t, t <:+ s → matchAt re t = none) : searchFrom re pos s = none := by
  induction s generalizing pos with
  | nil => simp [searchFrom, h [] (List.suffix_refl _)]
  | cons c cs ih =>
    simp only [searchFrom, h (c :: cs) (List.suffix_refl _)]
    exact ih _ (fun t ht => h t (ht.trans (List.suffix_cons c cs)))

theorem matchAt_some {re : Regex} {s : List Char} {g : Groups} {rest : List Char}
    (h : matchAt re s = some (g, rest)) :
    ∃ g0, matchHere re.atoms (List.replicate (re.ngroups + 1) []) s = some (g0, rest) ∧
      g = g0.set 0 (s.take (s.length - rest.length)) := by
  unfold matchAt at h
  split at h
  · rename_i g0 rest0 h0
    simp only [Option.some.injEq, Prod.mk.injEq] at h
    obtain ⟨h1, rfl⟩ := h
    exact ⟨g0, h0, h1.symm⟩
  · cases h

theorem matchAt_of_matchHere (re : Regex) {s : List Char} {g0 : Groups} {rest : List Char}
    (h : matchHere re.atoms (List.replicate (re.ngroups + 1) []) s = some (g0, rest)) :
    matchAt re s = some (g0.set 0 (s.take (s.length - rest.length)), rest) := by
  simp [matchAt, h]

/-- Every literal of a pattern occurs in the text the pattern matches. -/
theorem Sem_lit_mem {pat : List Atom} {g g' : Groups} {c : List Char} (h : Sem pat g c g')
    {l : List Char} (hl : Atom.lit l ∈ pat) : ∀ x ∈ l, x ∈ c := by
  induction pat generalizing g c with
  | nil => simp at hl
  | cons a pat ih =>
    cases a with
    | lit l' =>
      obtain ⟨c', rfl, hsem⟩ := h
      rcases List.mem_cons.1 hl with heq | hmem
      · cases heq
        intro x hx
        exact List.mem_append_left _ hx
      · intro x hx
        exact List.mem_append_right _ (ih hsem hmem x hx)
    | many p min cap =>
      obtain ⟨xs, c', rfl, -, -, hsem⟩ := h
      rcases List.mem_cons.1 hl with heq | hmem
      · cases heq
      · intro x hx
        exact List.mem_append_right _ (ih hsem hmem x hx)
    | backref i =>
      obtain ⟨c', rfl, hsem⟩ := h
      rcases List.mem_cons.1 hl with heq | hmem
      · cases heq
      · intro x hx
        exact List.mem_append_right _ (ih hsem hmem x hx)

/-- A pattern with the literal `{` has no match at the start of a text without `{`. -/
theorem matchAt_none_of_no_open {re : Regex} (hre : txt "\x7b" ∈ re.atoms) {s : List Char}
    (hs : '{' ∉ s) : matchAt re s = none := by
  cases h : matchAt re s with
  | none => rfl
  | some r =>
    obtain ⟨g, rest⟩ := r
    obtain ⟨g0, h0, -⟩ := matchAt_some h
    obtain ⟨c, hc, hsem⟩ := matchHere_sound _ _ _ _ _ h0
    have : '{' ∈ c := Sem_lit_mem hsem hre '{' (by decide)
    exact absurd (hc ▸ List.mem_append_left _ this) hs

/-- A pattern with the literal `{` is not found in a text without `{`. -/
theorem regex_search_none_of_no_open {re : Regex} (hre : txt "\x7b" ∈ re.atoms) {s : List Char}
    (hs : '{' ∉ s) : regex_search s re = none := by
  apply searchFrom_none_of_suffixes
  intro t ht
  exact matchAt_none_of_no_open hre (fun h => hs (ht.subset h))

theorem open_mem_forLoopPattern : txt "\x7b" ∈ forLoopPattern.atoms := by
  simp [forLoopPattern]

theorem open_mem_ifAtoms (guard : String) : txt "\x7b" ∈ ifAtoms guard := by
  simp [ifAtoms]

theorem BraceFree.no_open {s : List Char} (h : BraceFree s) : '{' ∉ s := by
  intro hm
  have := h _ hm
  revert this
  decide

theorem BraceFree.append {s t : List Char} (hs : BraceFree s) (ht : BraceFree t) :
    BraceFree (s ++ t) := by
  intro c hc
  rcases List.mem_append.1 hc with h | h
  · exact hs c h
  · exact ht c h

/-- The loop pattern is found at the start of a text that begins with a loop. -/
theorem regex_search_loopText (V S E X rest : List Char) (hV : IsIdent V) (hS : IsDigits S)
    (hE : IsDigits E) (hX : BraceFree X) :
    regex_search (loopText V S E X ++ rest) forLoopPattern
      = some ⟨0, (loopText V S E X).length,
          [loopText V S E X, V, S, E, X.dropWhile isspace]⟩ := by
  have h := matchAt_of_matchHere forLoopPattern (matchHere_loopText V S E X rest hV hS hE hX)
  have := searchFrom_of_matchAt 0 h
  simpa [regex_search] using this

/-! ## Lemmas on the library functions -/

theorem dropWhile_isspace_of_digits {d : List Char} (h : IsDigits d) :
    d.dropWhile isspace = d := by
  obtain ⟨hne, hd⟩ := h
  cases d with
  | nil => rfl
  | cons c cs =>
    rw [List.dropWhile_cons_of_neg]
    simp [isspace_of_isdigit (hd c (by simp))]

theorem takeWhile_eq_self {p : Char → Bool} {d : List Char} (h : ∀ c ∈ d, p c = true) :
    d.takeWhile p = d := by
  induction d with
  | nil => rfl
  | cons c cs ih =>
    rw [List.takeWhile_cons_of_pos (h c (by simp)), ih (fun x hx => h x (by simp [hx]))]

/-- On a digit literal `std::stoi` returns its value, or raises `std::out_of_range`
when the value is larger than `INT_MAX`. -/
theorem stoi_digits {d : List Char} (h : IsDigits d) :
    stoi d = if INT_MAX < (digitsValue 0 d : Int) then Except.error (Exn.out_of_range "stoi")
      else Except.ok (digitsValue 0 d : Int) := by
  have h1 := dropWhile_isspace_of_digits h
  obtain ⟨hne, hd⟩ := h
  cases d with
  | nil => exact absurd rfl hne
  | cons c cs =>
    have hc : isdigit c = true := hd c (by simp)
    have hm : c ≠ '-' := by rintro rfl; revert hc; decide
    have hp : c ≠ '+' := by rintro rfl; revert hc; decide
    have h2 : (c :: cs).takeWhile isdigit = c :: cs := takeWhile_eq_self hd
    have h3 : stoiSign (c :: cs) = (false, c :: cs) := by
      unfold stoiSign
      split
      · rename_i heq; cases heq; exact absurd rfl hm
      · rename_i heq; cases heq; exact absurd rfl hp
      · rfl
    have hnn : ¬ ((digitsValue 0 (c :: cs) : Int) < INT_MIN) := by
      have : (0 : Int) ≤ (digitsValue 0 (c :: cs) : Int) := Int.ofNat_nonneg _
      unfold INT_MIN
      omega
    unfold stoi
    simp only [h1, h3, h2]
    simp [hnn]

theorem stoi_nonneg_of_digits {d : List Char} (h : IsDigits d) {v : Int}
    (hv : stoi d = Except.ok v) : 0 ≤ v ∧ v ≤ INT_MAX ∧ v = (digitsValue 0 d : Int) := by
  rw [stoi_digits h] at hv
  split at hv
  · cases hv
  · rename_i hle
    cases hv
    exact ⟨Int.ofNat_nonneg _, not_lt.1 hle, rfl⟩

theorem notBrace_digitChar (n : Nat) : notBrace (Nat.digitChar n) = true := by
  have key : ∀ (P : Prop) [Decidable P] (a b : Char), notBrace a = true → notBrace b = true →
      notBrace (if P then a else b) = true := by
    intro P _ a b ha hb
    split <;> assumption
  unfold Nat.digitChar
  iterate 16 refine key _ _ _ (by decide) ?_
  decide

theorem notBrace_toDigitsCore (fuel n : Nat) (acc : List Char) (hacc : BraceFree acc) :
    BraceFree (Nat.toDigitsCore 10 fuel n acc) := by
  induction fuel generalizing n acc with
  | zero => simpa [Nat.toDigitsCore] using hacc
  | succ fuel ih =>
    have hcons : BraceFree (Nat.digitChar (n % 10) :: acc) := by
      intro c hc
      rcases List.mem_cons.1 hc with rfl | hc
      · exact notBrace_digitChar _
      · exact hacc c hc
    simp only [Nat.toDigitsCore]
    split
    · exact hcons
    · exact ih _ _ hcons

/-- The numeral written by `std::to_string` has no brace. -/
theorem braceFree_to_string (i : Int) : BraceFree (to_string i) := by
  cases i with
  | ofNat n => exact notBrace_toDigitsCore _ _ _ (by intro c hc; cases hc)
  | negSucc n =>
    intro c hc
    rcases List.mem_cons.1 hc with rfl | hc
    · decide
    · exact notBrace_toDigitsCore _ _ _ (by intro c hc; cases hc) c hc

theorem mem_replaceFrom {pat fmt : List Char} {skip : Nat} {s : List Char} {c : Char}
    (h : c ∈ replaceFrom pat fmt skip s) : c ∈ fmt ∨ c ∈ s := by
  induction s generalizing skip with
  | nil => simp [replaceFrom] at h
  | cons x xs ih =>
    cases skip with
    | succ k =>
      simp only [replaceFrom] at h
      rcases ih h with h | h
      · exact Or.inl h
      · exact Or.inr (List.mem_cons_of_mem _ h)
    | zero =>
      simp only [replaceFrom] at h
      split at h
      · rcases List.mem_append.1 h with h | h
        · exact Or.inl h
        · rcases ih h with h | h
          · exact Or.inl h
          · exact Or.inr (List.mem_cons_of_mem _ h)
      · rcases List.mem_cons.1 h with h | h
        · exact Or.inr (h ▸ List.mem_cons_self _ _)
        · rcases ih h with h | h
          · exact Or.inl h
          · exact Or.inr (List.mem_cons_of_mem _ h)

theorem mem_regex_replace {s v fmt : List Char} {c : Char}
    (h : c ∈ regex_replace s v fmt) : c ∈ fmt ∨ c ∈ s := by
  cases v with
  | nil =>
    simp only [regex_replace, List.mem_append, List.mem_flatMap, List.mem_cons] at h
    rcases h with h | ⟨a, ha, rfl | h⟩
    · exact Or.inl h
    · exact Or.inr ha
    · exact Or.inl h
  | cons a v => exact mem_replaceFrom h

theorem braceFree_regex_replace {s v fmt : List Char} (hs : BraceFree s) (hf : BraceFree fmt) :
    BraceFree (regex_replace s v fmt) := by
  intro c hc
  rcases mem_regex_replace hc with h | h
  · exact hf c h
  · exact hs c h

/-- The unrolled copies of a body without braces have no brace. -/
theorem braceFree_unrollIterations {body v : List Char} (hb : BraceFree body) (i : Int) (n : Nat) :
    BraceFree (unrollIterations body v i n) := by
  induction n generalizing i with
  | zero => intro c hc; cases hc
  | succ n ih =>
    exact (braceFree_regex_replace hb (braceFree_to_string i)).append (ih (i + 1))

/-! ## Lemmas on `loopUnrolling` -/

/-- When the pattern is not found the loop is left at once. -/
theorem loopUnrollingFuel_of_none {code : List Char} (h : regex_search code forLoopPattern = none)
    (fuel : Nat) (t : Int) : loopUnrollingFuel (fuel + 1) code t = some (Except.ok code) := by
  simp [loopUnrollingFuel, h]

theorem loopUnrollingFuel_of_no_open {code : List Char} (h : '{' ∉ code)
    (fuel : Nat) (t : Int) : loopUnrollingFuel (fuel + 1) code t = some (Except.ok code) :=
  loopUnrollingFuel_of_none (regex_search_none_of_no_open open_mem_forLoopPattern h) fuel t

/-- The copies written by the unrolling loop, one for each value `i, i+1, ..., i+n-1`. -/
theorem unrollIterations_eq (body v : List Char) (i : Int) (n : Nat) :
    unrollIterations body v i n
      = (List.range n).flatMap (fun k => regex_replace body v (to_string (i + (k : Int)))) := by
  induction n generalizing i with
  | zero => rfl
  | succ n ih =>
    rw [unrollIterations, ih, List.range_succ_eq_map, List.flatMap_cons, List.flatMap_map]
    congr 2
    · simp
    · funext k
      simp only [Function.comp, Nat.succ_eq_add_one, Nat.cast_add, Nat.cast_one]
      congr 2
      ring

/-- One pass of the `while` loop on a text that begins with a loop. -/
theorem unrollStep_loopText (V S E X rest : List Char) (start end_ threshold : Int)
    (hs : stoi S = Except.ok start) (he : stoi E = Except.ok end_) :
    unrollStep (loopText V S E X ++ rest)
        ⟨0, (loopText V S E X).length, [loopText V S E X, V, S, E, X.dropWhile isspace]⟩ threshold
      = Except.ok (if end_ - start > threshold then
            skippedLoop V S E (X.dropWhile isspace) ++ rest
          else unrollIterations (X.dropWhile isspace) V start (end_ - start).toNat ++ rest) := by
  simp only [unrollStep, List.getD_cons_succ, List.getD_cons_zero, hs, he, substrTo, substrFrom,
    List.take_zero, List.nil_append, Nat.zero_add, List.drop_left]
  split <;> rfl

/-- The run of `loopUnrolling` on a single loop within the threshold: one pass
unrolls the loop, the next scan finds nothing. -/
theorem loopUnrollingFuel_loopText_unrolled (V S E X : List Char) (start end_ threshold : Int)
    (fuel : Nat) (hV : IsIdent V) (hS : IsDigits S) (hE : IsDigits E) (hX : BraceFree X)
    (hs : stoi S = Except.ok start) (he : stoi E = Except.ok end_)
    (ht : end_ - start ≤ threshold) :
    loopUnrollingFuel (fuel + 2) (loopText V S E X) threshold
      = some (Except.ok (unrollIterations (X.dropWhile isspace) V start (end_ - start).toNat)) := by
  have hsearch := regex_search_loopText V S E X [] hV hS hE hX
  have hstep := unrollStep_loopText V S E X [] start end_ threshold hs he
  rw [List.append_nil] at hsearch hstep
  rw [if_neg (not_lt.2 ht), List.append_nil] at hstep
  have hbody : BraceFree (X.dropWhile isspace) :=
    fun c hc => hX c ((List.dropWhile_sublist _).subset hc)
  have hfree := (braceFree_unrollIterations (v := V) hbody start (end_ - start).toNat).no_open
  rw [loopUnrollingFuel]
  simp only [hsearch, hstep]
  exact loopUnrollingFuel_of_no_open hfree fuel threshold

/-- C1. For every identifier `V`, digit literals `S`, `E` whose `int` values satisfy
`start ≤ end` and `end - start ≤ threshold`, and every brace-free text `X` between the
braces, `loopUnrolling` on the single loop `for (var V: u32 = S; V < E; V++) {X}` returns
exactly the concatenation, for `k = start, ..., end - 1` in that order, of the body (`X`
without the white space directly after `{`) with every occurrence of `V` replaced by the
decimal numeral of `k`; for `start = end` it returns the empty string. -/
theorem loopUnrolling_unrolls_single_loop (V S E X : List Char) (start end_ threshold : Int)
    (fuel : Nat) (hV : IsIdent V) (hS : IsDigits S) (hE : IsDigits E) (hX : BraceFree X)
    (hs : stoi S = Except.ok start) (he : stoi E = Except.ok end_)
    (_hle : start ≤ end_) (ht : end_ - start ≤ threshold) :
    loopUnrollingFuel (fuel + 2) (loopText V S E X) threshold
        = some (Except.ok ((List.range (end_ - start).toNat).flatMap
            (fun k => regex_replace (X.dropWhile isspace) V (to_string (start + (k : Int))))))
      ∧ (start = end_ →
          loopUnrollingFuel (fuel + 2) (loopText V S E X) threshold = some (Except.ok [])) := by
  have hrun := loopUnrollingFuel_loopText_unrolled V S E X start end_ threshold fuel
    hV hS hE hX hs he ht
  refine ⟨by rw [hrun, unrollIterations_eq], ?_⟩
  intro heq
  rw [hrun, heq]
  simp [unrollIterations]

theorem loopUnrolling_unrolls_single_loop_witness :
    loopUnrollingFuel 2 "for (var i: u32 = 0; i < 3; i++) \x7b x[i] = i; \x7d".toList 32
      = some (Except.ok "x[0] = 0; x[1] = 1; x[2] = 2; ".toList) :=
  (loopUnrolling_unrolls_single_loop "i".toList "0".toList "3".toList " x[i] = i; ".toList 0 3 32 0
    (by decide) (by decide) (by decide) (by decide) (by rfl) (by rfl) (by decide) (by decide)).1

/-! ## The shape of a match -/

theorem Sem_append {p1 p2 : List Atom} {g g' : Groups} {c : List Char}
    (h : Sem (p1 ++ p2) g c g') :
    ∃ c1 c2 g1, c = c1 ++ c2 ∧ Sem p1 g c1 g1 ∧ Sem p2 g1 c2 g' := by
  induction p1 generalizing g c with
  | nil => exact ⟨[], c, g, rfl, ⟨rfl, rfl⟩, h⟩
  | cons a p1 ih =>
    cases a with
    | lit l =>
      obtain ⟨c', rfl, hsem⟩ := h
      obtain ⟨c1, c2, g1, rfl, h1, h2⟩ := ih hsem
      exact ⟨l ++ c1, c2, g1, by simp, ⟨c1, rfl, h1⟩, h2⟩
    | many p min cap =>
      obtain ⟨xs, c', rfl, hxs, hmin, hsem⟩ := h
      obtain ⟨c1, c2, g1, rfl, h1, h2⟩ := ih hsem
      exact ⟨xs ++ c1, c2, g1, by simp, ⟨xs, c1, rfl, hxs, hmin, h1⟩, h2⟩
    | backref i =>
      obtain ⟨c', rfl, hsem⟩ := h
      obtain ⟨c1, c2, g1, rfl, h1, h2⟩ := ih hsem
      exact ⟨g.getD i [] ++ c1, c2, g1, by simp, ⟨c1, rfl, h1⟩, h2⟩

theorem braceFree_nil : BraceFree [] := by
  intro c hc
  cases hc

theorem GroupsFree.getD {g : Groups} (hg : GroupsFree g) (i : Nat) : BraceFree (g.getD i []) := by
  rw [List.getD_eq_getElem?_getD]
  cases h : g[i]? with
  | none => exact braceFree_nil
  | some v => exact hg v (List.getElem?_mem h)

theorem GroupsFree.set {g : Groups} (hg : GroupsFree g) (i : Nat) {v : List Char}
    (hv : BraceFree v) : GroupsFree (g.set i v) := by
  intro x hx
  rcases List.mem_or_eq_of_mem_set hx with h | rfl
  · exact hg x h
  · exact hv

theorem GroupsFree.setGroup {g : Groups} (hg : GroupsFree g) (cap : Option Nat) {v : List Char}
    (hv : BraceFree v) : GroupsFree (setGroup g cap v) := by
  cases cap with
  | none => exact hg
  | some i => exact hg.set i hv

theorem groupsFree_replicate (n : Nat) : GroupsFree (List.replicate n []) := by
  intro v hv
  rw [(List.mem_replicate.1 hv).2]
  exact braceFree_nil

/-- The groups captured by class repetitions without braces have no brace. -/
theorem Sem_groupsFree {pat : List Atom} {g g' : Groups} {c : List Char}
    (hpat : ∀ a ∈ pat, Atom.ClassSafe a) (hg : GroupsFree g) (h : Sem pat g c g') :
    GroupsFree g' := by
  induction pat generalizing g c with
  | nil => rw [h.2]; exact hg
  | cons a pat ih =>
    have hpat' : ∀ a ∈ pat, Atom.ClassSafe a := fun b hb => hpat b (List.mem_cons_of_mem _ hb)
    cases a with
    | lit l =>
      obtain ⟨c', rfl, hsem⟩ := h
      exact ih hpat' hg hsem
    | many p min cap =>
      obtain ⟨xs, c', rfl, hxs, hmin, hsem⟩ := h
      have hp : ∀ c, p c = true → notBrace c = true := hpat _ (List.mem_cons_self _ _)
      exact ih hpat' (hg.setGroup cap (fun x hx => hp x (hxs x hx))) hsem
    | backref i =>
      obtain ⟨c', rfl, hsem⟩ := h
      exact ih hpat' hg hsem

/-- A pattern made of safe atoms matches a text without braces. -/
theorem Sem_safe {pat : List Atom} {g g' : Groups} {c : List Char}
    (hpat : ∀ a ∈ pat, Atom.Safe a) (hg : GroupsFree g) (h : Sem pat g c g') :
    BraceFree c := by
  induction pat generalizing g c with
  | nil => rw [h.1]; exact braceFree_nil
  | cons a pat ih =>
    have hpat' : ∀ a ∈ pat, Atom.Safe a := fun b hb => hpat b (List.mem_cons_of_mem _ hb)
    cases a with
    | lit l =>
      obtain ⟨c', rfl, hsem⟩ := h
      have hl : BraceFree l := hpat _ (List.mem_cons_self _ _)
      exact hl.append (ih hpat' hg hsem)
    | many p min cap =>
      obtain ⟨xs, c', rfl, hxs, hmin, hsem⟩ := h
      have hp : ∀ c, p c = true → notBrace c = true := hpat _ (List.mem_cons_self _ _)
      have hx : BraceFree xs := fun x hx => hp x (hxs x hx)
      exact hx.append (ih hpat' (hg.setGroup cap hx) hsem)
    | backref i =>
      obtain ⟨c', rfl, hsem⟩ := h
      exact (hg.getD i).append (ih hpat' hg hsem)

/-- A match does not change the number of groups. -/
theorem Sem_length {pat : List Atom} {g g' : Groups} {c : List Char} (h : Sem pat g c g') :
    g'.length = g.length := by
  induction pat generalizing g c with
  | nil => rw [h.2]
  | cons a pat ih =>
    cases a with
    | lit l =>
      obtain ⟨c', rfl, hsem⟩ := h
      exact ih hsem
    | many p min cap =>
      obtain ⟨xs, c', rfl, hxs, hmin, hsem⟩ := h
      rw [ih hsem]
      cases cap <;> simp [setGroup]
    | backref i =>
      obtain ⟨c', rfl, hsem⟩ := h
      exact ih hsem

theorem getD_set_self {g : Groups} {i : Nat} (h : i < g.length) (v : List Char) :
    (g.set i v).getD i [] = v := by
  rw [List.getD_eq_getElem?_getD, List.getElem?_set_self h]
  rfl

theorem safe_imp_classSafe {pat : List Atom} (h : ∀ a ∈ pat, Atom.Safe a) :
    ∀ a ∈ pat, Atom.ClassSafe a := by
  intro a ha
  have := h a ha
  cases a with
  | lit l => trivial
  | many p min cap => exact this
  | backref i => trivial

theorem forLoopPattern_atoms : forLoopPattern.atoms = forHead ++ forTail := rfl

theorem safe_txt {t : String} (h : BraceFree t.toList) : Atom.Safe (txt t) := h

theorem safe_ws : Atom.Safe ws := fun _ h => notBrace_of_isspace h

theorem safe_ws1 : Atom.Safe ws1 := fun _ h => notBrace_of_isspace h

theorem forHead_safe : ∀ a ∈ forHead, Atom.Safe a := by
  intro a ha
  simp only [forHead, List.mem_cons, List.mem_singleton, List.not_mem_nil, or_false] at ha
  rcases ha with rfl | rfl | rfl | rfl | rfl | rfl | rfl | rfl | rfl | rfl | rfl | rfl | rfl | rfl
    | rfl | rfl | rfl | rfl | rfl | rfl | rfl | rfl | rfl | rfl | rfl | rfl | rfl | rfl
  all_goals first
    | exact safe_ws
    | exact safe_ws1
    | exact safe_txt (by decide)
    | exact fun _ h => notBrace_of_isword h
    | exact fun _ h => notBrace_of_isdigit h
    | trivial

/-- The text of a match of the tail `\)\s*\{\s*([^{}]*)\}` of the loop pattern. -/
theorem Sem_forTail {g g' : Groups} {c : List Char} (h : Sem forTail g c g') :
    ∃ w w' b, c = ')' :: w ++ '{' :: w' ++ b ++ ['}'] ∧ (∀ x ∈ w, isspace x = true) ∧
      (∀ x ∈ w', isspace x = true) ∧ BraceFree b ∧ g' = g.set 4 b := by
  obtain ⟨c1, rfl, w, c2, rfl, hw, -, c3, rfl, w', c4, rfl, hw', -, b, c5, rfl, hb, -, c6, rfl,
    rfl, rfl⟩ := h
  exact ⟨w, w', b, by simp, hw, hw', hb, rfl⟩

/-- Shape of a match of the loop pattern: a brace-free header that ends with `)` and
white space, `{`, white space, the brace-free body (group 4) and `}`. -/
theorem forLoop_shape {s rest : List Char} {g : Groups}
    (h : matchHere forLoopPattern.atoms (List.replicate 5 []) s = some (g, rest)) :
    ∃ hd w w' b, s = hd ++ ')' :: w ++ '{' :: w' ++ b ++ '}' :: rest ∧ BraceFree hd ∧
      (∀ x ∈ w, isspace x = true) ∧ (∀ x ∈ w', isspace x = true) ∧ BraceFree b ∧
      g.getD 4 [] = b ∧ GroupsFree g := by
  obtain ⟨c, rfl, hsem⟩ := matchHere_sound _ _ _ _ _ h
  rw [forLoopPattern_atoms] at hsem
  obtain ⟨c1, c2, g1, rfl, h1, h2⟩ := Sem_append hsem
  have hg1 : GroupsFree g1 :=
    Sem_groupsFree (safe_imp_classSafe forHead_safe) (groupsFree_replicate 5) h1
  have hc1 : BraceFree c1 := Sem_safe forHead_safe (groupsFree_replicate 5) h1
  obtain ⟨w, w', b, rfl, hw, hw', hb, rfl⟩ := Sem_forTail h2
  have hlen : g1.length = 5 := by rw [Sem_length h1]; rfl
  exact ⟨c1, w, w', b, by simp, hc1, hw, hw', hb, getD_set_self (by omega) b, hg1.set 4 hb⟩

/-! ## Where the loop pattern cannot match -/

/-- The first brace of a text is determined by the text. -/
theorem first_brace_unique {a b r r' : List Char} {x y : Char} (ha : BraceFree a)
    (hb : BraceFree b) (hx : notBrace x = false) (hy : notBrace y = false)
    (h : a ++ x :: r = b ++ y :: r') : a = b ∧ x = y ∧ r = r' := by
  induction a generalizing b with
  | nil =>
    cases b with
    | nil =>
      simp only [List.nil_append, List.cons.injEq] at h
      exact ⟨rfl, h.1, h.2⟩
    | cons b0 b =>
      simp only [List.nil_append, List.cons_append, List.cons.injEq] at h
      have := hb b0 (List.mem_cons_self _ _)
      rw [← h.1, hx] at this
      cases this
  | cons a0 a ih =>
    cases b with
    | nil =>
      simp only [List.nil_append, List.cons_append, List.cons.injEq] at h
      have := ha a0 (List.mem_cons_self _ _)
      rw [h.1, hy] at this
      cases this
    | cons b0 b =>
      simp only [List.cons_append, List.cons.injEq] at h
      obtain ⟨h1, h2, h3⟩ := ih (fun c hc => ha c (List.mem_cons_of_mem _ hc))
        (fun c hc => hb c (List.mem_cons_of_mem _ hc)) h.2
      exact ⟨by rw [h.1, h1], h2, h3⟩

theorem lastIsParen_append (st : Bool) (xs ys : List Char) :
    lastIsParen st (xs ++ ys) = lastIsParen (lastIsParen st xs) ys := by
  induction xs generalizing st with
  | nil => rfl
  | cons x xs ih => exact ih _

theorem lastIsParen_spaces (st : Bool) {w : List Char} (hw : ∀ x ∈ w, isspace x = true) :
    lastIsParen st w = st := by
  induction w with
  | nil => rfl
  | cons x w ih =>
    simp only [lastIsParen, hw x (List.mem_cons_self _ _), if_true]
    exact ih (fun y hy => hw y (List.mem_cons_of_mem _ hy))

/-- A header of the loop pattern ends with `)` and white space. -/
theorem lastIsParen_header (st : Bool) (hd : List Char) {w : List Char}
    (hw : ∀ x ∈ w, isspace x = true) : lastIsParen st (hd ++ ')' :: w) = true := by
  have hp : isspace ')' = false := by decide
  rw [lastIsParen_append]
  simp only [lastIsParen, hp]
  rw [lastIsParen_spaces _ hw]
  simp

theorem braceFree_header {hd w : List Char} (hhd : BraceFree hd)
    (hw : ∀ x ∈ w, isspace x = true) : BraceFree (hd ++ ')' :: w) := by
  apply hhd.append
  intro c hc
  rcases List.mem_cons.1 hc with rfl | hc
  · decide
  · exact notBrace_of_isspace (hw c hc)

theorem braceFree_spaces_append {w b : List Char} (hw : ∀ x ∈ w, isspace x = true)
    (hb : BraceFree b) : BraceFree (w ++ b) :=
  BraceFree.append (fun c hc => notBrace_of_isspace (hw c hc)) hb

theorem matchAt_forLoop_shape {s rest : List Char} {g : Groups}
    (h : matchAt forLoopPattern s = some (g, rest)) :
    ∃ hd w w' b, s = hd ++ ')' :: w ++ '{' :: w' ++ b ++ '}' :: rest ∧ BraceFree hd ∧
      (∀ x ∈ w, isspace x = true) ∧ (∀ x ∈ w', isspace x = true) ∧ BraceFree b := by
  obtain ⟨g0, h0, -⟩ := matchAt_some h
  obtain ⟨hd, w, w', b, hs, h1, h2, h3, h4, -, -⟩ := forLoop_shape h0
  exact ⟨hd, w, w', b, hs, h1, h2, h3, h4⟩

/-- No loop starts in front of a closing brace. -/
theorem matchAt_forLoop_none_of_close {t rest : List Char} (ht : BraceFree t) :
    matchAt forLoopPattern (t ++ '}' :: rest) = none := by
  cases h : matchAt forLoopPattern (t ++ '}' :: rest) with
  | none => rfl
  | some r =>
    obtain ⟨g, rest'⟩ := r
    obtain ⟨hd, w, w', b, hs, h1, h2, h3, h4⟩ := matchAt_forLoop_shape h
    have hs' : t ++ '}' :: rest = (hd ++ ')' :: w) ++ '{' :: (w' ++ b ++ '}' :: rest') := by
      rw [hs]; simp
    have := (first_brace_unique ht (braceFree_header h1 h2) (by decide) (by decide) hs').2.1
    exact absurd this (by decide)

/-- No loop starts in a text whose first brace does not follow `)` and white space. -/
theorem matchAt_forLoop_none_of_open {t rest : List Char} (ht : BraceFree t)
    (hl : lastIsParen false t = false) : matchAt forLoopPattern (t ++ '{' :: rest) = none := by
  cases h : matchAt forLoopPattern (t ++ '{' :: rest) with
  | none => rfl
  | some r =>
    obtain ⟨g, rest'⟩ := r
    obtain ⟨hd, w, w', b, hs, h1, h2, h3, h4⟩ := matchAt_forLoop_shape h
    have hs' : t ++ '{' :: rest = (hd ++ ')' :: w) ++ '{' :: (w' ++ b ++ '}' :: rest') := by
      rw [hs]; simp
    have := (first_brace_unique ht (braceFree_header h1 h2) (by decide) (by decide) hs').1
    rw [this, lastIsParen_header _ _ h2] at hl
    cases hl

/-- No loop starts in front of a block that holds another opening brace. -/
theorem matchAt_forLoop_none_of_nested {t u rest : List Char} (ht : BraceFree t)
    (hu : BraceFree u) : matchAt forLoopPattern (t ++ '{' :: (u ++ '{' :: rest)) = none := by
  cases h : matchAt forLoopPattern (t ++ '{' :: (u ++ '{' :: rest)) with
  | none => rfl
  | some r =>
    obtain ⟨g, rest'⟩ := r
    obtain ⟨hd, w, w', b, hs, h1, h2, h3, h4⟩ := matchAt_forLoop_shape h
    have hs' : t ++ '{' :: (u ++ '{' :: rest)
        = (hd ++ ')' :: w) ++ '{' :: ((w' ++ b) ++ '}' :: rest') := by
      rw [hs]; simp
    have h5 := (first_brace_unique ht (braceFree_header h1 h2) (by decide) (by decide) hs').2.2
    have := (first_brace_unique hu (braceFree_spaces_append h3 h4) (by decide) (by decide) h5).2.1
    exact absurd this (by decide)

theorem searchFrom_cons_of_none {re : Regex} {c : Char} {cs : List Char} (pos : Nat)
    (h : matchAt re (c :: cs) = none) :
    searchFrom re pos (c :: cs) = searchFrom re (pos + 1) cs := by
  simp [searchFrom, h]

/-- The scan passes a stretch of text in which no match starts. -/
theorem searchFrom_append_of_none {re : Regex} (xs rest : List Char) (pos : Nat)
    (h : ∀ t, t <:+ xs → t ≠ [] → matchAt re (t ++ rest) = none) :
    searchFrom re pos (xs ++ rest) = searchFrom re (pos + xs.length) rest := by
  induction xs generalizing pos with
  | nil => rfl
  | cons x xs ih =>
    have h0 := h (x :: xs) (List.suffix_refl _) (by simp)
    rw [List.cons_append] at h0 ⊢
    rw [searchFrom_cons_of_none pos h0,
      ih (pos + 1) (fun t ht hne => h t (ht.trans (List.suffix_cons x xs)) hne)]
    congr 1
    simp only [List.length_cons]
    omega

theorem braceFree_of_suffix {t xs : List Char} (h : t <:+ xs) (hxs : BraceFree xs) :
    BraceFree t := fun c hc => hxs c (h.subset hc)

/-- The scan for a loop passes a brace-free text in front of a closing brace. -/
theorem searchFrom_forLoop_skip_close {xs : List Char} (hxs : BraceFree xs) (rest : List Char)
    (pos : Nat) :
    searchFrom forLoopPattern pos (xs ++ '}' :: rest)
      = searchFrom forLoopPattern (pos + xs.length) ('}' :: rest) :=
  searchFrom_append_of_none xs _ pos
    (fun _ ht _ => matchAt_forLoop_none_of_close (braceFree_of_suffix ht hxs))

/-! ## A loop marked as skipped is not matched again -/

theorem suffix_append_two {t xs : List Char} {a b : Char} (h : t <:+ xs ++ [a, b]) :
    t = [] ∨ t = [b] ∨ ∃ t', t = t' ++ [a, b] := by
  induction xs with
  | nil =>
    rcases List.suffix_cons_iff.1 h with rfl | h
    · exact Or.inr (Or.inr ⟨[], rfl⟩)
    · rcases List.suffix_cons_iff.1 h with rfl | h
      · exact Or.inr (Or.inl rfl)
      · exact Or.inl (List.eq_nil_of_suffix_nil h)
  | cons x xs ih =>
    rcases List.suffix_cons_iff.1 h with rfl | h
    · exact Or.inr (Or.inr ⟨x :: xs, rfl⟩)
    · exact ih h

/-- The text of `skippedLoop` in front of its opening brace. -/
theorem skippedLoop_eq (V S E B : List Char) :
    skippedLoop V S E B
      = ("for (var ".toList ++ V ++ ": u32 = ".toList ++ S ++ ";".toList ++ V ++ " < ".toList
          ++ E ++ ";".toList ++ V ++ "++) /* Skipped *".toList ++ ['/', ' '])
        ++ '{' :: (B ++ ['}']) := by
  simp [skippedLoop]

theorem braceFree_skippedHeader {V S E : List Char} (hV : BraceFree V) (hS : BraceFree S)
    (hE : BraceFree E) :
    BraceFree ("for (var ".toList ++ V ++ ": u32 = ".toList ++ S ++ ";".toList ++ V
      ++ " < ".toList ++ E ++ ";".toList ++ V ++ "++) /* Skipped *".toList ++ ['/', ' ']) := by
  have lit : ∀ t : String, BraceFree t.toList → BraceFree t.toList := fun _ h => h
  have h1 := (lit "for (var " (by decide)).append hV
  have h2 := (h1.append (lit ": u32 = " (by decide))).append hS
  have h3 := (h2.append (lit ";" (by decide))).append hV
  have h4 := (h3.append (lit " < " (by decide))).append hE
  have h5 := (h4.append (lit ";" (by decide))).append hV
  have h6 := h5.append (lit "++) /* Skipped *" (by decide))
  exact h6.append (by decide)

/-- The scan for a loop passes a block whose opening brace does not follow `)` and
white space and whose body has no brace. -/
theorem searchFrom_forLoop_skip_block {H B : List Char} (hH : BraceFree H)
    (hlast : ∀ t, t <:+ H → lastIsParen false t = false) (hB : BraceFree B)
    (rest : List Char) (pos : Nat) :
    searchFrom forLoopPattern pos (H ++ '{' :: (B ++ ['}']) ++ rest)
      = searchFrom forLoopPattern (pos + (H ++ '{' :: (B ++ ['}'])).length) rest := by
  rw [List.append_assoc, List.cons_append, List.append_assoc, List.singleton_append]
  rw [searchFrom_append_of_none _ _ pos
    (fun t ht _ => matchAt_forLoop_none_of_open (braceFree_of_suffix ht hH) (hlast t ht))]
  rw [searchFrom_cons_of_none _ (matchAt_forLoop_none_of_open braceFree_nil rfl)]
  rw [searchFrom_forLoop_skip_close hB]
  rw [searchFrom_cons_of_none _ (matchAt_forLoop_none_of_close braceFree_nil)]
  congr 1
  simp only [List.length_append, List.length_cons, List.length_nil]
  omega

/-- The scan for a loop passes a loop marked as skipped: the marker stands between
`)` and `{`, and the body has no opening brace. -/
theorem searchFrom_skippedLoop {V S E B : List Char} (hV : BraceFree V) (hS : BraceFree S)
    (hE : BraceFree E) (hB : BraceFree B) (rest : List Char) (pos : Nat) :
    searchFrom forLoopPattern pos (skippedLoop V S E B ++ rest)
      = searchFrom forLoopPattern (pos + (skippedLoop V S E B).length) rest := by
  have hH := braceFree_skippedHeader hV hS hE
  have hlast : ∀ t, t <:+ "for (var ".toList ++ V ++ ": u32 = ".toList ++ S ++ ";".toList ++ V
      ++ " < ".toList ++ E ++ ";".toList ++ V ++ "++) /* Skipped *".toList ++ ['/', ' '] →
      lastIsParen false t = false := by
    intro t ht
    rcases suffix_append_two ht with rfl | rfl | ⟨t', rfl⟩
    · rfl
    · rfl
    · rw [lastIsParen_append]
      have h1 : isspace '/' = false := by decide
      have h2 : isspace ' ' = true := by decide
      simp [lastIsParen, h1, h2]
  rw [skippedLoop_eq]
  exact searchFrom_forLoop_skip_block hH hlast hB rest pos

theorem braceFree_of_isIdent {V : List Char} (h : IsIdent V) : BraceFree V :=
  fun c hc => notBrace_of_isword (h.2 c hc)

theorem braceFree_of_isDigits {d : List Char} (h : IsDigits d) : BraceFree d :=
  fun c hc => notBrace_of_isdigit (h.2 c hc)

theorem braceFree_dropWhile {X : List Char} (p : Char → Bool) (hX : BraceFree X) :
    BraceFree (X.dropWhile p) :=
  fun c hc => hX c ((List.dropWhile_sublist _).subset hc)

theorem searchFrom_nil_forLoop (pos : Nat) : searchFrom forLoopPattern pos [] = none :=
  searchFrom_none_of_suffixes pos
    (fun _ ht => matchAt_none_of_no_open open_mem_forLoopPattern
      (by rw [List.eq_nil_of_suffix_nil ht]; simp))

/-- C2. For every single loop `for (var V: u32 = S; V < E; V++) {X}` with a brace-free
text `X` between the braces and `end - start > threshold`, `loopUnrolling` returns the
same loop with the same variable, the same bound literals and the same body (`X` without
the white space directly after `{`), written as
`for (var V: u32 = S;V < E;V++) /* Skipped */ {body}`; no copy of the body is made. -/
theorem loopUnrolling_marks_long_loop (V S E X : List Char) (start end_ threshold : Int)
    (fuel : Nat) (hV : IsIdent V) (hS : IsDigits S) (hE : IsDigits E) (hX : BraceFree X)
    (hs : stoi S = Except.ok start) (he : stoi E = Except.ok end_)
    (ht : end_ - start > threshold) :
    loopUnrollingFuel (fuel + 2) (loopText V S E X) threshold
      = some (Except.ok ("for (var ".toList ++ V ++ ": u32 = ".toList ++ S ++ ";".toList ++ V
          ++ " < ".toList ++ E ++ ";".toList ++ V ++ "++) /* Skipped */ \x7b".toList
          ++ X.dropWhile isspace ++ "\x7d".toList)) := by
  have hsearch := regex_search_loopText V S E X [] hV hS hE hX
  have hstep := unrollStep_loopText V S E X [] start end_ threshold hs he
  rw [List.append_nil] at hsearch hstep
  rw [if_pos ht, List.append_nil] at hstep
  have hnone : regex_search (skippedLoop V S E (X.dropWhile isspace)) forLoopPattern = none := by
    have := searchFrom_skippedLoop (braceFree_of_isIdent hV) (braceFree_of_isDigits hS)
      (braceFree_of_isDigits hE) (braceFree_dropWhile isspace hX) [] 0
    rw [List.append_nil, searchFrom_nil_forLoop] at this
    exact this
  rw [loopUnrollingFuel]
  simp only [hsearch, hstep]
  rw [loopUnrollingFuel_of_none hnone]
  rfl

theorem loopUnrolling_marks_long_loop_witness :
    loopUnrollingFuel 2 "for (var i: u32 = 0; i < 100; i++) \x7b x[i] = i; \x7d".toList 32
      = some (Except.ok
          "for (var i: u32 = 0;i < 100;i++) /* Skipped */ \x7bx[i] = i; \x7d".toList) :=
  loopUnrolling_marks_long_loop "i".toList "0".toList "100".toList " x[i] = i; ".toList 0 100 32 0
    (by decide) (by decide) (by decide) (by decide) (by rfl) (by rfl) (by decide)

/-! ## Matches of the conditional patterns -/

theorem matchHere_ifAtoms_step {guard : String} (hne : guard.toList ≠ [])
    (hsp : ∀ x ∈ guard.toList, isspace x = false) {A : List Char} (hA : BraceFree A)
    (pat : List Atom) (g : Groups) (rest : List Char) {r : Groups × List Char}
    (h : matchHere pat (g.set 1 A) rest = some r) :
    matchHere (ifAtoms guard ++ pat) g (ifText guard A ++ rest) = some r := by
  have sp : ∀ x ∈ [' '], isspace x = true := by simp [isspace]
  have nl : ∀ x ∈ ([] : List Char), isspace x = true := by simp
  have e : ifText guard A ++ rest = "if".toList ++ ([' '] ++ ("(".toList ++ ([] ++
      (guard.toList ++ ([] ++ (")".toList ++ ([' '] ++ ("\x7b".toList ++ (A ++
      ("\x7d".toList ++ rest)))))))))) := by
    simp [ifText]
  rw [e]
  show matchHere (txt "if" :: ws :: txt "(" :: ws :: txt guard :: ws :: txt ")" :: ws ::
    txt "\x7b" :: Atom.many notBrace 0 (some 1) :: txt "\x7d" :: pat) g _ = _
  apply txt_step "if"
  apply ws_step [' '] sp (by simp [isspace]) (by simp)
  apply txt_step "("
  apply ws_step [] nl (head_append_of_ne_nil _ hne hsp) (by simp)
  apply txt_step guard
  apply ws_step [] nl (by simp [isspace]) (by simp)
  apply txt_step ")"
  apply ws_step [' '] sp (by simp [isspace]) (by simp)
  apply txt_step "\x7b"
  apply many_step A hA (by simp [notBrace]) (by simp)
  apply txt_step "\x7d"
  exact h

theorem matchHere_elseAtoms_step {B : List Char} (hB : BraceFree B)
    (g : Groups) (rest : List Char) :
    matchHere elseAtoms g (" else \x7b".toList ++ B ++ "\x7d".toList ++ rest)
      = some (g.set 2 B, rest) := by
  have sp : ∀ x ∈ [' '], isspace x = true := by simp [isspace]
  have e : " else \x7b".toList ++ B ++ "\x7d".toList ++ rest = [' '] ++ ("else".toList ++ ([' '] ++
      ("\x7b".toList ++ (B ++ ("\x7d".toList ++ rest))))) := by
    simp
  rw [e]
  show matchHere [ws, txt "else", ws, txt "\x7b", Atom.many notBrace 0 (some 2), txt "\x7d"] g _ = _
  apply ws_step [' '] sp (by simp [isspace]) (by simp)
  apply txt_step "else"
  apply ws_step [' '] sp (by simp [isspace]) (by simp)
  apply txt_step "\x7b"
  apply many_step B hB (by simp [notBrace]) (by simp)
  apply txt_step "\x7d"
  rfl

theorem guard_true : "true".toList ≠ [] ∧ ∀ x ∈ "true".toList, isspace x = false := by decide

theorem guard_false : "false".toList ≠ [] ∧ ∀ x ∈ "false".toList, isspace x = false := by decide

/-- A pattern without else branch is found at the start of a text that begins with
its conditional. -/
theorem regex_search_ifText {guard : String} (hne : guard.toList ≠ [])
    (hsp : ∀ x ∈ guard.toList, isspace x = false) {A : List Char} (hA : BraceFree A)
    (rest : List Char) :
    regex_search (ifText guard A ++ rest) ⟨ifAtoms guard, 1⟩
      = some ⟨0, (ifText guard A).length, [ifText guard A, A]⟩ := by
  have h0 := matchHere_ifAtoms_step hne hsp hA [] [[], []] rest (r := ([[], A], rest)) rfl
  rw [List.append_nil] at h0
  have h := matchAt_of_matchHere ⟨ifAtoms guard, 1⟩ h0
  have := searchFrom_of_matchAt 0 h
  simpa [regex_search] using this

/-- A pattern with else branch is found at the start of a text that begins with its
conditional. -/
theorem regex_search_ifElseText {guard : String} (hne : guard.toList ≠ [])
    (hsp : ∀ x ∈ guard.toList, isspace x = false) {A B : List Char} (hA : BraceFree A)
    (hB : BraceFree B) (rest : List Char) :
    regex_search (ifElseText guard A B ++ rest) ⟨ifAtoms guard ++ elseAtoms, 2⟩
      = some ⟨0, (ifElseText guard A B).length, [ifElseText guard A B, A, B]⟩ := by
  have h0 := matchHere_ifAtoms_step hne hsp hA elseAtoms [[], [], []]
    (" else \x7b".toList ++ B ++ "\x7d".toList ++ rest) (matchHere_elseAtoms_step hB _ rest)
  have e : ifText guard A ++ (" else \x7b".toList ++ B ++ "\x7d".toList ++ rest)
      = ifElseText guard A B ++ rest := by
    simp [ifElseText]
  rw [e] at h0
  have h := matchAt_of_matchHere ⟨ifAtoms guard ++ elseAtoms, 2⟩ h0
  have := searchFrom_of_matchAt 0 h
  simpa [regex_search] using this

/-! ## Where a pattern cannot match -/

/-- A pattern that begins with a literal does not match a text that begins with
another character. -/
theorem matchAt_none_of_head_ne {re : Regex} {a : Char} {l : List Char} {tl : List Atom}
    (hre : re.atoms = Atom.lit (a :: l) :: tl) {c : Char} (hc : c ≠ a) (cs : List Char) :
    matchAt re (c :: cs) = none := by
  have : ¬ a = c := fun h => hc h.symm
  simp [matchAt, hre, matchHere, stripPrefix, this]

/-- The scan passes a text without the first character of the pattern. -/
theorem searchFrom_skip_no_head {re : Regex} {a : Char} {l : List Char} {tl : List Atom}
    (hre : re.atoms = Atom.lit (a :: l) :: tl) {xs : List Char} (hxs : a ∉ xs)
    (rest : List Char) (pos : Nat) :
    searchFrom re pos (xs ++ rest) = searchFrom re (pos + xs.length) rest := by
  apply searchFrom_append_of_none
  intro t ht hne
  cases t with
  | nil => exact absurd rfl hne
  | cons c cs =>
    have hc : c ≠ a := by
      rintro rfl
      exact hxs (ht.subset (List.mem_cons_self _ _))
    exact matchAt_none_of_head_ne hre hc _

theorem matchAt_shape_open {re : Regex} (hre : OpensBlock re) {s rest : List Char} {g : Groups}
    (h : matchAt re s = some (g, rest)) :
    ∃ c1 c2, s = c1 ++ '{' :: c2 ∧ BraceFree c1 := by
  obtain ⟨hd, tl, hat, hsafe⟩ := hre
  obtain ⟨g0, h0, -⟩ := matchAt_some h
  obtain ⟨c, rfl, hsem⟩ := matchHere_sound _ _ _ _ _ h0
  rw [hat] at hsem
  obtain ⟨c1, c2, g1, rfl, h1, h2⟩ := Sem_append hsem
  obtain ⟨c3, rfl, -⟩ := h2
  exact ⟨c1, c3 ++ rest, by simp, Sem_safe hsafe (groupsFree_replicate _) h1⟩

/-- No match starts in front of a closing brace. -/
theorem matchAt_none_of_close {re : Regex} (hre : OpensBlock re) {t : List Char}
    (ht : BraceFree t) (rest : List Char) : matchAt re (t ++ '}' :: rest) = none := by
  cases h : matchAt re (t ++ '}' :: rest) with
  | none => rfl
  | some r =>
    obtain ⟨g, rest'⟩ := r
    obtain ⟨c1, c2, hs, h1⟩ := matchAt_shape_open hre h
    have := (first_brace_unique ht h1 (by decide) (by decide) hs).2.1
    exact absurd this (by decide)

/-- The scan passes a brace-free text in front of a closing brace. -/
theorem searchFrom_skip_close {re : Regex} (hre : OpensBlock re) {xs : List Char}
    (hxs : BraceFree xs) (rest : List Char) (pos : Nat) :
    searchFrom re pos (xs ++ '}' :: rest) = searchFrom re (pos + xs.length) ('}' :: rest) :=
  searchFrom_append_of_none xs _ pos
    (fun _ ht _ => matchAt_none_of_close hre (braceFree_of_suffix ht hxs) rest)

/-! ## Shape of the matches of the conditional patterns -/

theorem ifAtoms_eq (guard : String) : ifAtoms guard = ifHead guard ++ blockAtoms 1 := rfl

theorem elseAtoms_eq : elseAtoms = elseHead ++ blockAtoms 2 := rfl

theorem ifHead_safe {guard : String} (hg : BraceFree guard.toList) :
    ∀ a ∈ ifHead guard, Atom.Safe a := by
  intro a ha
  simp only [ifHead, List.mem_cons, List.mem_singleton, List.not_mem_nil, or_false] at ha
  rcases ha with rfl | rfl | rfl | rfl | rfl | rfl | rfl | rfl
  all_goals first
    | exact safe_ws
    | exact safe_txt (by decide)
    | exact safe_txt hg

theorem elseHead_safe : ∀ a ∈ elseHead, Atom.Safe a := by
  intro a ha
  simp only [elseHead, List.mem_cons, List.mem_singleton, List.not_mem_nil, or_false] at ha
  rcases ha with rfl | rfl | rfl
  all_goals first
    | exact safe_ws
    | exact safe_txt (by decide)

/-- An atom that captures no group. -/
theorem Sem_noCapture {pat : List Atom} {g g' : Groups} {c : List Char}
    (hpat : ∀ a ∈ pat, ∀ p min i, a ≠ Atom.many p min (some i)) (h : Sem pat g c g') :
    g' = g := by
  induction pat generalizing g c with
  | nil => exact h.2
  | cons a pat ih =>
    have hpat' : ∀ a ∈ pat, ∀ p min i, a ≠ Atom.many p min (some i) :=
      fun b hb => hpat b (List.mem_cons_of_mem _ hb)
    cases a with
    | lit l =>
      obtain ⟨c', rfl, hsem⟩ := h
      exact ih hpat' hsem
    | many p min cap =>
      obtain ⟨xs, c', rfl, hxs, hmin, hsem⟩ := h
      cases cap with
      | none => exact ih hpat' hsem
      | some i => exact absurd rfl (hpat _ (List.mem_cons_self _ _) p min i)
    | backref i =>
      obtain ⟨c', rfl, hsem⟩ := h
      exact ih hpat' hsem

theorem ifHead_noCapture (guard : String) :
    ∀ a ∈ ifHead guard, ∀ p min i, a ≠ Atom.many p min (some i) := by
  intro a ha p min i
  simp only [ifHead, List.mem_cons, List.mem_singleton, List.not_mem_nil, or_false] at ha
  rcases ha with rfl | rfl | rfl | rfl | rfl | rfl | rfl | rfl <;> simp [txt, ws]

theorem elseHead_noCapture :
    ∀ a ∈ elseHead, ∀ p min i, a ≠ Atom.many p min (some i) := by
  intro a ha p min i
  simp only [elseHead, List.mem_cons, List.mem_singleton, List.not_mem_nil, or_false] at ha
  rcases ha with rfl | rfl | rfl <;> simp [txt, ws]

theorem Sem_blockAtoms {i : Nat} {g g' : Groups} {c : List Char} (h : Sem (blockAtoms i) g c g') :
    ∃ A, c = '{' :: A ++ ['}'] ∧ BraceFree A ∧ g' = g.set i A := by
  obtain ⟨c1, rfl, A, c2, rfl, hA, -, c3, rfl, rfl, rfl⟩ := h
  exact ⟨A, by simp, hA, rfl⟩

/-- Shape of a match of `if ... {A}`: a brace-free head, then the block. -/
theorem Sem_ifAtoms {guard : String} (hg : BraceFree guard.toList) {g g' : Groups}
    {c : List Char} (hfree : GroupsFree g) (h : Sem (ifAtoms guard) g c g') :
    ∃ hd A, c = hd ++ '{' :: A ++ ['}'] ∧ BraceFree hd ∧ BraceFree A ∧ g' = g.set 1 A := by
  rw [ifAtoms_eq] at h
  obtain ⟨c1, c2, g1, rfl, h1, h2⟩ := Sem_append h
  obtain ⟨A, rfl, hA, rfl⟩ := Sem_blockAtoms h2
  have hc1 := Sem_safe (ifHead_safe hg) hfree h1
  have hg1 : g1 = g := Sem_noCapture (ifHead_noCapture guard) h1
  rw [hg1]
  exact ⟨c1, A, by simp, hc1, hA, rfl⟩

/-- Shape of a match of `if ... {A} else {B}`. -/
theorem Sem_ifElseAtoms {guard : String} (hg : BraceFree guard.toList) {g g' : Groups}
    {c : List Char} (hfree : GroupsFree g) (h : Sem (ifAtoms guard ++ elseAtoms) g c g') :
    ∃ hd A e B, c = hd ++ '{' :: A ++ '}' :: e ++ '{' :: B ++ ['}'] ∧ BraceFree hd ∧
      BraceFree A ∧ BraceFree e ∧ BraceFree B ∧ g' = (g.set 1 A).set 2 B := by
  obtain ⟨c1, c2, g1, rfl, h1, h2⟩ := Sem_append h
  obtain ⟨hd, A, rfl, hhd, hA, rfl⟩ := Sem_ifAtoms hg hfree h1
  rw [elseAtoms_eq] at h2
  obtain ⟨c3, c4, g2, rfl, h3, h4⟩ := Sem_append h2
  obtain ⟨B, rfl, hB, rfl⟩ := Sem_blockAtoms h4
  have hc3 := Sem_safe elseHead_safe (hfree.set 1 hA) h3
  have hg2 : g2 = g.set 1 A := Sem_noCapture elseHead_noCapture h3
  rw [hg2]
  exact ⟨hd, A, c3, B, by simp, hhd, hA, hc3, hB, rfl⟩

theorem opensBlock_if {guard : String} (hg : BraceFree guard.toList) :
    OpensBlock ⟨ifAtoms guard, 1⟩ :=
  ⟨ifHead guard, [Atom.many notBrace 0 (some 1), txt "\x7d"], rfl, ifHead_safe hg⟩

theorem opensBlock_ifElse {guard : String} (hg : BraceFree guard.toList) :
    OpensBlock ⟨ifAtoms guard ++ elseAtoms, 2⟩ :=
  ⟨ifHead guard, [Atom.many notBrace 0 (some 1), txt "\x7d"] ++ elseAtoms, rfl, ifHead_safe hg⟩

theorem opensBlock_forLoop : OpensBlock forLoopPattern :=
  ⟨forHead ++ [txt ")", ws], [ws, Atom.many notBrace 0 (some 4), txt "\x7d"], rfl, by
    intro a ha
    rcases List.mem_append.1 ha with h | h
    · exact forHead_safe a h
    · simp only [List.mem_cons, List.mem_singleton, List.not_mem_nil, or_false] at h
      rcases h with rfl | rfl
      · exact safe_txt (by decide)
      · exact safe_ws⟩

theorem count_open_of_braceFree {s : List Char} (h : BraceFree s) : s.count '{' = 0 :=
  List.count_eq_zero.2 h.no_open

/-- A pattern with an else branch needs two opening braces. -/
theorem regex_search_ifElse_none_of_count {guard : String} (hg : BraceFree guard.toList)
    {s : List Char} (h : s.count '{' < 2) :
    regex_search s ⟨ifAtoms guard ++ elseAtoms, 2⟩ = none := by
  apply searchFrom_none_of_suffixes
  intro t ht
  cases hm : matchAt ⟨ifAtoms guard ++ elseAtoms, 2⟩ t with
  | none => rfl
  | some r =>
    obtain ⟨g, rest⟩ := r
    obtain ⟨g0, h0, -⟩ := matchAt_some hm
    obtain ⟨c, rfl, hsem⟩ := matchHere_sound _ _ _ _ _ h0
    obtain ⟨hd, A, e, B, rfl, -, -, -, -, -⟩ := Sem_ifElseAtoms hg (groupsFree_replicate _) hsem
    have hle := ht.sublist.count_le '{'
    have : 2 ≤ List.count '{' (hd ++ '{' :: A ++ '}' :: e ++ '{' :: B ++ ['}'] ++ rest) := by
      simp only [List.count_append, List.count_cons_self, List.count_cons]
      omega
    omega

/-! ## Lemmas on `removeUnnecessaryIfStatements` -/

theorem reduceFuel_of_none {re : Regex} {code : List Char} (h : regex_search code re = none)
    (keep : Option Nat) (fuel : Nat) : reduceFuel re keep (fuel + 1) code = some code := by
  simp [reduceFuel, h]

/-- One pass of a reduction loop when the match stands at the start of the text. -/
theorem reduceFuel_of_head {re : Regex} {text rest : List Char} {g : Groups}
    (h : regex_search (text ++ rest) re = some ⟨0, text.length, g⟩)
    (keep : Option Nat) (fuel : Nat) :
    reduceFuel re keep (fuel + 1) (text ++ rest)
      = reduceFuel re keep fuel
          ((match keep with
            | some i => g.getD i []
            | none => []) ++ rest) := by
  rw [reduceFuel]
  simp only [h, substrTo, substrFrom, List.take_zero, List.nil_append, Nat.zero_add,
    List.drop_left]

theorem opensBlock_mem {re : Regex} (h : OpensBlock re) : txt "\x7b" ∈ re.atoms := by
  obtain ⟨hd, tl, hat, -⟩ := h
  rw [hat]
  simp

theorem braceFree_true : BraceFree "true".toList := by decide

theorem braceFree_false : BraceFree "false".toList := by decide

/-- On a text without an opening brace the function returns its input. -/
theorem removeUnnecessaryIfStatementsFuel_of_no_open {code : List Char} (h : '{' ∉ code)
    (fuel : Nat) : removeUnnecessaryIfStatementsFuel (fuel + 1) code = some code := by
  have h1 : regex_search code ifTrueElsePattern = none :=
    regex_search_none_of_no_open (opensBlock_mem (opensBlock_ifElse braceFree_true)) h
  have h2 : regex_search code ifFalseElsePattern = none :=
    regex_search_none_of_no_open (opensBlock_mem (opensBlock_ifElse braceFree_false)) h
  have h3 : regex_search code ifTruePattern = none :=
    regex_search_none_of_no_open (opensBlock_mem (opensBlock_if braceFree_true)) h
  have h4 : regex_search code ifFalsePattern = none :=
    regex_search_none_of_no_open (opensBlock_mem (opensBlock_if braceFree_false)) h
  simp [removeUnnecessaryIfStatementsFuel, reduceFuel_of_none, h1, h2, h3, h4]

theorem searchFrom_nil_of_opensBlock {re : Regex} (hre : OpensBlock re) (pos : Nat) :
    searchFrom re pos [] = none :=
  searchFrom_none_of_suffixes pos
    (fun _ ht => matchAt_none_of_no_open (opensBlock_mem hre)
      (by rw [List.eq_nil_of_suffix_nil ht]; simp))

/-- The scan for a conditional pattern after a first position without match: nothing
is found in `f (false) {A}` nor in a following ` else {B}`. -/
theorem searchFrom_if_tail {re : Regex} (hre : OpensBlock re) {l : List Char} {tl : List Atom}
    (hhead : re.atoms = Atom.lit ('i' :: l) :: tl) {A : List Char} (hA : BraceFree A)
    (pos : Nat) :
    searchFrom re pos ("f (false) \x7b".toList ++ (A ++ '}' :: [])) = none ∧
    ∀ B, BraceFree B →
      searchFrom re pos ("f (false) \x7b".toList ++ (A ++ '}' :: (" else \x7b".toList ++ (B ++ '}' :: []))))
        = none := by
  have hend : ∀ pos, searchFrom re pos ('}' :: []) = none := by
    intro pos
    rw [searchFrom_cons_of_none pos (matchAt_none_of_close hre braceFree_nil [])]
    exact searchFrom_nil_of_opensBlock hre _
  constructor
  · rw [searchFrom_skip_no_head hhead (by decide), searchFrom_skip_close hre hA]
    exact hend _
  · intro B hB
    rw [searchFrom_skip_no_head hhead (by decide), searchFrom_skip_close hre hA]
    rw [searchFrom_cons_of_none _ (matchAt_none_of_close hre braceFree_nil _)]
    rw [searchFrom_skip_no_head hhead (by decide), searchFrom_skip_close hre hB]
    exact hend _

/-- The pattern `ifTrueElsePattern` is not found in `if (false) {A} else {B}`. -/
theorem regex_search_ifTrueElse_of_false {A B : List Char} (hA : BraceFree A)
    (hB : BraceFree B) : regex_search (ifElseText "false" A B) ifTrueElsePattern = none := by
  have e : ifElseText "false" A B
      = 'i' :: ("f (false) \x7b".toList ++ (A ++ '}' :: (" else \x7b".toList ++ (B ++ '}' :: [])))) := by
    simp [ifElseText, ifText]
  have h0 : matchAt ifTrueElsePattern
      ('i' :: ("f (false) \x7b".toList ++ (A ++ '}' :: (" else \x7b".toList ++ (B ++ '}' :: [])))))
      = none := by
    simp [matchAt, matchHere, ifTrueElsePattern, ifAtoms, txt, ws, stripPrefix, manyThen, isspace]
  rw [e, regex_search, searchFrom_cons_of_none 0 h0]
  exact (searchFrom_if_tail (opensBlock_ifElse braceFree_true) rfl hA _).2 B hB

/-- The pattern `ifTruePattern` is not found in `if (false) {A}`. -/
theorem regex_search_ifTrue_of_false {A : List Char} (hA : BraceFree A) :
    regex_search (ifText "false" A) ifTruePattern = none := by
  have e : ifText "false" A = 'i' :: ("f (false) \x7b".toList ++ (A ++ '}' :: [])) := by
    simp [ifText]
  have h0 : matchAt ifTruePattern ('i' :: ("f (false) \x7b".toList ++ (A ++ '}' :: []))) = none := by
    simp [matchAt, matchHere, ifTruePattern, ifAtoms, txt, ws, stripPrefix, manyThen, isspace]
  rw [e, regex_search, searchFrom_cons_of_none 0 h0]
  exact (searchFrom_if_tail (opensBlock_if braceFree_true) rfl hA _).1

theorem count_open_ifText (guard : String) (hg : BraceFree guard.toList) {A : List Char}
    (hA : BraceFree A) : (ifText guard A).count '{' < 2 := by
  have h1 : List.count '{' guard.data = 0 := count_open_of_braceFree hg
  have h2 := count_open_of_braceFree hA
  simp [ifText, List.count_append, h1, h2, List.count_cons]

theorem regex_search_ifText_whole {guard : String} (hne : guard.toList ≠ [])
    (hsp : ∀ x ∈ guard.toList, isspace x = false) {A : List Char} (hA : BraceFree A) :
    regex_search (ifText guard A) ⟨ifAtoms guard, 1⟩
      = some ⟨0, (ifText guard A).length, [ifText guard A, A]⟩ := by
  have := regex_search_ifText hne hsp hA []
  rw [List.append_nil] at this
  exact this

theorem regex_search_ifElseText_whole {guard : String} (hne : guard.toList ≠ [])
    (hsp : ∀ x ∈ guard.toList, isspace x = false) {A B : List Char} (hA : BraceFree A)
    (hB : BraceFree B) :
    regex_search (ifElseText guard A B) ⟨ifAtoms guard ++ elseAtoms, 2⟩
      = some ⟨0, (ifElseText guard A B).length, [ifElseText guard A B, A, B]⟩ := by
  have := regex_search_ifElseText hne hsp hA hB []
  rw [List.append_nil] at this
  exact this

/-- One pass of a reduction loop when the match is the whole text. -/
theorem reduceFuel_of_whole {re : Regex} {text : List Char} {g : Groups}
    (h : regex_search text re = some ⟨0, text.length, g⟩)
    (keep : Option Nat) (fuel : Nat) :
    reduceFuel re keep (fuel + 1) text
      = reduceFuel re keep fuel
          (match keep with
            | some i => g.getD i []
            | none => []) := by
  have h' : regex_search (text ++ []) re = some ⟨0, text.length, g⟩ := by
    rw [List.append_nil]; exact h
  have := reduceFuel_of_head h' keep fuel
  rw [List.append_nil, List.append_nil] at this
  exact this

theorem removeIf_ifElse_true {A B : List Char} (hA : BraceFree A) (hB : BraceFree B)
    (fuel : Nat) :
    removeUnnecessaryIfStatementsFuel (fuel + 2) (ifElseText "true" A B) = some A := by
  have h1 : regex_search (ifElseText "true" A B) ifTrueElsePattern
      = some ⟨0, (ifElseText "true" A B).length, [ifElseText "true" A B, A, B]⟩ :=
    regex_search_ifElseText_whole guard_true.1 guard_true.2 hA hB
  have hA' := hA.no_open
  have n1 : regex_search A ifTrueElsePattern = none :=
    regex_search_none_of_no_open (opensBlock_mem (opensBlock_ifElse braceFree_true)) hA'
  have n2 : regex_search A ifFalseElsePattern = none :=
    regex_search_none_of_no_open (opensBlock_mem (opensBlock_ifElse braceFree_false)) hA'
  have n3 : regex_search A ifTruePattern = none :=
    regex_search_none_of_no_open (opensBlock_mem (opensBlock_if braceFree_true)) hA'
  have n4 : regex_search A ifFalsePattern = none :=
    regex_search_none_of_no_open (opensBlock_mem (opensBlock_if braceFree_false)) hA'
  have r1 : reduceFuel ifTrueElsePattern (some 1) (fuel + 2) (ifElseText "true" A B) = some A := by
    have := reduceFuel_of_whole h1 (some 1) (fuel + 1)
    exact this.trans (by simpa using reduceFuel_of_none n1 (some 1) fuel)
  simp [removeUnnecessaryIfStatementsFuel, r1, reduceFuel_of_none, n2, n3, n4]

theorem removeIf_ifElse_false {A B : List Char} (hA : BraceFree A) (hB : BraceFree B)
    (fuel : Nat) :
    removeUnnecessaryIfStatementsFuel (fuel + 2) (ifElseText "false" A B) = some B := by
  have h1 := regex_search_ifTrueElse_of_false hA hB
  have h2 : regex_search (ifElseText "false" A B) ifFalseElsePattern
      = some ⟨0, (ifElseText "false" A B).length, [ifElseText "false" A B, A, B]⟩ :=
    regex_search_ifElseText_whole guard_false.1 guard_false.2 hA hB
  have hB' := hB.no_open
  have n2 : regex_search B ifFalseElsePattern = none :=
    regex_search_none_of_no_open (opensBlock_mem (opensBlock_ifElse braceFree_false)) hB'
  have n3 : regex_search B ifTruePattern = none :=
    regex_search_none_of_no_open (opensBlock_mem (opensBlock_if braceFree_true)) hB'
  have n4 : regex_search B ifFalsePattern = none :=
    regex_search_none_of_no_open (opensBlock_mem (opensBlock_if braceFree_false)) hB'
  have r2 : reduceFuel ifFalseElsePattern (some 2) (fuel + 2) (ifElseText "false" A B)
      = some B := by
    have := reduceFuel_of_whole h2 (some 2) (fuel + 1)
    exact this.trans (by simpa using reduceFuel_of_none n2 (some 2) fuel)
  simp [removeUnnecessaryIfStatementsFuel, r2, reduceFuel_of_none, h1, n3, n4]

theorem removeIf_if_true {A : List Char} (hA : BraceFree A) (fuel : Nat) :
    removeUnnecessaryIfStatementsFuel (fuel + 2) (ifText "true" A) = some A := by
  have hc := count_open_ifText "true" braceFree_true hA
  have h1 : regex_search (ifText "true" A) ifTrueElsePattern = none :=
    regex_search_ifElse_none_of_count braceFree_true hc
  have h2 : regex_search (ifText "true" A) ifFalseElsePattern = none :=
    regex_search_ifElse_none_of_count braceFree_false hc
  have h3 : regex_search (ifText "true" A) ifTruePattern
      = some ⟨0, (ifText "true" A).length, [ifText "true" A, A]⟩ :=
    regex_search_ifText_whole guard_true.1 guard_true.2 hA
  have hA' := hA.no_open
  have n3 : regex_search A ifTruePattern = none :=
    regex_search_none_of_no_open (opensBlock_mem (opensBlock_if braceFree_true)) hA'
  have n4 : regex_search A ifFalsePattern = none :=
    regex_search_none_of_no_open (opensBlock_mem (opensBlock_if braceFree_false)) hA'
  have r3 : reduceFuel ifTruePattern (some 1) (fuel + 2) (ifText "true" A) = some A := by
    have := reduceFuel_of_whole h3 (some 1) (fuel + 1)
    exact this.trans (by simpa using reduceFuel_of_none n3 (some 1) fuel)
  simp [removeUnnecessaryIfStatementsFuel, r3, reduceFuel_of_none, h1, h2, n4]

theorem removeIf_if_false {A : List Char} (hA : BraceFree A) (fuel : Nat) :
    removeUnnecessaryIfStatementsFuel (fuel + 2) (ifText "false" A) = some [] := by
  have hc := count_open_ifText "false" braceFree_false hA
  have h1 : regex_search (ifText "false" A) ifTrueElsePattern = none :=
    regex_search_ifElse_none_of_count braceFree_true hc
  have h2 : regex_search (ifText "false" A) ifFalseElsePattern = none :=
    regex_search_ifElse_none_of_count braceFree_false hc
  have h3 := regex_search_ifTrue_of_false hA
  have h4 : regex_search (ifText "false" A) ifFalsePattern
      = some ⟨0, (ifText "false" A).length, [ifText "false" A, A]⟩ :=
    regex_search_ifText_whole guard_false.1 guard_false.2 hA
  have n4 : regex_search [] ifFalsePattern = none :=
    regex_search_none_of_no_open (opensBlock_mem (opensBlock_if braceFree_false)) (by simp)
  have r4 : reduceFuel ifFalsePattern none (fuel + 2) (ifText "false" A) = some [] := by
    have := reduceFuel_of_whole h4 none (fuel + 1)
    exact this.trans (by simpa using reduceFuel_of_none n4 none fuel)
  simp [removeUnnecessaryIfStatementsFuel, r4, reduceFuel_of_none, h1, h2, h3]

/-- C3. For all brace-free texts `A` and `B`, an input that is exactly one literal-guard
conditional is reduced to the body of its taken branch: `if (true) {A} else {B}` gives
`A`, `if (false) {A} else {B}` gives `B`, `if (true) {A}` gives `A` and `if (false) {A}`
gives the empty string. -/
theorem removeUnnecessaryIfStatements_single_conditional (A B : List Char) (fuel : Nat)
    (hA : BraceFree A) (hB : BraceFree B) :
    removeUnnecessaryIfStatementsFuel (fuel + 2)
        ("if (true) \x7b".toList ++ A ++ "\x7d else \x7b".toList ++ B ++ "\x7d".toList) = some A ∧
    removeUnnecessaryIfStatementsFuel (fuel + 2)
        ("if (false) \x7b".toList ++ A ++ "\x7d else \x7b".toList ++ B ++ "\x7d".toList) = some B ∧
    removeUnnecessaryIfStatementsFuel (fuel + 2)
        ("if (true) \x7b".toList ++ A ++ "\x7d".toList) = some A ∧
    removeUnnecessaryIfStatementsFuel (fuel + 2)
        ("if (false) \x7b".toList ++ A ++ "\x7d".toList) = some [] := by
  have e1 : "if (true) \x7b".toList ++ A ++ "\x7d else \x7b".toList ++ B ++ "\x7d".toList
      = ifElseText "true" A B := by simp [ifElseText, ifText]
  have e2 : "if (false) \x7b".toList ++ A ++ "\x7d else \x7b".toList ++ B ++ "\x7d".toList
      = ifElseText "false" A B := by simp [ifElseText, ifText]
  have e3 : "if (true) \x7b".toList ++ A ++ "\x7d".toList = ifText "true" A := by simp [ifText]
  have e4 : "if (false) \x7b".toList ++ A ++ "\x7d".toList = ifText "false" A := by simp [ifText]
  rw [e1, e2, e3, e4]
  exact ⟨removeIf_ifElse_true hA hB fuel, removeIf_ifElse_false hA hB fuel,
    removeIf_if_true hA fuel, removeIf_if_false hA fuel⟩

theorem removeUnnecessaryIfStatements_single_conditional_witness :
    removeUnnecessaryIfStatementsFuel 2 "if (true) \x7b a(); \x7d else \x7b b(); \x7d".toList
        = some " a(); ".toList ∧
    removeUnnecessaryIfStatementsFuel 2 "if (false) \x7b a(); \x7d".toList = some "".toList :=
  have h := removeUnnecessaryIfStatements_single_conditional " a(); ".toList " b(); ".toList 0
    (by decide) (by decide)
  ⟨h.1, h.2.2.2⟩

/-! ## The replacement of the variable is textual -/

/-- The replacement copies a character at which the name does not start. -/
theorem regex_replace_cons_of_no_match {V : List Char} (hV : V ≠ []) {c : Char}
    {rest : List Char} (h : stripPrefix V (c :: rest) = none) (fmt : List Char) :
    regex_replace (c :: rest) V fmt = c :: regex_replace rest V fmt := by
  cases V with
  | nil => exact absurd rfl hV
  | cons a v => simp only [regex_replace, replaceFrom, h]

/-- A text returned by `loopUnrolling` holds no match of the loop pattern. -/
theorem loopUnrollingFuel_ok_no_match {code r : List Char} {t : Int} {fuel : Nat}
    (h : loopUnrollingFuel fuel code t = some (Except.ok r)) :
    regex_search r forLoopPattern = none := by
  induction fuel generalizing code with
  | zero => simp [loopUnrollingFuel] at h
  | succ fuel ih =>
    rw [loopUnrollingFuel] at h
    cases hs : regex_search code forLoopPattern with
    | none =>
      simp only [hs, Option.some.injEq, Except.ok.injEq] at h
      rw [← h]
      exact hs
    | some m =>
      simp only [hs] at h
      cases hu : unrollStep code m t with
      | error e => simp [hu] at h
      | ok code' =>
        simp only [hu] at h
        exact ih h

/-- C5. Whenever `loopUnrolling(code, t)` returns a string `r`, the loop pattern has no
match left in `r` and `loopUnrolling(r, t)` returns `r` again (also when `r` holds loops
marked as skipped). -/
theorem loopUnrolling_idempotent (code r : List Char) (t : Int) (fuel : Nat)
    (h : loopUnrollingFuel fuel code t = some (Except.ok r)) :
    regex_search r forLoopPattern = none ∧
      ∀ fuel', loopUnrollingFuel (fuel' + 1) r t = some (Except.ok r) :=
  ⟨loopUnrollingFuel_ok_no_match h,
    fun fuel' => loopUnrollingFuel_of_none (loopUnrollingFuel_ok_no_match h) fuel' t⟩

theorem loopUnrolling_idempotent_witness :
    regex_search "for (var i: u32 = 0;i < 100;i++) /* Skipped */ \x7bx[i] = i; \x7d".toList
        forLoopPattern = none ∧
      ∀ fuel', loopUnrollingFuel (fuel' + 1)
          "for (var i: u32 = 0;i < 100;i++) /* Skipped */ \x7bx[i] = i; \x7d".toList 32
        = some (Except.ok "for (var i: u32 = 0;i < 100;i++) /* Skipped */ \x7bx[i] = i; \x7d".toList) :=
  loopUnrolling_idempotent "for (var i: u32 = 0; i < 100; i++) \x7b x[i] = i; \x7d".toList
    "for (var i: u32 = 0;i < 100;i++) /* Skipped */ \x7bx[i] = i; \x7d".toList 32 2 (by rfl)

/-! ## The weight of the opening braces -/

theorem braceWeight_append (st : Bool) (xs ys : List Char) :
    braceWeight st (xs ++ ys) = braceWeight st xs + braceWeight (lastIsParen st xs) ys := by
  induction xs generalizing st with
  | nil => simp [braceWeight, lastIsParen]
  | cons x xs ih =>
    show _ + braceWeight _ (xs ++ ys) = (_ + braceWeight _ xs) + braceWeight (lastIsParen _ xs) ys
    rw [ih, Nat.add_assoc]

theorem braceWeight_of_no_open (st : Bool) {xs : List Char} (h : '{' ∉ xs) :
    braceWeight st xs = 0 := by
  induction xs generalizing st with
  | nil => rfl
  | cons x xs ih =>
    have hx : x ≠ '{' := fun e => h (e ▸ List.mem_cons_self _ _)
    have := ih (if isspace x then st else x == ')') (fun hm => h (List.mem_cons_of_mem _ hm))
    simp [braceWeight, hx, this]

theorem braceWeight_open (st : Bool) (ys : List Char) :
    braceWeight st ('{' :: ys) = (if st then 2 else 1) + braceWeight false ys := by
  have h1 : isspace '{' = false := by decide
  have h2 : ('{' == ')') = false := by decide
  simp [braceWeight, h1, h2]

theorem braceWeight_close (st : Bool) (ys : List Char) :
    braceWeight st ('}' :: ys) = braceWeight false ys := by
  have h1 : isspace '}' = false := by decide
  have h2 : ('}' == ')') = false := by decide
  have h3 : ¬ ('}' = '{') := by decide
  simp [braceWeight, h1, h2, h3]

/-- The state in which a text is entered changes its weight by one at most. -/
theorem braceWeight_state_le (st : Bool) (ys : List Char) :
    braceWeight st ys ≤ braceWeight false ys + 1 := by
  induction ys generalizing st with
  | nil => simp [braceWeight]
  | cons y ys ih =>
    by_cases hy : y = '{'
    · subst hy
      rw [braceWeight_open, braceWeight_open]
      cases st <;> simp only [if_true, Bool.false_eq_true, if_false] <;> omega
    · by_cases hs : isspace y = true
      · have := ih st
        simp only [braceWeight, hy, hs, if_true, if_false, Nat.zero_add]
        exact this
      · simp [braceWeight, hy, hs]

theorem braceWeight_le_count (st : Bool) (ys : List Char) :
    braceWeight st ys ≤ 2 * ys.count '{' := by
  induction ys generalizing st with
  | nil => simp [braceWeight]
  | cons y ys ih =>
    by_cases hy : y = '{'
    · subst hy
      rw [braceWeight_open, List.count_cons_self]
      have := ih false
      cases st <;> simp <;> omega
    · have := ih (if isspace y then st else y == ')')
      have hy' : ¬ ((y == '{') = true) := by simpa using hy
      simp only [braceWeight, hy, if_false, Nat.zero_add, List.count_cons, hy']
      simpa using this

/-- Weight of a text that continues with a match of the loop pattern. -/
theorem braceWeight_match (st : Bool) {hd w w' b : List Char} (rest : List Char)
    (hhd : BraceFree hd) (hw : ∀ x ∈ w, isspace x = true) (hw' : ∀ x ∈ w', isspace x = true)
    (hb : BraceFree b) :
    braceWeight st (hd ++ ')' :: w ++ '{' :: w' ++ b ++ '}' :: rest)
      = 2 + braceWeight false rest := by
  have e : hd ++ ')' :: w ++ '{' :: w' ++ b ++ '}' :: rest
      = (hd ++ ')' :: w) ++ ('{' :: ((w' ++ b) ++ ('}' :: rest))) := by simp
  rw [e, braceWeight_append, braceWeight_of_no_open _ (braceFree_header hhd hw).no_open,
    lastIsParen_header _ _ hw, braceWeight_open, braceWeight_append,
    braceWeight_of_no_open _ (braceFree_spaces_append hw' hb).no_open, braceWeight_close]
  simp

theorem lastIsParen_skippedHeader (st : Bool) (xs : List Char) :
    lastIsParen st (xs ++ ['/', ' ']) = false := by
  have h1 : isspace '/' = false := by decide
  have h2 : isspace ' ' = true := by decide
  rw [lastIsParen_append]
  simp [lastIsParen, h1, h2]

/-- Weight of a text that continues with a loop marked as skipped. -/
theorem braceWeight_skippedLoop (st : Bool) {V S E B : List Char} (rest : List Char)
    (hV : BraceFree V) (hS : BraceFree S) (hE : BraceFree E) (hB : BraceFree B) :
    braceWeight st (skippedLoop V S E B ++ rest) = 1 + braceWeight false rest := by
  have e : skippedLoop V S E B ++ rest
      = ("for (var ".toList ++ V ++ ": u32 = ".toList ++ S ++ ";".toList ++ V ++ " < ".toList
          ++ E ++ ";".toList ++ V ++ "++) /* Skipped *".toList ++ ['/', ' '])
        ++ ('{' :: (B ++ ('}' :: rest))) := by
    rw [skippedLoop_eq]; simp
  rw [e, braceWeight_append, braceWeight_of_no_open _ (braceFree_skippedHeader hV hS hE).no_open,
    lastIsParen_skippedHeader, braceWeight_open, braceWeight_append,
    braceWeight_of_no_open _ hB.no_open, braceWeight_close]
  simp

/-! ## Every rewrite of `loopUnrolling` lowers the weight -/

/-- What a successful scan has found: the text in front of the match and the match. -/
theorem searchFrom_some {re : Regex} {pos : Nat} {s : List Char} {m : SMatch}
    (h : searchFrom re pos s = some m) :
    ∃ pre t rest, s = pre ++ t ∧ m.position = pos + pre.length ∧
      matchAt re t = some (m.sub, rest) ∧ m.length = t.length - rest.length := by
  induction s generalizing pos with
  | nil =>
    simp only [searchFrom] at h
    split at h
    · rename_i g rest hm
      cases h
      have hr : rest = [] := by
        obtain ⟨g0, h0, -⟩ := matchAt_some hm
        obtain ⟨c, hc, -⟩ := matchHere_sound _ _ _ _ _ h0
        exact (List.append_eq_nil.1 hc.symm).2
      exact ⟨[], [], rest, rfl, rfl, hm, by simp [hr]⟩
    · cases h
  | cons c cs ih =>
    simp only [searchFrom] at h
    split at h
    · rename_i g rest hm
      cases h
      exact ⟨[], c :: cs, rest, rfl, rfl, hm, rfl⟩
    · obtain ⟨pre, t, rest, hs, hp, hm, hl⟩ := ih h
      exact ⟨c :: pre, t, rest, by rw [hs]; rfl, by rw [hp, List.length_cons]; omega, hm, hl⟩

theorem getD_set_of_ne {g : Groups} {i j : Nat} (h : i ≠ j) (v : List Char) :
    (g.set i v).getD j [] = g.getD j [] := by
  simp [List.getD_eq_getElem?_getD, List.getElem?_set_ne h]

/-- What a successful scan for a loop has found. -/
theorem regex_search_forLoop_some {s : List Char} {m : SMatch}
    (h : regex_search s forLoopPattern = some m) :
    ∃ pre hd w w' b rest,
      s = pre ++ (hd ++ ')' :: w ++ '{' :: w' ++ b ++ ['}']) ++ rest ∧
      substrTo s m.position = pre ∧ substrFrom s (m.position + m.length) = rest ∧
      BraceFree hd ∧ (∀ x ∈ w, isspace x = true) ∧ (∀ x ∈ w', isspace x = true) ∧
      BraceFree b ∧ m.sub.getD 4 [] = b ∧ BraceFree (m.sub.getD 1 []) ∧
      BraceFree (m.sub.getD 2 []) ∧ BraceFree (m.sub.getD 3 []) := by
  obtain ⟨pre, t, rest, hs, hp, hm, hl⟩ := searchFrom_some h
  obtain ⟨g0, h0, hg⟩ := matchAt_some hm
  obtain ⟨hd, w, w', b, ht, hhd, hw, hw', hb, h4, hfree⟩ := forLoop_shape h0
  have e : t = (hd ++ ')' :: w ++ '{' :: w' ++ b ++ ['}']) ++ rest := by rw [ht]; simp
  have hlen : m.length = (hd ++ ')' :: w ++ '{' :: w' ++ b ++ ['}']).length := by
    rw [hl, e, List.length_append]; omega
  have hpos : m.position = pre.length := by rw [hp]; omega
  refine ⟨pre, hd, w, w', b, rest, by rw [hs, e]; simp, ?_, ?_, hhd, hw, hw', hb,
    ?_, ?_, ?_, ?_⟩
  · rw [hs, hpos, substrTo, List.take_left]
  · rw [hs, hpos, hlen, e, substrFrom, ← List.append_assoc, ← List.length_append,
      List.drop_left]
  · rw [hg, getD_set_of_ne (by decide), h4]
  · rw [hg, getD_set_of_ne (by decide)]; exact hfree.getD 1
  · rw [hg, getD_set_of_ne (by decide)]; exact hfree.getD 2
  · rw [hg, getD_set_of_ne (by decide)]; exact hfree.getD 3

/-- A pass of the `while` loop that does not throw lowers the weight of the text. -/
theorem unrollStep_weight {s : List Char} {m : SMatch} {t : Int} {code' : List Char}
    (h : regex_search s forLoopPattern = some m) (hu : unrollStep s m t = Except.ok code') :
    braceWeight false code' < braceWeight false s := by
  obtain ⟨pre, hd, w, w', b, rest, hs, hto, hfrom, hhd, hw, hw', hb, h4, h1, h2, h3⟩ :=
    regex_search_forLoop_some h
  have hold : braceWeight false s = braceWeight false pre + (2 + braceWeight false rest) := by
    rw [hs, List.append_assoc, braceWeight_append]
    have e : (hd ++ ')' :: w ++ '{' :: w' ++ b ++ ['}']) ++ rest
        = hd ++ ')' :: w ++ '{' :: w' ++ b ++ '}' :: rest := by simp
    rw [e, braceWeight_match _ rest hhd hw hw' hb]
  unfold unrollStep at hu
  rw [hto, hfrom, h4] at hu
  cases hs2 : stoi (m.sub.getD 2 []) with
  | error e =>
    rw [hs2] at hu
    cases hu
  | ok start =>
    cases hs3 : stoi (m.sub.getD 3 []) with
    | error e =>
      rw [hs2, hs3] at hu
      cases hu
    | ok end_ =>
      rw [hs2, hs3] at hu
      simp only at hu
      split at hu
      · cases hu
        rw [hold, List.append_assoc, braceWeight_append, braceWeight_skippedLoop _ rest h1 h2 h3 hb]
        omega
      · cases hu
        rw [hold, List.append_assoc, braceWeight_append, braceWeight_append,
          braceWeight_of_no_open _ (braceFree_unrollIterations hb start _).no_open]
        have := braceWeight_state_le
          (lastIsParen (lastIsParen false pre)
            (unrollIterations b (m.sub.getD 1 []) start (end_ - start).toNat)) rest
        omega

/-- The loop of `loopUnrolling` stops: the weight of the text bounds the number of
passes. -/
theorem loopUnrollingFuel_of_weight (t : Int) (n : Nat) (code : List Char)
    (h : braceWeight false code ≤ n) : ∃ r, ∀ k, loopUnrollingFuel (n + 1 + k) code t = some r := by
  induction n generalizing code with
  | zero =>
    cases hs : regex_search code forLoopPattern with
    | none =>
      refine ⟨Except.ok code, fun k => ?_⟩
      rw [Nat.zero_add, Nat.add_comm]
      exact loopUnrollingFuel_of_none hs k t
    | some m =>
      cases hu : unrollStep code m t with
      | error e =>
        refine ⟨Except.error e, fun k => ?_⟩
        rw [Nat.zero_add, Nat.add_comm, loopUnrollingFuel]
        simp [hs, hu]
      | ok code' =>
        have := unrollStep_weight hs hu
        omega
  | succ n ih =>
    cases hs : regex_search code forLoopPattern with
    | none =>
      refine ⟨Except.ok code, fun k => ?_⟩
      have e : n + 1 + 1 + k = (n + 1 + k) + 1 := by omega
      rw [e]
      exact loopUnrollingFuel_of_none hs _ t
    | some m =>
      cases hu : unrollStep code m t with
      | error e =>
        refine ⟨Except.error e, fun k => ?_⟩
        have e' : n + 1 + 1 + k = (n + 1 + k) + 1 := by omega
        rw [e', loopUnrollingFuel]
        simp [hs, hu]
      | ok code' =>
        have hw := unrollStep_weight hs hu
        obtain ⟨r, hr⟩ := ih code' (by omega)
        refine ⟨r, fun k => ?_⟩
        have e' : n + 1 + 1 + k = (n + 1 + k) + 1 := by omega
        rw [e', loopUnrollingFuel]
        simp only [hs, hu]
        exact hr k

/-- C8. For every input and every threshold the loop of `loopUnrolling` makes finitely
many passes and then stops, with a result or with the exception of `std::stoi`: twice
the number of opening braces of the input bounds the number of rewrites, since a rewrite
either removes an opening brace (unrolling, also when the copies form a new loop with the
text that follows) or moves it behind the skip marker, where no match can use it. -/
theorem loopUnrolling_terminates (code : List Char) (t : Int) :
    ∃ r, ∀ k, loopUnrollingFuel (2 * code.count '{' + 1 + k) code t = some r :=
  loopUnrollingFuel_of_weight t (2 * code.count '{') code (braceWeight_le_count false code)

/-- The groups captured by the header of the loop pattern: an identifier and two
digit literals. -/
theorem Sem_forHead_groups {g g' : Groups} {c : List Char} (h : Sem forHead g c g') :
    ∃ V S E, IsIdent V ∧ IsDigits S ∧ IsDigits E ∧ g' = ((g.set 1 V).set 2 S).set 3 E := by
  obtain ⟨c1, rfl, x2, c2, rfl, -, -, c3, rfl, x4, c4, rfl, -, -, c5, rfl, x6, c6, rfl, -, -, V, c7, rfl, hV, hVl, c8, rfl, x9, c9, rfl, -, -, c10, rfl, x11, c11, rfl, -, -, c12, rfl, x13, c13, rfl, -, -, S, c14, rfl, hS, hSl, x15, c15, rfl, -, -, c16, rfl, x17, c17, rfl, -, -, c18, rfl, x19, c19, rfl, -, -, c20, rfl, x21, c21, rfl, -, -, E, c22, rfl, hE, hEl, x23, c23, rfl, -, -, c24, rfl, x25, c25, rfl, -, -, c26, rfl, c27, rfl, x28, c28, rfl, -, -, -, rfl⟩ := h
  refine ⟨V, S, E, ⟨?_, hV⟩, ⟨?_, hS⟩, ⟨?_, hE⟩, rfl⟩
  · exact List.ne_nil_of_length_pos hVl
  · exact List.ne_nil_of_length_pos hSl
  · exact List.ne_nil_of_length_pos hEl

/-- The sub-matches of a match of the loop pattern. -/
theorem regex_search_forLoop_groups {s : List Char} {m : SMatch}
    (h : regex_search s forLoopPattern = some m) :
    ∃ M V S E b, m.sub = [M, V, S, E, b] ∧ IsIdent V ∧ IsDigits S ∧ IsDigits E ∧ BraceFree b := by
  obtain ⟨pre, t, rest, hs, hp, hm, hl⟩ := searchFrom_some h
  obtain ⟨g0, h0, hg⟩ := matchAt_some hm
  obtain ⟨c, rfl, hsem⟩ := matchHere_sound _ _ _ _ _ h0
  rw [forLoopPattern_atoms] at hsem
  obtain ⟨c1, c2, g1, rfl, h1, h2⟩ := Sem_append hsem
  obtain ⟨V, S, E, hV, hS, hE, rfl⟩ := Sem_forHead_groups h1
  obtain ⟨w, w', b, rfl, hw, hw', hb, rfl⟩ := Sem_forTail h2
  exact ⟨_, V, S, E, b, by rw [hg]; rfl, hV, hS, hE, hb⟩

/-- C9 (as amended). When the scan finds a loop one of whose bounds has a value
larger than `INT_MAX`, `loopUnrolling` leaves with the exception `std::out_of_range`
raised by `std::stoi` and returns no code; nothing is computed from a wrapped or
truncated bound. -/
theorem loopUnrolling_out_of_range (code : List Char) (m : SMatch) (t : Int) (fuel : Nat)
    (hm : regex_search code forLoopPattern = some m)
    (hbig : INT_MAX < (digitsValue 0 (m.sub.getD 2 []) : Int)
      ∨ INT_MAX < (digitsValue 0 (m.sub.getD 3 []) : Int)) :
    loopUnrollingFuel (fuel + 1) code t = some (Except.error (Exn.out_of_range "stoi")) := by
  obtain ⟨M, V, S, E, b, hsub, hV, hS, hE, hb⟩ := regex_search_forLoop_groups hm
  have h2 : m.sub.getD 2 [] = S := by rw [hsub]; rfl
  have h3 : m.sub.getD 3 [] = E := by rw [hsub]; rfl
  rw [h2, h3] at hbig
  have hstep : unrollStep code m t = Except.error (Exn.out_of_range "stoi") := by
    unfold unrollStep
    rw [h2, h3, stoi_digits hS, stoi_digits hE]
    by_cases hs : INT_MAX < (digitsValue 0 S : Int)
    · rw [if_pos hs]
    · rw [if_neg hs, if_pos (hbig.resolve_left hs)]
  rw [loopUnrollingFuel]
  simp only [hm, hstep]

theorem loopUnrolling_out_of_range_witness :
    loopUnrollingFuel 1 "for (var i: u32 = 0; i < 99999999999; i++) \x7b x; \x7d".toList 32
      = some (Except.error (Exn.out_of_range "stoi")) :=
  loopUnrolling_out_of_range "for (var i: u32 = 0; i < 99999999999; i++) \x7b x; \x7d".toList
    ⟨0, 49, ["for (var i: u32 = 0; i < 99999999999; i++) \x7b x; \x7d".toList, "i".toList, "0".toList,
      "99999999999".toList, "x; ".toList]⟩ 32 0 (by rfl) (by decide)

/-- C9 fails as stated: on a loop with the end bound `99999999999` the function leaves
with `std::out_of_range` whose message is `stoi`; the message names neither the loop
nor the bound. -/
theorem loopUnrolling_invalid_bounds_counterexample :
    loopUnrollingFuel 2 "for (var i: u32 = 0; i < 99999999999; i++) \x7b x; \x7d".toList 32
        = some (Except.error (Exn.out_of_range "stoi"))
      ∧ ¬ ("99999999999".toList <:+: "stoi".toList)
      ∧ ¬ ("for (var i: u32 = 0; i < 99999999999; i++) \x7b x; \x7d".toList <:+: "stoi".toList) := by
  refine ⟨by rfl, by decide, by decide⟩

/-! ## A loop inside a loop -/

theorem loopText_eq_header (V S E X : List Char) :
    loopText V S E X = loopHeader V S E ++ '{' :: (X ++ ['}']) := by
  simp [loopText, loopHeader]

theorem braceFree_loopHeader {V S E : List Char} (hV : BraceFree V) (hS : BraceFree S)
    (hE : BraceFree E) : BraceFree (loopHeader V S E) := by
  have lit : ∀ t : String, BraceFree t.toList → BraceFree t.toList := fun _ h => h
  have h1 := (lit "for (var " (by decide)).append hV
  have h2 := (h1.append (lit ": u32 = " (by decide))).append hS
  have h3 := (h2.append (lit "; " (by decide))).append hV
  have h4 := (h3.append (lit " < " (by decide))).append hE
  have h5 := (h4.append (lit "; " (by decide))).append hV
  exact h5.append (lit "++) " (by decide))

theorem forLoopPattern_head :
    forLoopPattern.atoms = Atom.lit ('f' :: ['o', 'r']) :: forLoopPattern.atoms.tail := rfl

theorem not_mem_spaces {sp : List Char} (hsp : ∀ x ∈ sp, isspace x = true) : 'f' ∉ sp := by
  intro h
  have := hsp _ h
  revert this
  decide

/-- The scan of a loop whose body begins with another loop: no match starts in front
of the inner loop, and the inner loop is the match. -/
theorem regex_search_nested (V1 S1 E1 V2 S2 E2 sp X Q : List Char)
    (hV1 : IsIdent V1) (hS1 : IsDigits S1) (hE1 : IsDigits E1)
    (hV2 : IsIdent V2) (hS2 : IsDigits S2) (hE2 : IsDigits E2)
    (hsp : ∀ x ∈ sp, isspace x = true) (hX : BraceFree X) :
    matchAt forLoopPattern (loopText V1 S1 E1 (sp ++ loopText V2 S2 E2 X ++ Q)) = none ∧
    regex_search (loopText V1 S1 E1 (sp ++ loopText V2 S2 E2 X ++ Q)) forLoopPattern
      = some ⟨(loopHeader V1 S1 E1).length + 1 + sp.length, (loopText V2 S2 E2 X).length,
          [loopText V2 S2 E2 X, V2, S2, E2, X.dropWhile isspace]⟩ := by
  have hH1 := braceFree_loopHeader (braceFree_of_isIdent hV1) (braceFree_of_isDigits hS1)
    (braceFree_of_isDigits hE1)
  have hH2 := braceFree_loopHeader (braceFree_of_isIdent hV2) (braceFree_of_isDigits hS2)
    (braceFree_of_isDigits hE2)
  have hu : BraceFree (sp ++ loopHeader V2 S2 E2) :=
    BraceFree.append (fun c hc => notBrace_of_isspace (hsp c hc)) hH2
  have e : loopText V1 S1 E1 (sp ++ loopText V2 S2 E2 X ++ Q)
      = loopHeader V1 S1 E1 ++ '{' :: ((sp ++ loopHeader V2 S2 E2) ++ '{' :: (X ++ '}' :: (Q ++ ['}']))) := by
    rw [loopText_eq_header, loopText_eq_header]; simp
  have e' : loopText V1 S1 E1 (sp ++ loopText V2 S2 E2 X ++ Q)
      = loopHeader V1 S1 E1 ++ ('{' :: (sp ++ (loopText V2 S2 E2 X ++ (Q ++ ['}'])))) := by
    rw [loopText_eq_header]; simp
  have hnested : ∀ t, t <:+ loopHeader V1 S1 E1 →
      matchAt forLoopPattern (t ++ ('{' :: (sp ++ (loopText V2 S2 E2 X ++ (Q ++ ['}']))))) = none := by
    intro t ht
    have := @matchAt_forLoop_none_of_nested t (sp ++ loopHeader V2 S2 E2)
      (X ++ '}' :: (Q ++ ['}'])) (braceFree_of_suffix ht hH1) hu
    rw [← this]
    congr 1
    rw [loopText_eq_header]; simp
  constructor
  · rw [e']
    exact hnested _ (List.suffix_refl _)
  · rw [regex_search, e', searchFrom_append_of_none _ _ 0 (fun t ht _ => hnested t ht)]
    rw [searchFrom_cons_of_none _ (matchAt_none_of_head_ne forLoopPattern_head (by decide) _)]
    rw [searchFrom_skip_no_head forLoopPattern_head (not_mem_spaces hsp)]
    have hm := matchAt_of_matchHere forLoopPattern
      (matchHere_loopText V2 S2 E2 X (Q ++ ['}']) hV2 hS2 hE2 hX)
    rw [searchFrom_of_matchAt _ hm]
    simp

/-- C7 fails as stated: on the nested loops of the claim the function does not return
its input; the inner loop is unrolled first and the outer loop, then brace-free, after
it. -/
theorem loopUnrolling_nested_counterexample :
    loopUnrollingFuel 3
        "for (var i: u32 = 0; i < 2; i++) \x7b for (var j: u32 = 0; j < 2; j++) \x7b a[j] = i; \x7d \x7d".toList
        32
      = some (Except.ok "a[0] = 0; a[1] = 0;  a[0] = 1; a[1] = 1;  ".toList)
    ∧ "a[0] = 0; a[1] = 0;  a[0] = 1; a[1] = 1;  ".toList
      ≠ "for (var i: u32 = 0; i < 2; i++) \x7b for (var j: u32 = 0; j < 2; j++) \x7b a[j] = i; \x7d \x7d".toList := by
  refine ⟨by rfl, by decide⟩

/-! ## A pattern and its first atoms -/

theorem manyThen_mono {α β : Type} (p : Char → Bool) (k : List Char → List Char → Option α)
    (k' : List Char → List Char → Option β)
    (hk : ∀ acc rest r, k acc rest = some r → ∃ r', k' acc rest = some r')
    (acc s : List Char) (r : α) (h : manyThen p k acc s = some r) :
    ∃ r', manyThen p k' acc s = some r' := by
  induction s generalizing acc r with
  | nil => exact hk acc [] r (by simpa [manyThen] using h)
  | cons c cs ih =>
    simp only [manyThen] at h ⊢
    by_cases hp : p c = true
    · simp only [hp, if_true] at h ⊢
      cases h1 : manyThen p k (acc ++ [c]) cs with
      | some r1 =>
        obtain ⟨r', hr'⟩ := ih _ _ h1
        exact ⟨r', by simp [hr']⟩
      | none =>
        simp only [h1] at h
        obtain ⟨r', hr'⟩ := hk _ _ _ h
        cases h2 : manyThen p k' (acc ++ [c]) cs with
        | some r2 => exact ⟨r2, rfl⟩
        | none => exact ⟨r', by simp [hr']⟩
    · simp only [hp] at h ⊢
      exact hk _ _ _ (by simpa using h)

/-- When a pattern without back-references matches, so do its first atoms, whatever
the groups at the start. -/
theorem matchHere_of_append {p1 p2 : List Atom} (hp1 : ∀ a ∈ p1, Atom.NoBackref a)
    {g : Groups} {s : List Char} {r : Groups × List Char}
    (h : matchHere (p1 ++ p2) g s = some r) (g' : Groups) :
    ∃ r', matchHere p1 g' s = some r' := by
  induction p1 generalizing g g' s r with
  | nil => exact ⟨(g', s), rfl⟩
  | cons a p1 ih =>
    have hp1' : ∀ a ∈ p1, Atom.NoBackref a := fun b hb => hp1 b (List.mem_cons_of_mem _ hb)
    cases a with
    | lit l =>
      simp only [List.cons_append, matchHere] at h ⊢
      cases hs : stripPrefix l s with
      | none => simp [hs] at h
      | some rest =>
        simp only [hs] at h ⊢
        exact ih hp1' h g'
    | many p min cap =>
      simp only [List.cons_append, matchHere] at h ⊢
      refine manyThen_mono p _ _ ?_ [] s r h
      intro acc rest r0 h0
      by_cases hmin : min ≤ acc.length
      · simp only [hmin, if_true] at h0 ⊢
        exact ih hp1' h0 _
      · simp [hmin] at h0
    | backref i => exact absurd (hp1 _ (List.mem_cons_self _ _)) id

theorem matchAt_none_of_shorter {re re' : Regex} {p2 : List Atom} (hre : re.atoms = re'.atoms ++ p2)
    (hnb : ∀ a ∈ re'.atoms, Atom.NoBackref a) {s : List Char}
    (h : matchAt re' s = none) : matchAt re s = none := by
  cases h1 : matchAt re s with
  | none => rfl
  | some r =>
    obtain ⟨g, rest⟩ := r
    obtain ⟨g0, h0, -⟩ := matchAt_some h1
    rw [hre] at h0
    obtain ⟨⟨g1, rest1⟩, h2⟩ := matchHere_of_append hnb h0 (List.replicate (re'.ngroups + 1) [])
    rw [matchAt_of_matchHere re' h2] at h
    cases h

theorem searchFrom_none {re : Regex} {pos : Nat} {s : List Char}
    (h : searchFrom re pos s = none) : ∀ t, t <:+ s → matchAt re t = none := by
  induction s generalizing pos with
  | nil =>
    intro t ht
    rw [List.eq_nil_of_suffix_nil ht]
    simp only [searchFrom] at h
    split at h
    · cases h
    · assumption
  | cons c cs ih =>
    simp only [searchFrom] at h
    split at h
    · cases h
    · rename_i hm
      intro t ht
      rcases List.suffix_cons_iff.1 ht with rfl | ht
      · exact hm
      · exact ih h t ht

/-- Where the first atoms of a pattern are not found, the pattern is not found. -/
theorem regex_search_none_of_shorter {re re' : Regex} {p2 : List Atom}
    (hre : re.atoms = re'.atoms ++ p2) (hnb : ∀ a ∈ re'.atoms, Atom.NoBackref a)
    {s : List Char} (h : regex_search s re' = none) : regex_search s re = none :=
  searchFrom_none_of_suffixes 0 (fun t ht => matchAt_none_of_shorter hre hnb (searchFrom_none h t ht))

theorem ifAtoms_noBackref (guard : String) : ∀ a ∈ ifAtoms guard, Atom.NoBackref a := by
  intro a ha
  simp only [ifAtoms, List.mem_cons, List.mem_singleton, List.not_mem_nil, or_false] at ha
  rcases ha with rfl | rfl | rfl | rfl | rfl | rfl | rfl | rfl | rfl | rfl | rfl <;> trivial

/-- A text returned by one of the reduction loops holds no match of its pattern. -/
theorem reduceFuel_ok_no_match {re : Regex} {keep : Option Nat} {fuel : Nat}
    {code r : List Char} (h : reduceFuel re keep fuel code = some r) :
    regex_search r re = none := by
  induction fuel generalizing code with
  | zero => simp [reduceFuel] at h
  | succ fuel ih =>
    rw [reduceFuel] at h
    cases hs : regex_search code re with
    | none =>
      simp only [hs, Option.some.injEq] at h
      rw [← h]
      exact hs
    | some m =>
      simp only [hs] at h
      exact ih h

/-- C6 (as amended). The output `r` of one call of `removeUnnecessaryIfStatements` holds
no match of the two `if (false)` patterns, and a second call returns `r` unchanged
whenever `ifTruePattern` has no match in `r`. -/
theorem removeUnnecessaryIfStatements_second_call (code r : List Char) (fuel : Nat)
    (h : removeUnnecessaryIfStatementsFuel fuel code = some r) :
    regex_search r ifFalsePattern = none ∧ regex_search r ifFalseElsePattern = none ∧
      (regex_search r ifTruePattern = none →
        ∀ fuel', removeUnnecessaryIfStatementsFuel (fuel' + 1) r = some r) := by
  have h4 : regex_search r ifFalsePattern = none := by
    unfold removeUnnecessaryIfStatementsFuel at h
    obtain ⟨c1, -, h⟩ := Option.bind_eq_some.1 h
    obtain ⟨c2, -, h⟩ := Option.bind_eq_some.1 h
    obtain ⟨c3, -, h⟩ := Option.bind_eq_some.1 h
    exact reduceFuel_ok_no_match h
  have h2 : regex_search r ifFalseElsePattern = none :=
    @regex_search_none_of_shorter ifFalseElsePattern ifFalsePattern elseAtoms rfl
      (ifAtoms_noBackref "false") r h4
  refine ⟨h4, h2, fun h3 fuel' => ?_⟩
  have h1 : regex_search r ifTrueElsePattern = none :=
    @regex_search_none_of_shorter ifTrueElsePattern ifTruePattern elseAtoms rfl
      (ifAtoms_noBackref "true") r h3
  simp [removeUnnecessaryIfStatementsFuel, reduceFuel_of_none, h1, h2, h3, h4]

theorem removeUnnecessaryIfStatements_second_call_witness :
    regex_search " a(); ".toList ifFalsePattern = none ∧
      regex_search " a(); ".toList ifFalseElsePattern = none ∧
      (regex_search " a(); ".toList ifTruePattern = none →
        ∀ fuel', removeUnnecessaryIfStatementsFuel (fuel' + 1) " a(); ".toList
          = some " a(); ".toList) :=
  removeUnnecessaryIfStatements_second_call "if (true) \x7b a(); \x7d else \x7b b(); \x7d".toList
    " a(); ".toList 2 (by rfl)

/-- C6 fails as stated: on `if (true) { if (false) { a(); } }` the first call returns
`if (true) {  }`, in which `ifTruePattern` matches, and the second call reduces it to
two spaces. -/
theorem removeUnnecessaryIfStatements_idempotence_counterexample :
    removeUnnecessaryIfStatementsFuel 2 "if (true) \x7b if (false) \x7b a(); \x7d \x7d".toList
        = some "if (true) \x7b  \x7d".toList
    ∧ removeUnnecessaryIfStatementsFuel 2 "if (true) \x7b  \x7d".toList = some "  ".toList
    ∧ "  ".toList ≠ "if (true) \x7b  \x7d".toList := by
  refine ⟨by rfl, by rfl, by decide⟩

/-- C10, run of the code on a failing input: the inner conditional is reduced to
`c();` by the second loop, after the first loop is over; the third loop then takes
`if (true) {a();}` for a conditional without else branch and leaves the else branch
behind. -/
theorem removeUnnecessaryIfStatements_dangling_else :
    removeUnnecessaryIfStatementsFuel 2
        "if (true) \x7ba();\x7d else \x7b if (false) \x7bb();\x7d else \x7bc();\x7d \x7d".toList
      = some "a(); else \x7b c(); \x7d".toList := by
  rfl

/-- An input in which the unrolled body and the text after the loop form a new loop:
the run unrolls that loop as well and stops. -/
theorem loopUnrolling_rebuilt_loop_example :
    loopUnrollingFuel 3
        "for (var i: u32 = 0; i < 1; i++) \x7b for (var j: u32 = 0; j < 1; j++) \x7d\x7b x \x7d".toList 32
      = some (Except.ok "x ".toList) := by
  rfl

/-- C12. For every single loop `for (var V: u32 = S; V < E; V++) {X}` with brace-free
text between the braces whose bounds satisfy `end ≤ start`, and every threshold `≥ 0`,
`loopUnrolling` replaces the loop by the empty string: it neither marks the loop as
skipped nor fails. -/
theorem loopUnrolling_empty_range (V S E X : List Char) (start end_ threshold : Int)
    (fuel : Nat) (hV : IsIdent V) (hS : IsDigits S) (hE : IsDigits E) (hX : BraceFree X)
    (hs : stoi S = Except.ok start) (he : stoi E = Except.ok end_)
    (hle : end_ ≤ start) (ht : 0 ≤ threshold) :
    loopUnrollingFuel (fuel + 2) (loopText V S E X) threshold = some (Except.ok []) := by
  rw [loopUnrollingFuel_loopText_unrolled V S E X start end_ threshold fuel hV hS hE hX hs he
    (by omega)]
  have h0 : (end_ - start).toNat = 0 := Int.toNat_eq_zero.2 (by omega)
  rw [h0]
  rfl

theorem loopUnrolling_empty_range_witness :
    loopUnrollingFuel 2 "for (var i: u32 = 5; i < 3; i++) \x7b x[i] = i; \x7d".toList 32
      = some (Except.ok "".toList) :=
  loopUnrolling_empty_range "i".toList "5".toList "3".toList " x[i] = i; ".toList 5 3 32 0
    (by decide) (by decide) (by decide) (by decide) (by rfl) (by rfl) (by decide) (by decide)

/-! ## The full text of a match of the loop pattern -/

/-- The text matched by the header atoms of the loop pattern. -/
theorem Sem_forHead_text {g' : Groups} {c : List Char}
    (h : Sem forHead (List.replicate 5 []) c g') :
    ∃ (w : List (List Char)) (V S E : List Char), AllSpaces w ∧
      IsIdent V ∧ IsDigits S ∧ IsDigits E ∧ c = headerText w V S E ∧
      g' = [[], V, S, E, []] := by
  obtain ⟨c1, rfl, x1, c2, rfl, hx1, -, c3, rfl, x2, c4, rfl, hx2, -, c5, rfl, x3, c6, rfl, hx3, -, V, c7, rfl, hV, hVl, c8, rfl, x4, c9, rfl, hx4, -, c10, rfl, x5, c11, rfl, hx5, -, c12, rfl, x6, c13, rfl, hx6, -, S, c14, rfl, hS, hSl, x7, c15, rfl, hx7, -, c16, rfl, x8, c17, rfl, hx8, -, c18, rfl, x9, c19, rfl, hx9, -, c20, rfl, x10, c21, rfl, hx10, -, E, c22, rfl, hE, hEl, x11, c23, rfl, hx11, -, c24, rfl, x12, c25, rfl, hx12, -, c26, rfl, c27, rfl, x13, c28, rfl, hx13, -, rfl, rfl⟩ := h
  refine ⟨[[], x1, x2, x3, x4, x5, x6, x7, x8, x9, x10, x11, x12, x13], V, S, E, ?_,
    ⟨List.ne_nil_of_length_pos hVl, hV⟩, ⟨List.ne_nil_of_length_pos hSl, hS⟩,
    ⟨List.ne_nil_of_length_pos hEl, hE⟩, ?_, rfl⟩
  · intro x hx
    simp only [List.mem_cons, List.mem_singleton, List.not_mem_nil, or_false] at hx
    rcases hx with rfl | rfl | rfl | rfl | rfl | rfl | rfl | rfl | rfl | rfl | rfl | rfl | rfl | rfl
    · intro c hc; cases hc
    all_goals assumption
  · simp [headerText, headerTail, setGroup]

/-- The first character outside a class is determined by the text. -/
theorem split_unique {p : Char → Bool} {a b r r' : List Char} {x y : Char}
    (ha : ∀ c ∈ a, p c = true) (hb : ∀ c ∈ b, p c = true) (hx : p x = false)
    (hy : p y = false) (h : a ++ x :: r = b ++ y :: r') : a = b ∧ x = y ∧ r = r' := by
  induction a generalizing b with
  | nil =>
    cases b with
    | nil =>
      simp only [List.nil_append, List.cons.injEq] at h
      exact ⟨rfl, h.1, h.2⟩
    | cons b0 b =>
      simp only [List.nil_append, List.cons_append, List.cons.injEq] at h
      have := hb b0 (List.mem_cons_self _ _)
      rw [← h.1, hx] at this
      cases this
  | cons a0 a ih =>
    cases b with
    | nil =>
      simp only [List.nil_append, List.cons_append, List.cons.injEq] at h
      have := ha a0 (List.mem_cons_self _ _)
      rw [h.1, hy] at this
      cases this
    | cons b0 b =>
      simp only [List.cons_append, List.cons.injEq] at h
      obtain ⟨h1, h2, h3⟩ := ih (fun c hc => ha c (List.mem_cons_of_mem _ hc))
        (fun c hc => hb c (List.mem_cons_of_mem _ hc)) h.2
      exact ⟨by rw [h.1, h1], h2, h3⟩

/-- The last occurrence of a character is determined by the text. -/
theorem last_unique {a b r r' : List Char} {x : Char} (hr : x ∉ r) (hr' : x ∉ r')
    (h : a ++ x :: r = b ++ x :: r') : a = b ∧ r = r' := by
  have h' : r.reverse ++ x :: a.reverse = r'.reverse ++ x :: b.reverse := by
    have := congrArg List.reverse h
    simpa using this
  have hp : ∀ (l : List Char), x ∉ l → ∀ c ∈ l.reverse, (fun c => !(c == x)) c = true := by
    intro l hl c hc
    have : c ≠ x := fun e => hl (e ▸ List.mem_reverse.1 hc)
    simpa using this
  obtain ⟨h1, -, h2⟩ := split_unique (p := fun c => !(c == x)) (hp r hr) (hp r' hr')
    (by simp) (by simp) h'
  exact ⟨List.reverse_injective h2, List.reverse_injective h1⟩

theorem mem_getD_of_allSpaces {w : List (List Char)} (hw : AllSpaces w) (i : Nat) :
    ∀ c ∈ w.getD i [], isspace c = true := by
  rw [List.getD_eq_getElem?_getD]
  cases h : w[i]? with
  | none => intro c hc; cases hc
  | some v => exact hw v (List.getElem?_mem h)

/-- A header text begins with `for`, white space and `(`; the rest holds no `(` and no
brace. -/
theorem headerTail_chars {w : List (List Char)} {V S E : List Char} (hw : AllSpaces w)
    (hV : IsIdent V) (hS : IsDigits S) (hE : IsDigits E) (q : Char → Prop)
    (h1 : ∀ c, isspace c = true → q c) (h2 : ∀ c, isword c = true → q c)
    (h3 : ∀ c ∈ "var:u32=;<+".toList, q c) : ∀ c ∈ headerTail w V S E, q c := by
  have hsp := fun i => mem_getD_of_allSpaces hw i
  intro c hc
  simp only [headerTail, List.mem_append] at hc
  rcases hc with h | h | h | h | h | h | h | h | h | h | h | h | h | h | h | h | h | h | h
    | h | h | h | h | h | h
  all_goals first
    | exact h1 c (hsp _ c h)
    | exact h2 c (hV.2 c h)
    | exact h2 c (isword_of_isdigit (hS.2 c h))
    | exact h2 c (isword_of_isdigit (hE.2 c h))
    | exact h3 c (by revert h; simp; tauto)

theorem headerTail_no_paren {w : List (List Char)} {V S E : List Char} (hw : AllSpaces w)
    (hV : IsIdent V) (hS : IsDigits S) (hE : IsDigits E) : '(' ∉ headerTail w V S E :=
  fun hm => headerTail_chars hw hV hS hE (fun c => c ≠ '(')
    (fun c h => by rintro rfl; revert h; decide)
    (fun c h => by rintro rfl; revert h; decide) (by decide) _ hm rfl

theorem braceFree_headerTail {w : List (List Char)} {V S E : List Char} (hw : AllSpaces w)
    (hV : IsIdent V) (hS : IsDigits S) (hE : IsDigits E) : BraceFree (headerTail w V S E) :=
  headerTail_chars hw hV hS hE (fun c => notBrace c = true) (fun c h => notBrace_of_isspace h)
    (fun c h => notBrace_of_isword h) (by decide)

/-- The full text of a match of the loop pattern. -/
theorem matchHere_forLoop_text {s rest : List Char} {g : Groups}
    (h : matchHere forLoopPattern.atoms (List.replicate 5 []) s = some (g, rest)) :
    ∃ w V S E w14 w15 b, AllSpaces w ∧ IsIdent V ∧ IsDigits S ∧ IsDigits E ∧
      (∀ x ∈ w14, isspace x = true) ∧ (∀ x ∈ w15, isspace x = true) ∧ BraceFree b ∧
      s = headerText w V S E ++ ')' :: w14 ++ '{' :: w15 ++ b ++ '}' :: rest ∧
      g = [[], V, S, E, b] := by
  obtain ⟨c, rfl, hsem⟩ := matchHere_sound _ _ _ _ _ h
  rw [forLoopPattern_atoms] at hsem
  obtain ⟨c1, c2, g1, rfl, h1, h2⟩ := Sem_append hsem
  obtain ⟨w, V, S, E, hw, hV, hS, hE, rfl, rfl⟩ := Sem_forHead_text h1
  obtain ⟨w14, w15, b, rfl, hw14, hw15, hb, rfl⟩ := Sem_forTail h2
  exact ⟨w, V, S, E, w14, w15, b, hw, hV, hS, hE, hw14, hw15, hb, by simp, rfl⟩

theorem loopHeader_split (V S E : List Char) :
    loopHeader V S E = "for ".toList ++ '(' :: ("var ".toList ++ V ++ ": u32 = ".toList ++ S
      ++ "; ".toList ++ V ++ " < ".toList ++ E ++ "; ".toList ++ V ++ "++) ".toList) := by
  simp [loopHeader]

theorem loopHeader_tail_no_paren {V S E : List Char} (hV : IsIdent V) (hS : IsDigits S)
    (hE : IsDigits E) :
    '(' ∉ "var ".toList ++ V ++ ": u32 = ".toList ++ S
      ++ "; ".toList ++ V ++ " < ".toList ++ E ++ "; ".toList ++ V ++ "++) ".toList := by
  have hv : '(' ∉ V := fun h => by have := hV.2 _ h; revert this; decide
  have hs : '(' ∉ S := fun h => by have := hS.2 _ h; revert this; decide
  have he : '(' ∉ E := fun h => by have := hE.2 _ h; revert this; decide
  simp [hv, hs, he]

/-- No match of the loop pattern starts in a brace-free text in front of a loop: a
header holds one `(` only, directly after `for`. -/
theorem matchAt_forLoop_none_before_loop {P : List Char} (hne : P ≠ []) (hP : BraceFree P)
    {V S E : List Char} (hV : IsIdent V) (hS : IsDigits S) (hE : IsDigits E)
    (X rest : List Char) :
    matchAt forLoopPattern (P ++ (loopText V S E X ++ rest)) = none := by
  cases hm : matchAt forLoopPattern (P ++ (loopText V S E X ++ rest)) with
  | none => rfl
  | some r =>
    exfalso
    obtain ⟨g, rest'⟩ := r
    obtain ⟨g0, h0, -⟩ := matchAt_some hm
    obtain ⟨w, V', S', E', w14, w15, b, hw, hV', hS', hE', hw14, hw15, hb, hs, -⟩ :=
      matchHere_forLoop_text h0
    have hH := braceFree_loopHeader (braceFree_of_isIdent hV) (braceFree_of_isDigits hS)
      (braceFree_of_isDigits hE)
    have hsp1 := mem_getD_of_allSpaces hw 1
    have hL : BraceFree (headerText w V' S' E' ++ ')' :: w14) := by
      have h1 : BraceFree ("for".toList ++ (w.getD 1 [] ++ ("(".toList ++ headerTail w V' S' E'))) :=
        BraceFree.append (by decide) (BraceFree.append (fun c hc => notBrace_of_isspace (hsp1 c hc))
          (BraceFree.append (by decide) (braceFree_headerTail hw hV' hS' hE')))
      exact braceFree_header h1 hw14
    have e1 : (P ++ loopHeader V S E) ++ '{' :: (X ++ '}' :: rest)
        = (headerText w V' S' E' ++ ')' :: w14) ++ '{' :: (w15 ++ b ++ '}' :: rest') := by
      have hs' := hs
      rw [loopText_eq_header] at hs'
      simpa [List.append_assoc] using hs'
    have e2 := (first_brace_unique (hP.append hH) hL (by decide) (by decide) e1).1
    rw [loopHeader_split] at e2
    have e3 : (P ++ "for ".toList) ++ '(' :: ("var ".toList ++ V ++ ": u32 = ".toList ++ S
        ++ "; ".toList ++ V ++ " < ".toList ++ E ++ "; ".toList ++ V ++ "++) ".toList)
        = ("for".toList ++ w.getD 1 []) ++ '(' :: (headerTail w V' S' E' ++ ')' :: w14) := by
      rw [List.append_assoc, e2]; simp [headerText]
    have hnp : '(' ∉ headerTail w V' S' E' ++ ')' :: w14 := by
      intro hm
      rcases List.mem_append.1 hm with h | h
      · exact headerTail_no_paren hw hV' hS' hE' h
      · rcases List.mem_cons.1 h with h | h
        · revert h; decide
        · have := hw14 _ h; revert this; decide
    have e4 := (last_unique (loopHeader_tail_no_paren hV hS hE) hnp e3).1
    have e5 : [' '] ++ 'r' :: ('o' :: 'f' :: P.reverse)
        = (w.getD 1 []).reverse ++ 'r' :: ['o', 'f'] := by
      have := congrArg List.reverse e4
      simpa using this
    have hsp1' : ∀ c ∈ (w.getD 1 []).reverse, isspace c = true :=
      fun c hc => hsp1 c (List.mem_reverse.1 hc)
    have e6 := (split_unique (p := isspace) (by decide) hsp1' (by decide) (by decide) e5).2.2
    simp only [List.cons.injEq, true_and] at e6
    exact hne (List.reverse_eq_nil_iff.1 e6)

/-- The scan for a loop passes a brace-free text and finds the loop that follows it. -/
theorem searchFrom_before_loop {P : List Char} (hP : BraceFree P)
    (V S E X rest : List Char) (hV : IsIdent V) (hS : IsDigits S) (hE : IsDigits E)
    (hX : BraceFree X) (pos : Nat) :
    searchFrom forLoopPattern pos (P ++ (loopText V S E X ++ rest))
      = some ⟨pos + P.length, (loopText V S E X).length,
          [loopText V S E X, V, S, E, X.dropWhile isspace]⟩ := by
  rw [searchFrom_append_of_none _ _ pos (fun t ht hne =>
    matchAt_forLoop_none_before_loop hne (braceFree_of_suffix ht hP) hV hS hE X rest)]
  have hm := matchAt_of_matchHere forLoopPattern (matchHere_loopText V S E X rest hV hS hE hX)
  rw [searchFrom_of_matchAt _ hm]
  simp

/-- One pass of the `while` loop on a loop that stands after the text `pre`. -/
theorem unrollStep_at (pre V S E X rest M : List Char) (start end_ threshold : Int)
    (hs : stoi S = Except.ok start) (he : stoi E = Except.ok end_) :
    unrollStep (pre ++ (loopText V S E X ++ rest))
        ⟨pre.length, (loopText V S E X).length, [M, V, S, E, X.dropWhile isspace]⟩ threshold
      = Except.ok (pre ++ ((if end_ - start > threshold then
            skippedLoop V S E (X.dropWhile isspace)
          else unrollIterations (X.dropWhile isspace) V start (end_ - start).toNat) ++ rest)) := by
  have hdrop : List.drop (pre.length + (loopText V S E X).length)
      (pre ++ (loopText V S E X ++ rest)) = rest := by
    rw [← List.length_append, ← List.append_assoc, List.drop_left]
  simp only [unrollStep, List.getD_cons_succ, List.getD_cons_zero, hs, he, substrTo, substrFrom,
    List.take_left, hdrop]
  split <;> simp

/-! ## A loop between two brace-free texts -/

theorem searchFrom_none_of_no_open {re : Regex} (hre : txt "\x7b" ∈ re.atoms) {s : List Char}
    (hs : '{' ∉ s) (pos : Nat) : searchFrom re pos s = none :=
  searchFrom_none_of_suffixes pos
    (fun _ ht => matchAt_none_of_no_open hre (fun h => hs (ht.subset h)))

/-- No match of the loop pattern is left in a brace-free text, the rewritten loop and
another brace-free text. -/
theorem searchFrom_rewritten_none {P Sfx : List Char} (hP : BraceFree P) (hSfx : BraceFree Sfx)
    {V S E X : List Char} (hV : IsIdent V) (hS : IsDigits S) (hE : IsDigits E)
    (hX : BraceFree X) (start end_ threshold : Int) (pos : Nat) :
    searchFrom forLoopPattern pos (P ++ (rewritten V S E X start end_ threshold ++ Sfx))
      = none := by
  have hb := braceFree_dropWhile isspace hX
  unfold rewritten
  split
  · have hH := braceFree_skippedHeader (braceFree_of_isIdent hV) (braceFree_of_isDigits hS)
      (braceFree_of_isDigits hE)
    rw [searchFrom_append_of_none _ _ pos, searchFrom_skippedLoop (braceFree_of_isIdent hV)
      (braceFree_of_isDigits hS) (braceFree_of_isDigits hE) hb]
    · exact searchFrom_none_of_no_open open_mem_forLoopPattern hSfx.no_open _
    · intro t ht _
      have e : t ++ (skippedLoop V S E (X.dropWhile isspace) ++ Sfx)
          = (t ++ ("for (var ".toList ++ V ++ ": u32 = ".toList ++ S ++ ";".toList ++ V
              ++ " < ".toList ++ E ++ ";".toList ++ V ++ "++) /* Skipped *".toList ++ ['/', ' ']))
            ++ '{' :: (X.dropWhile isspace ++ ['}'] ++ Sfx) := by
        rw [skippedLoop_eq]; simp
      rw [e]
      apply matchAt_forLoop_none_of_open ((braceFree_of_suffix ht hP).append hH)
      rw [← List.append_assoc]
      exact lastIsParen_skippedHeader _ _
  · apply searchFrom_none_of_no_open open_mem_forLoopPattern
    exact (hP.append ((braceFree_unrollIterations hb _ _).append hSfx)).no_open

/-- The run of `loopUnrolling` on a loop between two brace-free texts: one pass
rewrites the loop, the next scan finds nothing. -/
theorem loopUnrollingFuel_splice (P Sfx V S E X : List Char) (start end_ threshold : Int)
    (fuel : Nat) (hP : BraceFree P) (hSfx : BraceFree Sfx) (hV : IsIdent V) (hS : IsDigits S)
    (hE : IsDigits E) (hX : BraceFree X)
    (hs : stoi S = Except.ok start) (he : stoi E = Except.ok end_) :
    loopUnrollingFuel (fuel + 2) (P ++ (loopText V S E X ++ Sfx)) threshold
      = some (Except.ok (P ++ (rewritten V S E X start end_ threshold ++ Sfx))) := by
  have hsearch : regex_search (P ++ (loopText V S E X ++ Sfx)) forLoopPattern = _ :=
    searchFrom_before_loop hP V S E X Sfx hV hS hE hX 0
  have hstep := unrollStep_at P V S E X Sfx (loopText V S E X) start end_ threshold hs he
  rw [loopUnrollingFuel]
  simp only [hsearch, Nat.zero_add, hstep]
  exact loopUnrollingFuel_of_none
    (searchFrom_rewritten_none hP hSfx hV hS hE hX start end_ threshold 0) fuel threshold

/-- C15. For every brace-free prefix `P`, brace-free suffix `Sfx` and every recognised
loop `L` with brace-free body, `loopUnrolling(P ++ L ++ Sfx, t) = P ++ R ++ Sfx`, where
`R` is the result of `loopUnrolling(L, t)` on the loop alone (its copies or its skipped
form): the text before and after the loop is kept character for character. -/
theorem loopUnrolling_splices_matched_span (P Sfx V S E X : List Char)
    (start end_ threshold : Int) (fuel : Nat) (hP : BraceFree P) (hSfx : BraceFree Sfx)
    (hV : IsIdent V) (hS : IsDigits S) (hE : IsDigits E) (hX : BraceFree X)
    (hs : stoi S = Except.ok start) (he : stoi E = Except.ok end_) :
    ∃ R, loopUnrollingFuel (fuel + 2) (loopText V S E X) threshold = some (Except.ok R) ∧
      loopUnrollingFuel (fuel + 2) (P ++ loopText V S E X ++ Sfx) threshold
        = some (Except.ok (P ++ R ++ Sfx)) := by
  refine ⟨rewritten V S E X start end_ threshold, ?_, ?_⟩
  · have := loopUnrollingFuel_splice [] [] V S E X start end_ threshold fuel braceFree_nil
      braceFree_nil hV hS hE hX hs he
    simpa using this
  · have := loopUnrollingFuel_splice P Sfx V S E X start end_ threshold fuel hP hSfx
      hV hS hE hX hs he
    simpa using this

theorem loopUnrolling_splices_matched_span_witness :
    ∃ R, loopUnrollingFuel 2 "for (var i: u32 = 0; i < 2; i++) \x7b x[i] = i; \x7d".toList 32
        = some (Except.ok R) ∧
      loopUnrollingFuel 2
          ("a = 1; ".toList ++ "for (var i: u32 = 0; i < 2; i++) \x7b x[i] = i; \x7d".toList
            ++ " b = 2;".toList) 32
        = some (Except.ok ("a = 1; ".toList ++ R ++ " b = 2;".toList)) :=
  loopUnrolling_splices_matched_span "a = 1; ".toList " b = 2;".toList "i".toList "0".toList
    "2".toList " x[i] = i; ".toList 0 2 32 0 (by decide) (by decide) (by decide) (by decide)
    (by decide) (by decide) (by rfl) (by rfl)

/-! ## Two loops one after the other, and a loop inside a loop -/

/-- C16. For two recognised loops `L1` (with `end - start > threshold`) and `L2` (with
`0 ≤ end - start ≤ threshold`) with brace-free bodies and a brace-free separator `M`,
`loopUnrolling(L1 ++ M ++ L2, t)` is the skipped form of `L1`, then `M`, then the
unrolled copies of `L2`: the scan goes on behind a loop marked as skipped, and each loop
is decided by its own iteration count. -/
theorem loopUnrolling_scans_past_skipped (V1 S1 E1 X1 M V2 S2 E2 X2 : List Char)
    (start1 end1 start2 end2 threshold : Int) (fuel : Nat)
    (hV1 : IsIdent V1) (hS1 : IsDigits S1) (hE1 : IsDigits E1) (hX1 : BraceFree X1)
    (hM : BraceFree M)
    (hV2 : IsIdent V2) (hS2 : IsDigits S2) (hE2 : IsDigits E2) (hX2 : BraceFree X2)
    (hs1 : stoi S1 = Except.ok start1) (he1 : stoi E1 = Except.ok end1)
    (hs2 : stoi S2 = Except.ok start2) (he2 : stoi E2 = Except.ok end2)
    (h1 : end1 - start1 > threshold) (_h2 : 0 ≤ end2 - start2)
    (h2' : end2 - start2 ≤ threshold) :
    loopUnrollingFuel (fuel + 3) (loopText V1 S1 E1 X1 ++ M ++ loopText V2 S2 E2 X2) threshold
      = some (Except.ok
          (("for (var ".toList ++ V1 ++ ": u32 = ".toList ++ S1 ++ ";".toList ++ V1
              ++ " < ".toList ++ E1 ++ ";".toList ++ V1 ++ "++) /* Skipped */ \x7b".toList
              ++ X1.dropWhile isspace ++ "\x7d".toList)
            ++ M
            ++ (List.range (end2 - start2).toNat).flatMap
                (fun k => regex_replace (X2.dropWhile isspace) V2
                  (to_string (start2 + (k : Int)))))) := by
  have hb1 := braceFree_dropWhile isspace hX1
  have hb2 := braceFree_dropWhile isspace hX2
  have bV1 := braceFree_of_isIdent hV1
  have bS1 := braceFree_of_isDigits hS1
  have bE1 := braceFree_of_isDigits hE1
  -- first pass: the first loop is marked
  have hsearch1 := regex_search_loopText V1 S1 E1 X1 (M ++ loopText V2 S2 E2 X2) hV1 hS1 hE1 hX1
  have hstep1 := unrollStep_loopText V1 S1 E1 X1 (M ++ loopText V2 S2 E2 X2) start1 end1
    threshold hs1 he1
  rw [if_pos h1] at hstep1
  -- second pass: the scan passes the marked loop and finds the second loop
  have hsearch2 : regex_search
      (skippedLoop V1 S1 E1 (X1.dropWhile isspace) ++ (M ++ loopText V2 S2 E2 X2))
      forLoopPattern
      = some ⟨(skippedLoop V1 S1 E1 (X1.dropWhile isspace) ++ M).length,
          (loopText V2 S2 E2 X2).length,
          [loopText V2 S2 E2 X2, V2, S2, E2, X2.dropWhile isspace]⟩ := by
    have := searchFrom_before_loop hM V2 S2 E2 X2 [] hV2 hS2 hE2 hX2
      (0 + (skippedLoop V1 S1 E1 (X1.dropWhile isspace)).length)
    rw [List.append_nil] at this
    rw [regex_search, searchFrom_skippedLoop bV1 bS1 bE1 hb1, this]
    simp
  have hstep2 : unrollStep
      (skippedLoop V1 S1 E1 (X1.dropWhile isspace) ++ (M ++ loopText V2 S2 E2 X2))
      ⟨(skippedLoop V1 S1 E1 (X1.dropWhile isspace) ++ M).length,
          (loopText V2 S2 E2 X2).length,
          [loopText V2 S2 E2 X2, V2, S2, E2, X2.dropWhile isspace]⟩ threshold
      = Except.ok (skippedLoop V1 S1 E1 (X1.dropWhile isspace) ++ (M
          ++ unrollIterations (X2.dropWhile isspace) V2 start2 (end2 - start2).toNat)) := by
    have := unrollStep_at (skippedLoop V1 S1 E1 (X1.dropWhile isspace) ++ M) V2 S2 E2 X2 []
      (loopText V2 S2 E2 X2) start2 end2 threshold hs2 he2
    rw [if_neg (not_lt.2 h2')] at this
    simpa [List.append_assoc] using this
  -- third pass: nothing is left
  have hnone : regex_search
      (skippedLoop V1 S1 E1 (X1.dropWhile isspace) ++ (M
        ++ unrollIterations (X2.dropWhile isspace) V2 start2 (end2 - start2).toNat))
      forLoopPattern = none := by
    rw [regex_search, searchFrom_skippedLoop bV1 bS1 bE1 hb1]
    exact searchFrom_none_of_no_open open_mem_forLoopPattern
      (hM.append (braceFree_unrollIterations hb2 _ _)).no_open _
  have e0 : loopText V1 S1 E1 X1 ++ M ++ loopText V2 S2 E2 X2
      = loopText V1 S1 E1 X1 ++ (M ++ loopText V2 S2 E2 X2) := by simp
  rw [e0, loopUnrollingFuel]
  simp only [hsearch1, hstep1]
  rw [loopUnrollingFuel]
  simp only [hsearch2, hstep2]
  rw [loopUnrollingFuel_of_none hnone, unrollIterations_eq]
  simp [skippedLoop]

theorem loopUnrolling_scans_past_skipped_witness :
    loopUnrollingFuel 3
        ("for (var i: u32 = 0; i < 100; i++) \x7b x[i] = i; \x7d".toList ++ " ".toList
          ++ "for (var j: u32 = 0; j < 2; j++) \x7b y[j]; \x7d".toList) 32
      = some (Except.ok
          "for (var i: u32 = 0;i < 100;i++) /* Skipped */ \x7bx[i] = i; \x7d y[0]; y[1]; ".toList) :=
  loopUnrolling_scans_past_skipped "i".toList "0".toList "100".toList " x[i] = i; ".toList
    " ".toList "j".toList "0".toList "2".toList " y[j]; ".toList 0 100 0 2 32 0
    (by decide) (by decide) (by decide) (by decide) (by decide) (by decide) (by decide)
    (by decide) (by decide) (by rfl) (by rfl) (by rfl) (by rfl) (by decide) (by decide)
    (by decide)

/-- The first pass on a loop whose body holds brace-free text, a loop and brace-free
text: the scan finds the inner loop, and the pass rewrites it in its place. -/
theorem loopUnrollingFuel_nested_step (V1 S1 E1 P V2 S2 E2 X Q : List Char)
    (start2 end2 threshold : Int) (fuel : Nat)
    (hV1 : IsIdent V1) (hS1 : IsDigits S1) (hE1 : IsDigits E1) (hP : BraceFree P)
    (hV2 : IsIdent V2) (hS2 : IsDigits S2) (hE2 : IsDigits E2) (hX : BraceFree X)
    (hs2 : stoi S2 = Except.ok start2) (he2 : stoi E2 = Except.ok end2) :
    loopUnrollingFuel (fuel + 1) (loopText V1 S1 E1 (P ++ loopText V2 S2 E2 X ++ Q)) threshold
      = loopUnrollingFuel fuel
          (loopText V1 S1 E1 (P ++ rewritten V2 S2 E2 X start2 end2 threshold ++ Q))
          threshold := by
  have hH1 := braceFree_loopHeader (braceFree_of_isIdent hV1) (braceFree_of_isDigits hS1)
    (braceFree_of_isDigits hE1)
  have hH2 := braceFree_loopHeader (braceFree_of_isIdent hV2) (braceFree_of_isDigits hS2)
    (braceFree_of_isDigits hE2)
  have e : loopText V1 S1 E1 (P ++ loopText V2 S2 E2 X ++ Q)
      = loopHeader V1 S1 E1 ++ ('{' :: (P ++ (loopText V2 S2 E2 X ++ (Q ++ ['}'])))) := by
    rw [loopText_eq_header]; simp
  have e' : loopHeader V1 S1 E1 ++ ('{' :: (P ++ (loopText V2 S2 E2 X ++ (Q ++ ['}']))))
      = (loopHeader V1 S1 E1 ++ '{' :: P) ++ (loopText V2 S2 E2 X ++ (Q ++ ['}'])) := by
    simp
  have hnested : ∀ t, t <:+ loopHeader V1 S1 E1 →
      matchAt forLoopPattern (t ++ ('{' :: (P ++ (loopText V2 S2 E2 X ++ (Q ++ ['}']))))) = none := by
    intro t ht
    have := @matchAt_forLoop_none_of_nested t (P ++ loopHeader V2 S2 E2)
      (X ++ '}' :: (Q ++ ['}'])) (braceFree_of_suffix ht hH1) (hP.append hH2)
    rw [← this]
    congr 1
    rw [loopText_eq_header]; simp
  have hsearch : regex_search
      (loopHeader V1 S1 E1 ++ ('{' :: (P ++ (loopText V2 S2 E2 X ++ (Q ++ ['}'])))))
      forLoopPattern
      = some ⟨(loopHeader V1 S1 E1 ++ '{' :: P).length, (loopText V2 S2 E2 X).length,
          [loopText V2 S2 E2 X, V2, S2, E2, X.dropWhile isspace]⟩ := by
    rw [regex_search, searchFrom_append_of_none _ _ 0 (fun t ht _ => hnested t ht)]
    rw [searchFrom_cons_of_none _ (matchAt_none_of_head_ne forLoopPattern_head (by decide) _)]
    rw [searchFrom_before_loop hP V2 S2 E2 X _ hV2 hS2 hE2 hX]
    simp
    omega
  have hstep := unrollStep_at (loopHeader V1 S1 E1 ++ '{' :: P) V2 S2 E2 X (Q ++ ['}'])
    (loopText V2 S2 E2 X) start2 end2 threshold hs2 he2
  have hstep' : unrollStep
      (loopHeader V1 S1 E1 ++ ('{' :: (P ++ (loopText V2 S2 E2 X ++ (Q ++ ['}'])))))
      ⟨(loopHeader V1 S1 E1 ++ '{' :: P).length, (loopText V2 S2 E2 X).length,
          [loopText V2 S2 E2 X, V2, S2, E2, X.dropWhile isspace]⟩ threshold
      = Except.ok (loopText V1 S1 E1 (P ++ rewritten V2 S2 E2 X start2 end2 threshold ++ Q)) := by
    rw [e']
    refine hstep.trans ?_
    rw [loopText_eq_header]
    unfold rewritten
    simp only [List.append_assoc, List.cons_append, List.nil_append, List.singleton_append]
  rw [e, loopUnrollingFuel]
  simp only [hsearch, hstep']

/-- C7 (as amended). For a loop of the recognised shape whose body begins (after white
space) with another recognised loop with brace-free body, whose bounds `std::stoi`
reads as the `int` values `start2` and `end2`: the pattern does not match at the outer
loop, whose body is not brace-free; the scan goes on and its first match is the inner
loop; the first pass rewrites the inner loop in its place (to its copies or to its
skipped form), which changes the text, and goes on with the rewritten text; the run
ends, and `loopUnrolling` does not return the input unchanged. -/
theorem loopUnrolling_nested_rewrites_inner (V1 S1 E1 V2 S2 E2 sp X Q : List Char)
    (start2 end2 t : Int) (hV1 : IsIdent V1) (hS1 : IsDigits S1) (hE1 : IsDigits E1)
    (hV2 : IsIdent V2) (hS2 : IsDigits S2) (hE2 : IsDigits E2)
    (hsp : ∀ x ∈ sp, isspace x = true) (hX : BraceFree X)
    (hs2 : stoi S2 = Except.ok start2) (he2 : stoi E2 = Except.ok end2) :
    matchAt forLoopPattern (loopText V1 S1 E1 (sp ++ loopText V2 S2 E2 X ++ Q)) = none ∧
    regex_search (loopText V1 S1 E1 (sp ++ loopText V2 S2 E2 X ++ Q)) forLoopPattern
      = some ⟨(loopHeader V1 S1 E1).length + 1 + sp.length, (loopText V2 S2 E2 X).length,
          [loopText V2 S2 E2 X, V2, S2, E2, X.dropWhile isspace]⟩ ∧
    unrollStep (loopText V1 S1 E1 (sp ++ loopText V2 S2 E2 X ++ Q))
        ⟨(loopHeader V1 S1 E1).length + 1 + sp.length, (loopText V2 S2 E2 X).length,
          [loopText V2 S2 E2 X, V2, S2, E2, X.dropWhile isspace]⟩ t
      = Except.ok (loopText V1 S1 E1 (sp ++ rewritten V2 S2 E2 X start2 end2 t ++ Q)) ∧
    loopText V1 S1 E1 (sp ++ rewritten V2 S2 E2 X start2 end2 t ++ Q)
      ≠ loopText V1 S1 E1 (sp ++ loopText V2 S2 E2 X ++ Q) ∧
    (∀ fuel, loopUnrollingFuel (fuel + 1) (loopText V1 S1 E1 (sp ++ loopText V2 S2 E2 X ++ Q)) t
      = loopUnrollingFuel fuel
          (loopText V1 S1 E1 (sp ++ rewritten V2 S2 E2 X start2 end2 t ++ Q)) t) ∧
    ∃ r, (∀ k, loopUnrollingFuel
            (2 * (loopText V1 S1 E1 (sp ++ loopText V2 S2 E2 X ++ Q)).count '{' + 1 + k)
            (loopText V1 S1 E1 (sp ++ loopText V2 S2 E2 X ++ Q)) t = some r) ∧
      r ≠ Except.ok (loopText V1 S1 E1 (sp ++ loopText V2 S2 E2 X ++ Q)) := by
  obtain ⟨h1, h2⟩ := regex_search_nested V1 S1 E1 V2 S2 E2 sp X Q hV1 hS1 hE1 hV2 hS2 hE2 hsp hX
  have hstep : unrollStep (loopText V1 S1 E1 (sp ++ loopText V2 S2 E2 X ++ Q))
        ⟨(loopHeader V1 S1 E1).length + 1 + sp.length, (loopText V2 S2 E2 X).length,
          [loopText V2 S2 E2 X, V2, S2, E2, X.dropWhile isspace]⟩ t
      = Except.ok (loopText V1 S1 E1 (sp ++ rewritten V2 S2 E2 X start2 end2 t ++ Q)) := by
    have e : loopText V1 S1 E1 (sp ++ loopText V2 S2 E2 X ++ Q)
        = (loopHeader V1 S1 E1 ++ '{' :: sp) ++ (loopText V2 S2 E2 X ++ (Q ++ ['}'])) := by
      rw [loopText_eq_header]; simp
    have e2 : loopText V1 S1 E1 (sp ++ rewritten V2 S2 E2 X start2 end2 t ++ Q)
        = (loopHeader V1 S1 E1 ++ '{' :: sp)
            ++ (rewritten V2 S2 E2 X start2 end2 t ++ (Q ++ ['}'])) := by
      rw [loopText_eq_header]; simp
    have el : (loopHeader V1 S1 E1).length + 1 + sp.length
        = (loopHeader V1 S1 E1 ++ '{' :: sp).length := by
      simp; omega
    rw [e, e2, el]
    exact unrollStep_at _ V2 S2 E2 X _ _ start2 end2 t hs2 he2
  have hne : loopText V1 S1 E1 (sp ++ rewritten V2 S2 E2 X start2 end2 t ++ Q)
      ≠ loopText V1 S1 E1 (sp ++ loopText V2 S2 E2 X ++ Q) := by
    intro heq
    have := unrollStep_weight h2 hstep
    rw [heq] at this
    exact lt_irrefl _ this
  refine ⟨h1, h2, hstep, hne, fun fuel => ?_, ?_⟩
  · exact loopUnrollingFuel_nested_step V1 S1 E1 sp V2 S2 E2 X Q start2 end2 t fuel hV1 hS1 hE1
      (fun c hc => notBrace_of_isspace (hsp c hc)) hV2 hS2 hE2 hX hs2 he2
  · obtain ⟨r, hr⟩ := loopUnrollingFuel_of_weight t _
      (loopText V1 S1 E1 (sp ++ loopText V2 S2 E2 X ++ Q)) (braceWeight_le_count false _)
    refine ⟨r, hr, fun h => ?_⟩
    have h0 := hr 0
    rw [h] at h0
    have := loopUnrollingFuel_ok_no_match h0
    rw [h2] at this
    cases this

theorem loopUnrolling_nested_rewrites_inner_witness :
    matchAt forLoopPattern
        "for (var i: u32 = 0; i < 2; i++) \x7b for (var j: u32 = 0; j < 2; j++) \x7b a[j] = i; \x7d \x7d".toList
      = none ∧
    (∀ fuel, loopUnrollingFuel (fuel + 1)
        "for (var i: u32 = 0; i < 2; i++) \x7b for (var j: u32 = 0; j < 2; j++) \x7b a[j] = i; \x7d \x7d".toList
        32
      = loopUnrollingFuel fuel
        "for (var i: u32 = 0; i < 2; i++) \x7b a[0] = i; a[1] = i;  \x7d".toList 32) ∧
    ∃ r, (∀ k, loopUnrollingFuel (5 + k)
        "for (var i: u32 = 0; i < 2; i++) \x7b for (var j: u32 = 0; j < 2; j++) \x7b a[j] = i; \x7d \x7d".toList
        32 = some r) ∧
      r ≠ Except.ok
        "for (var i: u32 = 0; i < 2; i++) \x7b for (var j: u32 = 0; j < 2; j++) \x7b a[j] = i; \x7d \x7d".toList :=
  have h := loopUnrolling_nested_rewrites_inner "i".toList "0".toList "2".toList "j".toList
    "0".toList "2".toList " ".toList " a[j] = i; ".toList " ".toList 0 2 32 (by decide) (by decide)
    (by decide) (by decide) (by decide) (by decide) (by decide) (by decide) (by rfl) (by rfl)
  ⟨h.1, h.2.2.2.2.1, h.2.2.2.2.2⟩

/-- C18. For a recognised outer loop whose body is brace-free text `P`, a recognised
inner loop `L` with brace-free body and brace-free text `Q`, the first rewrite is
applied to the inner loop: `loopUnrolling` of the nest and `loopUnrolling` of the outer
loop around `P ++ R ++ Q`, where `R = loopUnrolling(L, t)`, both stop with the same
outcome `r`, the second with one pass less; when both iteration counts are within the
threshold the result is the fully unrolled cross product. -/
theorem loopUnrolling_nest_inner_first (V1 S1 E1 P V2 S2 E2 X Q : List Char)
    (start1 end1 start2 end2 threshold : Int) (fuel : Nat)
    (hV1 : IsIdent V1) (hS1 : IsDigits S1) (hE1 : IsDigits E1) (hP : BraceFree P)
    (hV2 : IsIdent V2) (hS2 : IsDigits S2) (hE2 : IsDigits E2) (hX : BraceFree X)
    (hQ : BraceFree Q)
    (hs1 : stoi S1 = Except.ok start1) (he1 : stoi E1 = Except.ok end1)
    (hs2 : stoi S2 = Except.ok start2) (he2 : stoi E2 = Except.ok end2) :
    ∃ R, loopUnrollingFuel (fuel + 2) (loopText V2 S2 E2 X) threshold = some (Except.ok R) ∧
      (∃ r n,
        (∀ k, loopUnrollingFuel (n + 1 + k) (loopText V1 S1 E1 (P ++ loopText V2 S2 E2 X ++ Q))
            threshold = some r) ∧
        (∀ k, loopUnrollingFuel (n + k) (loopText V1 S1 E1 (P ++ R ++ Q)) threshold = some r)) ∧
      (end1 - start1 ≤ threshold → end2 - start2 ≤ threshold →
        loopUnrollingFuel (fuel + 3) (loopText V1 S1 E1 (P ++ loopText V2 S2 E2 X ++ Q))
            threshold
          = some (Except.ok ((List.range (end1 - start1).toNat).flatMap (fun i =>
              regex_replace
                ((P ++ (List.range (end2 - start2).toNat).flatMap (fun j =>
                    regex_replace (X.dropWhile isspace) V2 (to_string (start2 + (j : Int))))
                  ++ Q).dropWhile isspace)
                V1 (to_string (start1 + (i : Int))))))) := by
  have hstep := fun f => loopUnrollingFuel_nested_step V1 S1 E1 P V2 S2 E2 X Q start2 end2
    threshold f hV1 hS1 hE1 hP hV2 hS2 hE2 hX hs2 he2
  refine ⟨rewritten V2 S2 E2 X start2 end2 threshold, ?_, ?_, ?_⟩
  · have := loopUnrollingFuel_splice [] [] V2 S2 E2 X start2 end2 threshold fuel braceFree_nil
      braceFree_nil hV2 hS2 hE2 hX hs2 he2
    simpa using this
  · obtain ⟨r, hr⟩ := loopUnrollingFuel_of_weight threshold _
      (loopText V1 S1 E1 (P ++ loopText V2 S2 E2 X ++ Q)) (braceWeight_le_count false _)
    refine ⟨r, _, hr, fun k => ?_⟩
    rw [← hstep]
    have := hr k
    rwa [Nat.add_right_comm] at this
  · intro h1 h2
    have hb2 := braceFree_dropWhile isspace hX
    have hR : rewritten V2 S2 E2 X start2 end2 threshold
        = unrollIterations (X.dropWhile isspace) V2 start2 (end2 - start2).toNat := by
      unfold rewritten
      rw [if_neg (not_lt.2 h2)]
    have hbody : BraceFree (P ++ rewritten V2 S2 E2 X start2 end2 threshold ++ Q) := by
      rw [hR]
      exact (hP.append (braceFree_unrollIterations hb2 _ _)).append hQ
    rw [hstep (fuel + 2), loopUnrollingFuel_loopText_unrolled V1 S1 E1 _ start1 end1 threshold
      fuel hV1 hS1 hE1 hbody hs1 he1 h1, unrollIterations_eq, hR, unrollIterations_eq]

theorem loopUnrolling_nest_inner_first_witness :
    loopUnrollingFuel 3
        "for (var i: u32 = 0; i < 2; i++) \x7b for (var j: u32 = 0; j < 2; j++) \x7b a[i][j]; \x7d \x7d".toList
        32
      = some (Except.ok "a[0][0]; a[0][1];  a[1][0]; a[1][1];  ".toList) :=
  (loopUnrolling_nest_inner_first "i".toList "0".toList "2".toList " ".toList "j".toList
    "0".toList "2".toList " a[i][j]; ".toList " ".toList 0 2 0 2 32 0
    (by decide) (by decide) (by decide) (by decide) (by decide) (by decide) (by decide)
    (by decide) (by decide) (by rfl) (by rfl) (by rfl) (by rfl)).elim
    (fun _ h => h.2.2 (by decide) (by decide))

/-! ## A loop around a block that is not a loop -/

theorem Sem_concat {p1 p2 : List Atom} {g g1 g' : Groups} {c1 c2 : List Char}
    (h1 : Sem p1 g c1 g1) (h2 : Sem p2 g1 c2 g') : Sem (p1 ++ p2) g (c1 ++ c2) g' := by
  induction p1 generalizing g c1 with
  | nil =>
    obtain ⟨rfl, rfl⟩ := h1
    exact h2
  | cons a p1 ih =>
    cases a with
    | lit l =>
      obtain ⟨c', rfl, hsem⟩ := h1
      exact ⟨c' ++ c2, by simp, ih hsem⟩
    | many p min cap =>
      obtain ⟨xs, c', rfl, hxs, hmin, hsem⟩ := h1
      exact ⟨xs, c' ++ c2, by simp, hxs, hmin, ih hsem⟩
    | backref i =>
      obtain ⟨c', rfl, hsem⟩ := h1
      exact ⟨c' ++ c2, by simp, ih hsem⟩

/-- A match of the loop pattern starts with a loop header that ends directly in front
of the first brace. -/
theorem matchAt_forLoop_header {t rest : List Char} (ht : BraceFree t) {r : Groups × List Char}
    (h : matchAt forLoopPattern (t ++ '{' :: rest) = some r) :
    ∃ g, Sem (forHead ++ [txt ")", ws]) (List.replicate 5 []) t g := by
  obtain ⟨g, rest'⟩ := r
  obtain ⟨g0, h0, -⟩ := matchAt_some h
  obtain ⟨c, hc, hsem⟩ := matchHere_sound _ _ _ _ _ h0
  have e : forLoopPattern.atoms
      = forHead ++ ([txt ")", ws] ++ [txt "\x7b", ws, Atom.many notBrace 0 (some 4), txt "\x7d"]) := rfl
  rw [e] at hsem
  obtain ⟨c1, c2, g1, rfl, h1, h2⟩ := Sem_append hsem
  obtain ⟨c3, c4, g2, rfl, h3, h4⟩ := Sem_append h2
  have hc1 : BraceFree c1 := Sem_safe forHead_safe (groupsFree_replicate 5) h1
  have hg1 : GroupsFree g1 :=
    Sem_groupsFree (safe_imp_classSafe forHead_safe) (groupsFree_replicate 5) h1
  have hsafe : ∀ a ∈ [txt ")", ws], Atom.Safe a := by
    intro a ha
    simp only [List.mem_cons, List.mem_singleton, List.not_mem_nil, or_false] at ha
    rcases ha with rfl | rfl
    · exact safe_txt (by decide)
    · exact safe_ws
  have hc3 : BraceFree c3 := Sem_safe hsafe hg1 h3
  obtain ⟨c5, rfl, -⟩ := h4
  have e2 : t ++ '{' :: rest = (c1 ++ c3) ++ '{' :: (c5 ++ rest') := by
    rw [hc]; simp
  have := (first_brace_unique ht (hc1.append hc3) (by decide) (by decide) e2).1
  rw [this]
  exact ⟨g2, Sem_concat h1 h3⟩

/-- C14. For every text `for (var V: u32 = S; V < E; V++) {P {Q} R}` with brace-free
`P`, `Q`, `R` where `P` does not end with a loop header of the recognised shape,
`loopUnrolling` returns the input unmodified, for every threshold. -/
theorem loopUnrolling_inner_block_untouched (V S E P Q R : List Char) (threshold : Int)
    (fuel : Nat) (hV : IsIdent V) (hS : IsDigits S) (hE : IsDigits E) (hP : BraceFree P)
    (hQ : BraceFree Q) (hR : BraceFree R) (hnot : ¬ EndsWithLoopHeader P) :
    loopUnrollingFuel (fuel + 1)
        (loopText V S E (P ++ "\x7b".toList ++ Q ++ "\x7d".toList ++ R)) threshold
      = some (Except.ok (loopText V S E (P ++ "\x7b".toList ++ Q ++ "\x7d".toList ++ R))) := by
  have hH := braceFree_loopHeader (braceFree_of_isIdent hV) (braceFree_of_isDigits hS)
    (braceFree_of_isDigits hE)
  have e : loopText V S E (P ++ "\x7b".toList ++ Q ++ "\x7d".toList ++ R)
      = loopHeader V S E ++ ('{' :: (P ++ ('{' :: (Q ++ ('}' :: (R ++ ('}' :: []))))))) := by
    rw [loopText_eq_header]; simp
  apply loopUnrollingFuel_of_none
  rw [e, regex_search]
  rw [searchFrom_append_of_none _ _ 0 (fun t ht _ =>
    matchAt_forLoop_none_of_nested (braceFree_of_suffix ht hH) hP)]
  rw [searchFrom_cons_of_none _ (matchAt_none_of_head_ne forLoopPattern_head (by decide) _)]
  rw [searchFrom_append_of_none _ _ _ (fun t ht _ => by
    cases hm : matchAt forLoopPattern (t ++ '{' :: (Q ++ '}' :: (R ++ ['}']))) with
    | none => rfl
    | some r =>
      obtain ⟨g, hg⟩ := matchAt_forLoop_header (braceFree_of_suffix ht hP) hm
      exact absurd ⟨t, g, ht, hg⟩ hnot)]
  rw [searchFrom_cons_of_none _ (matchAt_none_of_head_ne forLoopPattern_head (by decide) _)]
  rw [searchFrom_forLoop_skip_close hQ]
  rw [searchFrom_cons_of_none _ (matchAt_none_of_head_ne forLoopPattern_head (by decide) _)]
  rw [searchFrom_forLoop_skip_close hR]
  rw [searchFrom_cons_of_none _ (matchAt_none_of_head_ne forLoopPattern_head (by decide) _)]
  exact searchFrom_nil_forLoop _

/-- A text without the letter `v` does not end with a loop header. -/
theorem not_endsWithLoopHeader_of_no_v {P : List Char} (h : 'v' ∉ P) :
    ¬ EndsWithLoopHeader P := by
  rintro ⟨t, g, ht, hsem⟩
  have : 'v' ∈ t :=
    Sem_lit_mem hsem (l := "var".toList) (by simp [forHead, txt]) 'v' (by decide)
  exact h (ht.subset this)

theorem loopUnrolling_inner_block_untouched_witness :
    loopUnrollingFuel 1
        "for (var i: u32 = 0; i < 2; i++) \x7b if (x) \x7b y = i; \x7d z; \x7d".toList 32
      = some (Except.ok "for (var i: u32 = 0; i < 2; i++) \x7b if (x) \x7b y = i; \x7d z; \x7d".toList) :=
  loopUnrolling_inner_block_untouched "i".toList "0".toList "2".toList " if (x) ".toList
    " y = i; ".toList " z; ".toList 32 0 (by decide) (by decide) (by decide) (by decide)
    (by decide) (by decide) (not_endsWithLoopHeader_of_no_v (by decide))

/-! ## Headers that are not of the recognised shape -/

theorem squeeze_append (a b : List Char) : squeeze (a ++ b) = squeeze a ++ squeeze b := by
  simp [squeeze]

theorem squeeze_cons_of_not_space {c : Char} (h : isspace c = false) (s : List Char) :
    squeeze (c :: s) = c :: squeeze s := by
  simp [squeeze, List.filter_cons, h]

theorem squeeze_spaces {w : List Char} (h : ∀ c ∈ w, isspace c = true) : squeeze w = [] := by
  simp only [squeeze, List.filter_eq_nil_iff]
  intro c hc
  simp [h c hc]

theorem squeeze_of_no_space {s : List Char} (h : ∀ c ∈ s, isspace c = false) :
    squeeze s = s := by
  simp only [squeeze, List.filter_eq_self]
  intro c hc
  simp [h c hc]

theorem isspace_of_istoken {c : Char} (h : istoken c = true) : isspace c = false := by
  simp only [istoken, Bool.or_eq_true, beq_iff_eq] at h
  rcases h with h | rfl
  · exact isspace_of_isword h
  · decide

theorem notBrace_of_istoken {c : Char} (h : istoken c = true) : notBrace c = true := by
  simp only [istoken, Bool.or_eq_true, beq_iff_eq] at h
  rcases h with h | rfl
  · exact notBrace_of_isword h
  · decide

theorem squeeze_token {s : List Char} (h : IsToken s) : squeeze s = s :=
  squeeze_of_no_space (fun c hc => isspace_of_istoken (h c hc))

theorem isToken_of_isIdent {s : List Char} (h : IsIdent s) : IsToken s :=
  fun c hc => by simp [istoken, h.2 c hc]

theorem isToken_of_isDigits {s : List Char} (h : IsDigits s) : IsToken s :=
  fun c hc => by simp [istoken, isword_of_isdigit (h.2 c hc)]

theorem braceFree_of_isToken {s : List Char} (h : IsToken s) : BraceFree s :=
  fun c hc => notBrace_of_istoken (h c hc)

/-- The header of a loop-shaped text without its white space. -/
theorem squeeze_loopLike_header (V S W N U : List Char) (hV : IsToken V) (hS : IsToken S)
    (hW : IsToken W) (hN : IsToken N) (hU : IsToken U) :
    squeeze ("for (var ".toList ++ V ++ ": u32 = ".toList ++ S ++ "; ".toList ++ W
        ++ " < ".toList ++ N ++ "; ".toList ++ U ++ "++) ".toList)
      = 'f' :: 'o' :: 'r' :: '(' :: 'v' :: 'a' :: 'r' :: (V ++ ':' :: 'u' :: '3' :: '2' :: '=' ::
          (S ++ ';' :: (W ++ '<' :: (N ++ ';' :: (U ++ ['+', '+', ')']))))) := by
  have l1 : squeeze "for (var ".toList = "for(var".toList := by decide
  have l2 : squeeze ": u32 = ".toList = ":u32=".toList := by decide
  have l3 : squeeze "; ".toList = ";".toList := by decide
  have l4 : squeeze " < ".toList = "<".toList := by decide
  have l5 : squeeze "++) ".toList = "++)".toList := by decide
  simp only [squeeze_append, squeeze_token hV, squeeze_token hS, squeeze_token hW,
    squeeze_token hN, squeeze_token hU, l1, l2, l3, l4, l5]
  simp

/-- The header read by the pattern without its white space. -/
theorem squeeze_headerText {w : List (List Char)} {V S E w14 : List Char} (hw : AllSpaces w)
    (hV : IsIdent V) (hS : IsDigits S) (hE : IsDigits E) (hw14 : ∀ x ∈ w14, isspace x = true) :
    squeeze (headerText w V S E ++ ')' :: w14)
      = 'f' :: 'o' :: 'r' :: '(' :: 'v' :: 'a' :: 'r' :: (V ++ ':' :: 'u' :: '3' :: '2' :: '=' ::
          (S ++ ';' :: (V ++ '<' :: (E ++ ';' :: (V ++ ['+', '+', ')']))))) := by
  have hsp := fun i => squeeze_spaces (mem_getD_of_allSpaces hw i)
  have l1 : squeeze "for".toList = "for".toList := by decide
  have l2 : squeeze "(".toList = "(".toList := by decide
  have l3 : squeeze "var".toList = "var".toList := by decide
  have l4 : squeeze ":".toList = ":".toList := by decide
  have l5 : squeeze "u32".toList = "u32".toList := by decide
  have l6 : squeeze "=".toList = "=".toList := by decide
  have l7 : squeeze ";".toList = ";".toList := by decide
  have l8 : squeeze "<".toList = "<".toList := by decide
  have l9 : squeeze "++".toList = "++".toList := by decide
  have l10 : squeeze (')' :: w14) = [')'] := by
    rw [squeeze_cons_of_not_space (by decide), squeeze_spaces hw14]
  simp only [headerText, headerTail, squeeze_append, hsp, squeeze_token (isToken_of_isIdent hV),
    squeeze_token (isToken_of_isDigits hS), squeeze_token (isToken_of_isDigits hE),
    l1, l2, l3, l4, l5, l6, l7, l8, l9, l10]
  simp

theorem loopLike_eq (V S W N U B : List Char) :
    loopLike V S W N U B
      = ("for (var ".toList ++ V ++ ": u32 = ".toList ++ S ++ "; ".toList ++ W
          ++ " < ".toList ++ N ++ "; ".toList ++ U ++ "++) ".toList) ++ '{' :: (B ++ ['}']) := by
  simp [loopLike]

theorem braceFree_loopLike_header {V S W N U : List Char} (hV : IsToken V) (hS : IsToken S)
    (hW : IsToken W) (hN : IsToken N) (hU : IsToken U) :
    BraceFree ("for (var ".toList ++ V ++ ": u32 = ".toList ++ S ++ "; ".toList ++ W
      ++ " < ".toList ++ N ++ "; ".toList ++ U ++ "++) ".toList) := by
  have lit : ∀ t : String, BraceFree t.toList → BraceFree t.toList := fun _ h => h
  have h1 := (lit "for (var " (by decide)).append (braceFree_of_isToken hV)
  have h2 := (h1.append (lit ": u32 = " (by decide))).append (braceFree_of_isToken hS)
  have h3 := (h2.append (lit "; " (by decide))).append (braceFree_of_isToken hW)
  have h4 := (h3.append (lit " < " (by decide))).append (braceFree_of_isToken hN)
  have h5 := (h4.append (lit "; " (by decide))).append (braceFree_of_isToken hU)
  exact h5.append (lit "++) " (by decide))

/-- When the loop pattern matches at the start of a loop-shaped text, the text is a
recognised loop: the bounds are digit literals and the three identifiers are the same. -/
theorem matchAt_loopLike {V S W N U B rest : List Char} (hV : IsToken V) (hS : IsToken S)
    (hW : IsToken W) (hN : IsToken N) (hU : IsToken U) {r : Groups × List Char}
    (h : matchAt forLoopPattern (loopLike V S W N U B ++ rest) = some r) :
    IsIdent V ∧ IsDigits S ∧ IsDigits N ∧ W = V ∧ U = V := by
  obtain ⟨g, rest'⟩ := r
  obtain ⟨g0, h0, -⟩ := matchAt_some h
  obtain ⟨w, V', S', E', w14, w15, b, hw, hV', hS', hE', hw14, hw15, hb, hs, -⟩ :=
    matchHere_forLoop_text h0
  have hLH := braceFree_loopLike_header hV hS hW hN hU
  have hsp1 := mem_getD_of_allSpaces hw 1
  have hL : BraceFree (headerText w V' S' E' ++ ')' :: w14) := by
    have h1 : BraceFree ("for".toList ++ (w.getD 1 [] ++ ("(".toList ++ headerTail w V' S' E'))) :=
      BraceFree.append (by decide) (BraceFree.append (fun c hc => notBrace_of_isspace (hsp1 c hc))
        (BraceFree.append (by decide) (braceFree_headerTail hw hV' hS' hE')))
    exact braceFree_header h1 hw14
  have e1 : ("for (var ".toList ++ V ++ ": u32 = ".toList ++ S ++ "; ".toList ++ W
        ++ " < ".toList ++ N ++ "; ".toList ++ U ++ "++) ".toList) ++ '{' :: (B ++ '}' :: rest)
      = (headerText w V' S' E' ++ ')' :: w14) ++ '{' :: (w15 ++ b ++ '}' :: rest') := by
    have hs' := hs
    rw [loopLike_eq] at hs'
    simpa [List.append_assoc] using hs'
  have e2 := congrArg squeeze (first_brace_unique hLH hL (by decide) (by decide) e1).1
  rw [squeeze_loopLike_header V S W N U hV hS hW hN hU,
    squeeze_headerText hw hV' hS' hE' hw14] at e2
  simp only [List.cons.injEq, true_and] at e2
  have tV' := isToken_of_isIdent hV'
  have tS' := isToken_of_isDigits hS'
  have tE' := isToken_of_isDigits hE'
  obtain ⟨a1, -, e3⟩ := split_unique (p := istoken) hV tV' (by decide) (by decide) e2
  simp only [List.cons.injEq, true_and] at e3
  obtain ⟨a2, -, e4⟩ := split_unique (p := istoken) hS tS' (by decide) (by decide) e3
  obtain ⟨a3, -, e5⟩ := split_unique (p := istoken) hW tV' (by decide) (by decide) e4
  obtain ⟨a4, -, e6⟩ := split_unique (p := istoken) hN tE' (by decide) (by decide) e5
  obtain ⟨a5, -, -⟩ := split_unique (p := istoken) hU tV' (by decide) (by decide) e6
  subst a1 a2 a4
  exact ⟨hV', hS', hE', a3, a5⟩

/-- No match of the loop pattern ends its header in a text without `(`. -/
theorem matchAt_forLoop_none_of_no_paren {t : List Char} (ht : BraceFree t) (hp : '(' ∉ t)
    (rest : List Char) : matchAt forLoopPattern (t ++ '{' :: rest) = none := by
  cases hm : matchAt forLoopPattern (t ++ '{' :: rest) with
  | none => rfl
  | some r =>
    obtain ⟨g, hg⟩ := matchAt_forLoop_header ht hm
    have : '(' ∈ t :=
      Sem_lit_mem hg (l := "(".toList) (by simp [forHead, txt]) '(' (by decide)
    exact absurd this hp

theorem no_paren_of_isToken {s : List Char} (h : IsToken s) : '(' ∉ s :=
  fun hm => by have := h _ hm; revert this; decide

/-- C13. A loop text `for (var V: u32 = S; W < N; U++) {B}` made of tokens (word
characters or `-`) with brace-free `B` in which a bound is not a digit sequence, or the
tested or incremented identifier differs from the declared variable, is not matched by
the loop pattern: `loopUnrolling` returns the input unchanged and does not fail. -/
theorem loopUnrolling_unrecognised_header (V S W N U B : List Char) (threshold : Int)
    (fuel : Nat) (hV : IsToken V) (hS : IsToken S) (hW : IsToken W) (hN : IsToken N)
    (hU : IsToken U) (hB : BraceFree B)
    (hbad : ¬ IsDigits S ∨ ¬ IsDigits N ∨ W ≠ V ∨ U ≠ V) :
    loopUnrollingFuel (fuel + 1) (loopLike V S W N U B) threshold
      = some (Except.ok (loopLike V S W N U B)) := by
  apply loopUnrollingFuel_of_none
  have h0 : matchAt forLoopPattern (loopLike V S W N U B) = none := by
    cases hm : matchAt forLoopPattern (loopLike V S W N U B) with
    | none => rfl
    | some r =>
      exfalso
      have hm' : matchAt forLoopPattern (loopLike V S W N U B ++ []) = some r := by
        rw [List.append_nil]; exact hm
      obtain ⟨-, h1, h2, h3, h4⟩ := matchAt_loopLike hV hS hW hN hU hm'
      rcases hbad with h | h | h | h
      · exact h h1
      · exact h h2
      · exact h h3
      · exact h h4
  have e : loopLike V S W N U B
      = 'f' :: ("or (".toList ++ (("var ".toList ++ V ++ ": u32 = ".toList ++ S ++ "; ".toList
          ++ W ++ " < ".toList ++ N ++ "; ".toList ++ U ++ "++) ".toList)
          ++ '{' :: (B ++ '}' :: []))) := by
    simp [loopLike]
  have hT : BraceFree ("var ".toList ++ V ++ ": u32 = ".toList ++ S ++ "; ".toList
      ++ W ++ " < ".toList ++ N ++ "; ".toList ++ U ++ "++) ".toList) := by
    have lit : ∀ t : String, BraceFree t.toList → BraceFree t.toList := fun _ h => h
    have h1 := (lit "var " (by decide)).append (braceFree_of_isToken hV)
    have h2 := (h1.append (lit ": u32 = " (by decide))).append (braceFree_of_isToken hS)
    have h3 := (h2.append (lit "; " (by decide))).append (braceFree_of_isToken hW)
    have h4 := (h3.append (lit " < " (by decide))).append (braceFree_of_isToken hN)
    have h5 := (h4.append (lit "; " (by decide))).append (braceFree_of_isToken hU)
    exact h5.append (lit "++) " (by decide))
  have hnp : '(' ∉ "var ".toList ++ V ++ ": u32 = ".toList ++ S ++ "; ".toList
      ++ W ++ " < ".toList ++ N ++ "; ".toList ++ U ++ "++) ".toList := by
    simp [no_paren_of_isToken hV, no_paren_of_isToken hS, no_paren_of_isToken hW,
      no_paren_of_isToken hN, no_paren_of_isToken hU]
  rw [e] at h0
  rw [e, regex_search, searchFrom_cons_of_none 0 h0]
  rw [searchFrom_skip_no_head forLoopPattern_head (by decide)]
  rw [searchFrom_append_of_none _ _ _ (fun t ht _ =>
    matchAt_forLoop_none_of_no_paren (braceFree_of_suffix ht hT)
      (fun hm => hnp (ht.subset hm)) _)]
  rw [searchFrom_cons_of_none _ (matchAt_none_of_head_ne forLoopPattern_head (by decide) _)]
  rw [searchFrom_forLoop_skip_close hB]
  rw [searchFrom_cons_of_none _ (matchAt_none_of_head_ne forLoopPattern_head (by decide) _)]
  exact searchFrom_nil_forLoop _

theorem loopUnrolling_unrecognised_header_witness :
    loopUnrollingFuel 1 "for (var i: u32 = 0; i < n; i++) \x7b x[i] = i; \x7d".toList 32
      = some (Except.ok "for (var i: u32 = 0; i < n; i++) \x7b x[i] = i; \x7d".toList) :=
  loopUnrolling_unrecognised_header "i".toList "0".toList "i".toList "n".toList "i".toList
    " x[i] = i; ".toList 32 0 (by decide) (by decide) (by decide) (by decide) (by decide)
    (by decide) (by decide)

/-! ## Conditionals whose guard is not a literal -/

/-- Every literal of a pattern stands in the text the pattern matches. -/
theorem Sem_lit_within {pat : List Atom} {g g' : Groups} {c : List Char} (h : Sem pat g c g')
    {l : List Char} (hl : Atom.lit l ∈ pat) : l <:+: c := by
  induction pat generalizing g c with
  | nil => simp at hl
  | cons a pat ih =>
    cases a with
    | lit l' =>
      obtain ⟨c', rfl, hsem⟩ := h
      rcases List.mem_cons.1 hl with heq | hmem
      · cases heq
        exact (List.prefix_append _ _).isInfix
      · exact (ih hsem hmem).trans (List.suffix_append _ _).isInfix
    | many p min cap =>
      obtain ⟨xs, c', rfl, -, -, hsem⟩ := h
      rcases List.mem_cons.1 hl with heq | hmem
      · cases heq
      · exact (ih hsem hmem).trans (List.suffix_append _ _).isInfix
    | backref i =>
      obtain ⟨c', rfl, hsem⟩ := h
      rcases List.mem_cons.1 hl with heq | hmem
      · cases heq
      · exact (ih hsem hmem).trans (List.suffix_append _ _).isInfix

/-- A pattern is not found in a text that does not hold one of its literals. -/
theorem regex_search_none_of_no_literal {re : Regex} {l : List Char} (hl : Atom.lit l ∈ re.atoms)
    {s : List Char} (hs : ¬ l <:+: s) : regex_search s re = none := by
  apply searchFrom_none_of_suffixes
  intro t ht
  cases hm : matchAt re t with
  | none => rfl
  | some r =>
    obtain ⟨g, rest⟩ := r
    obtain ⟨g0, h0, -⟩ := matchAt_some hm
    obtain ⟨c, rfl, hsem⟩ := matchHere_sound _ _ _ _ _ h0
    exact absurd (((Sem_lit_within hsem hl).trans (List.prefix_append _ _).isInfix).trans
      ht.isInfix) hs

/-- A match starts with a match of the atoms in front of the first `{`, which ends
directly in front of the first brace of the text. -/
theorem matchAt_header {re : Regex} {hd tl : List Atom} (hre : re.atoms = hd ++ txt "\x7b" :: tl)
    (hsafe : ∀ a ∈ hd, Atom.Safe a) {t rest : List Char} (ht : BraceFree t)
    {r : Groups × List Char} (h : matchAt re (t ++ '{' :: rest) = some r) :
    ∃ g, Sem hd (List.replicate (re.ngroups + 1) []) t g := by
  obtain ⟨g, rest'⟩ := r
  obtain ⟨g0, h0, -⟩ := matchAt_some h
  obtain ⟨c, hc, hsem⟩ := matchHere_sound _ _ _ _ _ h0
  rw [hre] at hsem
  obtain ⟨c1, c2, g1, rfl, h1, h2⟩ := Sem_append hsem
  obtain ⟨c3, rfl, -⟩ := h2
  have hc1 : BraceFree c1 := Sem_safe hsafe (groupsFree_replicate _) h1
  have e2 : t ++ '{' :: rest = c1 ++ '{' :: (c3 ++ rest') := by
    rw [hc]; simp
  rw [(first_brace_unique ht hc1 (by decide) (by decide) e2).1]
  exact ⟨g1, h1⟩

/-- The text matched by the atoms `if\s*\(\s*` guard `\s*\)\s*`, without its white space. -/
theorem Sem_ifHead_squeeze {guard : String} {g g' : Groups} {c : List Char}
    (h : Sem (ifHead guard) g c g') :
    squeeze c = 'i' :: 'f' :: '(' :: (squeeze guard.toList ++ [')']) := by
  obtain ⟨c1, rfl, x1, c2, rfl, h1, -, c3, rfl, x2, c4, rfl, h2, -, c5, rfl, x3, c6, rfl, h3, -,
    c7, rfl, x4, c8, rfl, h4, -, rfl, -⟩ := h
  have l1 : squeeze "if".toList = "if".toList := by decide
  have l2 : squeeze "(".toList = "(".toList := by decide
  have l3 : squeeze ")".toList = ")".toList := by decide
  simp only [squeeze_append, squeeze_spaces h1, squeeze_spaces h2, squeeze_spaces h3,
    squeeze_spaces h4, l1, l2, l3]
  simp [squeeze]

theorem ifAtoms_split (guard : String) :
    (⟨ifAtoms guard, 1⟩ : Regex).atoms
      = ifHead guard ++ txt "\x7b" :: [Atom.many notBrace 0 (some 1), txt "\x7d"] := rfl

theorem ifAtoms_head (guard : String) :
    (⟨ifAtoms guard, 1⟩ : Regex).atoms
      = Atom.lit ('i' :: ['f']) :: (ifAtoms guard).tail := rfl

/-- A conditional pattern does not match at a conditional with another guard. -/
theorem matchAt_if_none_of_guard {guard : String} (hg : BraceFree guard.toList)
    (hgs : squeeze guard.toList = guard.toList) {x : List Char} (hx : IsIdent x)
    (hne : x ≠ guard.toList) (rest : List Char) :
    matchAt ⟨ifAtoms guard, 1⟩ (("if (".toList ++ x ++ ") ".toList) ++ '{' :: rest) = none := by
  cases hm : matchAt ⟨ifAtoms guard, 1⟩ (("if (".toList ++ x ++ ") ".toList) ++ '{' :: rest) with
  | none => rfl
  | some r =>
    exfalso
    have hb : BraceFree ("if (".toList ++ x ++ ") ".toList) :=
      (BraceFree.append (by decide) (braceFree_of_isIdent hx)).append (by decide)
    obtain ⟨g, hsem⟩ := matchAt_header (ifAtoms_split guard) (ifHead_safe hg) hb hm
    have e := Sem_ifHead_squeeze hsem
    have l1 : squeeze "if (".toList = "if(".toList := by decide
    have l2 : squeeze ") ".toList = ")".toList := by decide
    rw [squeeze_append, squeeze_append, l1, l2, squeeze_token (isToken_of_isIdent hx), hgs] at e
    simp only [String.toList, List.cons_append, List.nil_append, List.cons.injEq, true_and] at e
    exact hne (List.append_cancel_right e)

/-- No match of a conditional pattern ends its head in a text without `(`. -/
theorem matchAt_if_none_of_no_paren {guard : String} (hg : BraceFree guard.toList)
    {t : List Char} (ht : BraceFree t) (hp : '(' ∉ t) (rest : List Char) :
    matchAt ⟨ifAtoms guard, 1⟩ (t ++ '{' :: rest) = none := by
  cases hm : matchAt ⟨ifAtoms guard, 1⟩ (t ++ '{' :: rest) with
  | none => rfl
  | some r =>
    obtain ⟨g, hsem⟩ := matchAt_header (ifAtoms_split guard) (ifHead_safe hg) ht hm
    have : '(' ∈ t :=
      Sem_lit_mem hsem (l := "(".toList) (by simp [ifHead, txt]) '(' (by decide)
    exact absurd this hp

/-- A conditional pattern is not found in `if (x) {A} else {B}` when `x` is an
identifier other than its guard. -/
theorem regex_search_if_none_of_guard {guard : String} (hg : BraceFree guard.toList)
    (hgs : squeeze guard.toList = guard.toList) {x A B : List Char} (hx : IsIdent x)
    (hne : x ≠ guard.toList) (hA : BraceFree A) (hB : BraceFree B) :
    regex_search ("if (".toList ++ x ++ ") \x7b".toList ++ A ++ "\x7d else \x7b".toList ++ B
      ++ "\x7d".toList) ⟨ifAtoms guard, 1⟩ = none := by
  have e : "if (".toList ++ x ++ ") \x7b".toList ++ A ++ "\x7d else \x7b".toList ++ B ++ "\x7d".toList
      = 'i' :: ("f (".toList ++ ((x ++ ") ".toList) ++ '{' :: (A ++ '}' ::
          (" else ".toList ++ '{' :: (B ++ '}' :: []))))) := by
    simp
  have h0 : matchAt ⟨ifAtoms guard, 1⟩ ('i' :: ("f (".toList ++ ((x ++ ") ".toList) ++ '{' ::
      (A ++ '}' :: (" else ".toList ++ '{' :: (B ++ '}' :: [])))))) = none := by
    have := matchAt_if_none_of_guard hg hgs hx hne
      (A ++ '}' :: (" else ".toList ++ '{' :: (B ++ '}' :: [])))
    rw [← this]
    congr 1
  have hxb : BraceFree (x ++ ") ".toList) := (braceFree_of_isIdent hx).append (by decide)
  have hxp : '(' ∉ x ++ ") ".toList := by
    have := no_paren_of_isToken (isToken_of_isIdent hx)
    simp [this]
  have hre := opensBlock_if hg
  rw [e, regex_search, searchFrom_cons_of_none 0 h0]
  rw [searchFrom_skip_no_head (ifAtoms_head guard) (by decide)]
  rw [searchFrom_append_of_none _ _ _ (fun t ht _ =>
    matchAt_if_none_of_no_paren hg (braceFree_of_suffix ht hxb) (fun hm => hxp (ht.subset hm)) _)]
  rw [searchFrom_cons_of_none _ (matchAt_none_of_head_ne (ifAtoms_head guard) (by decide) _)]
  rw [searchFrom_skip_close hre hA]
  rw [searchFrom_cons_of_none _ (matchAt_none_of_head_ne (ifAtoms_head guard) (by decide) _)]
  rw [searchFrom_skip_no_head (ifAtoms_head guard) (by decide)]
  rw [searchFrom_cons_of_none _ (matchAt_none_of_head_ne (ifAtoms_head guard) (by decide) _)]
  rw [searchFrom_skip_close hre hB]
  rw [searchFrom_cons_of_none _ (matchAt_none_of_head_ne (ifAtoms_head guard) (by decide) _)]
  exact searchFrom_nil_of_opensBlock hre _

/-- When the two patterns without else branch are not found, the function returns its
input. -/
theorem removeUnnecessaryIfStatementsFuel_of_none {code : List Char}
    (h3 : regex_search code ifTruePattern = none) (h4 : regex_search code ifFalsePattern = none)
    (fuel : Nat) : removeUnnecessaryIfStatementsFuel (fuel + 1) code = some code := by
  have h1 : regex_search code ifTrueElsePattern = none :=
    @regex_search_none_of_shorter ifTrueElsePattern ifTruePattern elseAtoms rfl
      (ifAtoms_noBackref "true") code h3
  have h2 : regex_search code ifFalseElsePattern = none :=
    @regex_search_none_of_shorter ifFalseElsePattern ifFalsePattern elseAtoms rfl
      (ifAtoms_noBackref "false") code h4
  simp [removeUnnecessaryIfStatementsFuel, reduceFuel_of_none, h1, h2, h3, h4]

/-- Two kinds of text that `removeUnnecessaryIfStatements` returns unchanged: every text
that contains neither the word `true` nor the word `false`, and every text
`if (x) {A} else {B}` with brace-free `A`, `B` and an identifier `x` other than `true`
and `false`. -/
theorem removeUnnecessaryIfStatements_non_literal_guard (code : List Char) (fuel : Nat)
    (h : (¬ "true".toList <:+: code ∧ ¬ "false".toList <:+: code) ∨
      ∃ x A B, IsIdent x ∧ x ≠ "true".toList ∧ x ≠ "false".toList ∧ BraceFree A ∧ BraceFree B ∧
        code = "if (".toList ++ x ++ ") \x7b".toList ++ A ++ "\x7d else \x7b".toList ++ B
          ++ "\x7d".toList) :
    removeUnnecessaryIfStatementsFuel (fuel + 1) code = some code := by
  rcases h with ⟨ht, hf⟩ | ⟨x, A, B, hx, hxt, hxf, hA, hB, rfl⟩
  · exact removeUnnecessaryIfStatementsFuel_of_none
      (regex_search_none_of_no_literal (l := "true".toList) (by simp [ifTruePattern, ifAtoms, txt]) ht)
      (regex_search_none_of_no_literal (l := "false".toList)
        (by simp [ifFalsePattern, ifAtoms, txt]) hf) fuel
  · exact removeUnnecessaryIfStatementsFuel_of_none
      (regex_search_if_none_of_guard braceFree_true (by decide) hx hxt hA hB)
      (regex_search_if_none_of_guard braceFree_false (by decide) hx hxf hA hB) fuel

theorem removeUnnecessaryIfStatements_non_literal_guard_witness :
    removeUnnecessaryIfStatementsFuel 1 "if (x) \x7b a(); \x7d else \x7b b(); \x7d".toList
      = some "if (x) \x7b a(); \x7d else \x7b b(); \x7d".toList :=
  removeUnnecessaryIfStatements_non_literal_guard "if (x) \x7b a(); \x7d else \x7b b(); \x7d".toList 0
    (Or.inr ⟨"x".toList, " a(); ".toList, " b(); ".toList, by decide, by decide, by decide,
      by decide, by decide, by rfl⟩)

/-! ## `removeUnnecessaryIfStatements` stops and does not grow the text -/

theorem reduceFuel_of_some {re : Regex} {code : List Char} {m : SMatch}
    (h : regex_search code re = some m) (keep : Option Nat) (fuel : Nat) :
    reduceFuel re keep (fuel + 1) code
      = reduceFuel re keep fuel
          (substrTo code m.position ++ blockOf keep m
            ++ substrFrom code (m.position + m.length)) := by
  rw [reduceFuel]
  simp only [h]
  cases keep <;> rfl

/-- What a successful scan has found, with the texts before and after the match. -/
theorem regex_search_some {re : Regex} {s : List Char} {m : SMatch}
    (h : regex_search s re = some m) :
    ∃ pre c rest g0, s = pre ++ (c ++ rest) ∧ substrTo s m.position = pre ∧
      substrFrom s (m.position + m.length) = rest ∧
      Sem re.atoms (List.replicate (re.ngroups + 1) []) c g0 ∧ m.sub = g0.set 0 c := by
  obtain ⟨pre, t, rest, hs, hp, hm, hl⟩ := searchFrom_some h
  obtain ⟨g0, h0, hg⟩ := matchAt_some hm
  obtain ⟨c, rfl, hsem⟩ := matchHere_sound _ _ _ _ _ h0
  have hlen : m.length = c.length := by rw [hl, List.length_append]; omega
  have hpos : m.position = pre.length := by rw [hp]; omega
  refine ⟨pre, c, rest, g0, hs, ?_, ?_, hsem, ?_⟩
  · rw [hs, hpos, substrTo, List.take_left]
  · rw [hs, hpos, hlen, substrFrom, ← List.append_assoc, ← List.length_append, List.drop_left]
  · rw [hg]
    congr 1
    rw [List.length_append, Nat.add_sub_cancel, List.take_left]

theorem stepShortens_if (guard : String) (hg : BraceFree guard.toList) (keep : Option Nat)
    (hk : keep = some 1 ∨ keep = none) : StepShortens ⟨ifAtoms guard, 1⟩ keep := by
  intro code m h
  obtain ⟨pre, c, rest, g0, hs, hto, hfrom, hsem, hsub⟩ := regex_search_some h
  obtain ⟨hd, A, rfl, -, -, rfl⟩ := Sem_ifAtoms hg (groupsFree_replicate _) hsem
  have hb : (blockOf keep m).length ≤ A.length := by
    rcases hk with rfl | rfl
    · have : blockOf (some 1) m = A := by
        simp only [blockOf, hsub]
        rfl
      rw [this]
    · simp [blockOf]
  rw [hto, hfrom]
  conv_rhs => rw [hs]
  simp only [List.length_append, List.length_cons, List.length_nil]
  omega

theorem stepShortens_ifElse (guard : String) (hg : BraceFree guard.toList) (keep : Option Nat)
    (hk : keep = some 1 ∨ keep = some 2) :
    StepShortens ⟨ifAtoms guard ++ elseAtoms, 2⟩ keep := by
  intro code m h
  obtain ⟨pre, c, rest, g0, hs, hto, hfrom, hsem, hsub⟩ := regex_search_some h
  obtain ⟨hd, A, e, B, rfl, -, -, -, -, rfl⟩ := Sem_ifElseAtoms hg (groupsFree_replicate _) hsem
  have hb : (blockOf keep m).length ≤ A.length + B.length := by
    rcases hk with rfl | rfl
    · have : blockOf (some 1) m = A := by
        simp only [blockOf, hsub]
        rfl
      rw [this]; omega
    · have : blockOf (some 2) m = B := by
        simp only [blockOf, hsub]
        rfl
      rw [this]; omega
  rw [hto, hfrom]
  conv_rhs => rw [hs]
  simp only [List.length_append, List.length_cons, List.length_nil]
  omega

/-- A reduction loop whose rewrites shorten the text stops: it returns a text `r` after
at most `code.length - r.length` rewrites; `r` is the input when the pattern is not
found and is strictly shorter otherwise. -/
theorem reduceFuel_terminates {re : Regex} {keep : Option Nat} (hshort : StepShortens re keep)
    (n : Nat) (code : List Char) (hn : code.length ≤ n) :
    ∃ r, r.length ≤ code.length ∧
      (∀ k, reduceFuel re keep (code.length - r.length + 1 + k) code = some r) ∧
      (regex_search code re = none → r = code) ∧
      (regex_search code re ≠ none → r.length < code.length) := by
  induction n generalizing code with
  | zero =>
    cases hs : regex_search code re with
    | none =>
      refine ⟨code, le_refl _, fun k => ?_, fun _ => rfl, fun h => absurd rfl h⟩
      rw [Nat.sub_self, Nat.zero_add, Nat.add_comm]
      exact reduceFuel_of_none hs keep k
    | some m =>
      have := hshort code m hs
      omega
  | succ n ih =>
    cases hs : regex_search code re with
    | none =>
      refine ⟨code, le_refl _, fun k => ?_, fun _ => rfl, fun h => absurd rfl h⟩
      rw [Nat.sub_self, Nat.zero_add, Nat.add_comm]
      exact reduceFuel_of_none hs keep k
    | some m =>
      have hlt := hshort code m hs
      obtain ⟨r, hr, hrun, -, -⟩ := ih (substrTo code m.position ++ blockOf keep m
        ++ substrFrom code (m.position + m.length)) (by omega)
      refine ⟨r, (by omega), fun k => ?_, fun h => (by cases h), fun _ => (by omega)⟩
      have e : code.length - r.length + 1 + k
          = ((substrTo code m.position ++ blockOf keep m
              ++ substrFrom code (m.position + m.length)).length - r.length + 1
            + (k + (code.length - (substrTo code m.position ++ blockOf keep m
              ++ substrFrom code (m.position + m.length)).length - 1))) + 1 := by
        omega
      rw [e, reduceFuel_of_some hs]
      exact hrun _

/-- C17. For every input, each of the four scan loops of `removeUnnecessaryIfStatements`
replaces a match by a strictly shorter text (the captured block it keeps, or nothing for
the fourth loop), so the function stops: the loops finish
after `n1`, `n2`, `n3` and `n4` rewrites at most (fuel `n + 1` allows `n` rewrites) with
`n1 + n2 + n3 + n4 ≤ length(code)`, the output is not longer than the input, and the
output is the input exactly when none of the four patterns is found in the input. -/
theorem removeUnnecessaryIfStatements_terminates (code : List Char) :
    (StepShortens ifTrueElsePattern (some 1) ∧ StepShortens ifFalseElsePattern (some 2) ∧
      StepShortens ifTruePattern (some 1) ∧ StepShortens ifFalsePattern none) ∧
    ∃ c1 c2 c3 r n1 n2 n3 n4,
      reduceFuel ifTrueElsePattern (some 1) (n1 + 1) code = some c1 ∧
      reduceFuel ifFalseElsePattern (some 2) (n2 + 1) c1 = some c2 ∧
      reduceFuel ifTruePattern (some 1) (n3 + 1) c2 = some c3 ∧
      reduceFuel ifFalsePattern none (n4 + 1) c3 = some r ∧
      n1 + n2 + n3 + n4 + r.length ≤ code.length ∧
      (∀ k, removeUnnecessaryIfStatementsFuel (code.length + 1 + k) code = some r) ∧
      (r = code ↔
        (regex_search code ifTrueElsePattern = none ∧ regex_search code ifFalseElsePattern = none
          ∧ regex_search code ifTruePattern = none ∧ regex_search code ifFalsePattern = none)) := by
  have s1 : StepShortens ifTrueElsePattern (some 1) :=
    stepShortens_ifElse "true" braceFree_true (some 1) (Or.inl rfl)
  have s2 : StepShortens ifFalseElsePattern (some 2) :=
    stepShortens_ifElse "false" braceFree_false (some 2) (Or.inr rfl)
  have s3 : StepShortens ifTruePattern (some 1) :=
    stepShortens_if "true" braceFree_true (some 1) (Or.inl rfl)
  have s4 : StepShortens ifFalsePattern none :=
    stepShortens_if "false" braceFree_false none (Or.inr rfl)
  refine ⟨⟨s1, s2, s3, s4⟩, ?_⟩
  obtain ⟨c1, l1, run1, no1, so1⟩ := reduceFuel_terminates s1 _ code (le_refl _)
  obtain ⟨c2, l2, run2, no2, so2⟩ := reduceFuel_terminates s2 _ c1 (le_refl _)
  obtain ⟨c3, l3, run3, no3, so3⟩ := reduceFuel_terminates s3 _ c2 (le_refl _)
  obtain ⟨r, l4, run4, no4, so4⟩ := reduceFuel_terminates s4 _ c3 (le_refl _)
  refine ⟨c1, c2, c3, r, code.length - c1.length, c1.length - c2.length,
    c2.length - c3.length, c3.length - r.length, ?_, ?_, ?_, ?_, by omega, ?_, ?_⟩
  · simpa using run1 0
  · simpa using run2 0
  · simpa using run3 0
  · simpa using run4 0
  · intro k
    have e1 : code.length + 1 + k = code.length - c1.length + 1 + (k + c1.length) := by omega
    have e2 : code.length + 1 + k
        = c1.length - c2.length + 1 + (k + (code.length - c1.length) + c2.length) := by omega
    have e3 : code.length + 1 + k
        = c2.length - c3.length + 1 + (k + (code.length - c2.length) + c3.length) := by omega
    have e4 : code.length + 1 + k
        = c3.length - r.length + 1 + (k + (code.length - c3.length) + r.length) := by omega
    unfold removeUnnecessaryIfStatementsFuel
    have r1 := run1 (k + c1.length)
    have r2 := run2 (k + (code.length - c1.length) + c2.length)
    have r3 := run3 (k + (code.length - c2.length) + c3.length)
    have r4 := run4 (k + (code.length - c3.length) + r.length)
    rw [← e1] at r1
    rw [← e2] at r2
    rw [← e3] at r3
    rw [← e4] at r4
    simp only [r1, r2, r3, r4, Option.some_bind]
  · constructor
    · intro h
      have hlen : r.length = code.length := by rw [h]
      have h1 : regex_search code ifTrueElsePattern = none := by
        by_contra hc
        have := so1 hc
        omega
      have e1 := no1 h1
      subst e1
      have h2 : regex_search c1 ifFalseElsePattern = none := by
        by_contra hc
        have := so2 hc
        omega
      have e2 := no2 h2
      subst e2
      have h3 : regex_search c2 ifTruePattern = none := by
        by_contra hc
        have := so3 hc
        omega
      have e3 := no3 h3
      subst e3
      have h4 : regex_search c3 ifFalsePattern = none := by
        by_contra hc
        have := so4 hc
        omega
      exact ⟨h1, h2, h3, h4⟩
    · rintro ⟨h1, h2, h3, h4⟩
      have e1 := no1 h1
      subst e1
      have e2 := no2 h2
      subst e2
      have e3 := no3 h3
      subst e3
      exact no4 h4

/-! ## Conditionals with a literal guard, read as text -/

/-- The text matched by the atoms of a conditional pattern. -/
theorem Sem_ifAtoms_text {guard : String} {g g' : Groups} {c : List Char}
    (h : Sem (ifAtoms guard) g c g') :
    ∃ w1 w2 w3 w4 A, (∀ x ∈ w1 ++ w2 ++ w3 ++ w4, isspace x = true) ∧ BraceFree A ∧
      c = "if".toList ++ w1 ++ "(".toList ++ w2 ++ guard.toList ++ w3 ++ ")".toList ++ w4
        ++ "\x7b".toList ++ A ++ "\x7d".toList := by
  obtain ⟨c1, rfl, w1, c2, rfl, h1, -, c3, rfl, w2, c4, rfl, h2, -, c5, rfl, w3, c6, rfl, h3, -,
    c7, rfl, w4, c8, rfl, h4, -, c9, rfl, A, c10, rfl, hA, -, c11, rfl, rfl, -⟩ := h
  refine ⟨w1, w2, w3, w4, A, ?_, hA, ?_⟩
  · intro x hx
    simp only [List.mem_append] at hx
    rcases hx with ((hx | hx) | hx) | hx
    · exact h1 x hx
    · exact h2 x hx
    · exact h3 x hx
    · exact h4 x hx
  · simp [txt]

/-- A match of one of the two patterns without else branch is a conditional with a
literal guard in the text. -/
theorem hasLiteralGuard_of_search {G : String} (hG : G = "true" ∨ G = "false")
    {code : List Char} {m : SMatch} (h : regex_search code ⟨ifAtoms G, 1⟩ = some m) :
    HasLiteralGuard code := by
  obtain ⟨pre, c, rest, g0, hs, -, -, hsem, -⟩ := regex_search_some h
  obtain ⟨w1, w2, w3, w4, A, hw, hA, rfl⟩ := Sem_ifAtoms_text hsem
  exact ⟨pre, w1, w2, G, w3, w4, A, rest, hG, hw, hA, by rw [hs]; simp⟩

/-- The atoms of a conditional pattern match the text of a conditional with any white
space at the four places. -/
theorem matchHere_ifAtoms_text {guard : String} (hne : guard.toList ≠ [])
    (hsp : ∀ x ∈ guard.toList, isspace x = false) {w1 w2 w3 w4 A : List Char}
    (hw : ∀ c ∈ w1 ++ w2 ++ w3 ++ w4, isspace c = true) (hA : BraceFree A)
    (g : Groups) (rest : List Char) :
    matchHere (ifAtoms guard) g
        ("if".toList ++ w1 ++ "(".toList ++ w2 ++ guard.toList ++ w3 ++ ")".toList ++ w4
          ++ "\x7b".toList ++ A ++ "\x7d".toList ++ rest)
      = some (g.set 1 A, rest) := by
  have h1 : ∀ x ∈ w1, isspace x = true := fun x hx => hw x (by simp [hx])
  have h2 : ∀ x ∈ w2, isspace x = true := fun x hx => hw x (by simp [hx])
  have h3 : ∀ x ∈ w3, isspace x = true := fun x hx => hw x (by simp [hx])
  have h4 : ∀ x ∈ w4, isspace x = true := fun x hx => hw x (by simp [hx])
  have e : "if".toList ++ w1 ++ "(".toList ++ w2 ++ guard.toList ++ w3 ++ ")".toList ++ w4
        ++ "\x7b".toList ++ A ++ "\x7d".toList ++ rest
      = "if".toList ++ (w1 ++ ("(".toList ++ (w2 ++ (guard.toList ++ (w3 ++ (")".toList ++
          (w4 ++ ("\x7b".toList ++ (A ++ ("\x7d".toList ++ rest)))))))))) := by
    simp
  rw [e]
  show matchHere (txt "if" :: ws :: txt "(" :: ws :: txt guard :: ws :: txt ")" :: ws ::
    txt "\x7b" :: Atom.many notBrace 0 (some 1) :: txt "\x7d" :: []) g _ = _
  apply txt_step "if"
  apply ws_step w1 h1 (by simp [isspace]) (by simp)
  apply txt_step "("
  apply ws_step w2 h2 (head_append_of_ne_nil _ hne hsp) (by simp)
  apply txt_step guard
  apply ws_step w3 h3 (by simp [isspace]) (by simp)
  apply txt_step ")"
  apply ws_step w4 h4 (by simp [isspace]) (by simp)
  apply txt_step "\x7b"
  apply many_step A hA (by simp [notBrace]) (by simp)
  apply txt_step "\x7d"
  rfl

/-- A conditional with a literal guard in the text is found by one of the two patterns
without else branch. -/
theorem search_of_hasLiteralGuard {code : List Char} (h : HasLiteralGuard code) :
    regex_search code ifTruePattern ≠ none ∨ regex_search code ifFalsePattern ≠ none := by
  obtain ⟨pre, w1, w2, G, w3, w4, A, rest, hG, hw, hA, rfl⟩ := h
  have key : ∀ guard : String, guard.toList ≠ [] → (∀ x ∈ guard.toList, isspace x = false) →
      regex_search (pre ++ "if".toList ++ w1 ++ "(".toList ++ w2 ++ guard.toList ++ w3
        ++ ")".toList ++ w4 ++ "\x7b".toList ++ A ++ "\x7d".toList ++ rest) ⟨ifAtoms guard, 1⟩ ≠ none := by
    intro guard hne hsp hnone
    have hm := matchAt_of_matchHere ⟨ifAtoms guard, 1⟩
      (matchHere_ifAtoms_text hne hsp hw hA (List.replicate 2 []) rest)
    have := searchFrom_none hnone ("if".toList ++ w1 ++ "(".toList ++ w2 ++ guard.toList ++ w3
        ++ ")".toList ++ w4 ++ "\x7b".toList ++ A ++ "\x7d".toList ++ rest) ⟨pre, by simp⟩
    rw [hm] at this
    cases this
  rcases hG with rfl | rfl
  · exact Or.inl (key "true" guard_true.1 guard_true.2)
  · exact Or.inr (key "false" guard_false.1 guard_false.2)

/-- The result of `removeUnnecessaryIfStatements`: the function returns, its output is
the input when the two patterns without else branch are not found, and shorter than the
input when one of them is found. -/
theorem removeUnnecessaryIfStatementsFuel_result (code : List Char) :
    ∃ r, (∀ k, removeUnnecessaryIfStatementsFuel (code.length + 1 + k) code = some r) ∧
      (regex_search code ifTruePattern = none → regex_search code ifFalsePattern = none →
        r = code) ∧
      (regex_search code ifTruePattern ≠ none ∨ regex_search code ifFalsePattern ≠ none →
        r.length < code.length) := by
  have s1 : StepShortens ifTrueElsePattern (some 1) :=
    stepShortens_ifElse "true" braceFree_true (some 1) (Or.inl rfl)
  have s2 : StepShortens ifFalseElsePattern (some 2) :=
    stepShortens_ifElse "false" braceFree_false (some 2) (Or.inr rfl)
  have s3 : StepShortens ifTruePattern (some 1) :=
    stepShortens_if "true" braceFree_true (some 1) (Or.inl rfl)
  have s4 : StepShortens ifFalsePattern none :=
    stepShortens_if "false" braceFree_false none (Or.inr rfl)
  obtain ⟨c1, l1, run1, no1, so1⟩ := reduceFuel_terminates s1 _ code (le_refl _)
  obtain ⟨c2, l2, run2, no2, so2⟩ := reduceFuel_terminates s2 _ c1 (le_refl _)
  obtain ⟨c3, l3, run3, no3, so3⟩ := reduceFuel_terminates s3 _ c2 (le_refl _)
  obtain ⟨r, l4, run4, no4, so4⟩ := reduceFuel_terminates s4 _ c3 (le_refl _)
  refine ⟨r, fun k => ?_, fun h3 h4 => ?_, fun h => ?_⟩
  · have e1 : code.length + 1 + k = code.length - c1.length + 1 + (k + c1.length) := by omega
    have e2 : code.length + 1 + k
        = c1.length - c2.length + 1 + (k + (code.length - c1.length) + c2.length) := by omega
    have e3 : code.length + 1 + k
        = c2.length - c3.length + 1 + (k + (code.length - c2.length) + c3.length) := by omega
    have e4 : code.length + 1 + k
        = c3.length - r.length + 1 + (k + (code.length - c3.length) + r.length) := by omega
    unfold removeUnnecessaryIfStatementsFuel
    have r1 := run1 (k + c1.length)
    have r2 := run2 (k + (code.length - c1.length) + c2.length)
    have r3 := run3 (k + (code.length - c2.length) + c3.length)
    have r4 := run4 (k + (code.length - c3.length) + r.length)
    rw [← e1] at r1
    rw [← e2] at r2
    rw [← e3] at r3
    rw [← e4] at r4
    simp only [r1, r2, r3, r4, Option.some_bind]
  · have h1 : regex_search code ifTrueElsePattern = none :=
      @regex_search_none_of_shorter ifTrueElsePattern ifTruePattern elseAtoms rfl
        (ifAtoms_noBackref "true") code h3
    have h2 : regex_search code ifFalseElsePattern = none :=
      @regex_search_none_of_shorter ifFalseElsePattern ifFalsePattern elseAtoms rfl
        (ifAtoms_noBackref "false") code h4
    have e1 := no1 h1
    subst e1
    have e2 := no2 h2
    subst e2
    have e3 := no3 h3
    subst e3
    exact no4 h4
  · by_cases h1 : regex_search code ifTrueElsePattern = none
    · have e1 := no1 h1
      subst e1
      by_cases h2 : regex_search c1 ifFalseElsePattern = none
      · have e2 := no2 h2
        subst e2
        by_cases h3 : regex_search c2 ifTruePattern = none
        · have e3 := no3 h3
          subst e3
          rcases h with h | h
          · exact absurd h3 h
          · exact so4 h
        · have := so3 h3
          omega
      · have := so2 h2
        omega
    · have := so1 h1
      omega

/-- C11 (as amended). `removeUnnecessaryIfStatements` works on the characters of the
text: when the text has no part `if ( G ) {A}` with `G` the word `true` or `false`,
white space at the four places and a brace-free `A`, the function returns its input,
for every fuel; when the text has such a part, also one that is no conditional of the
language, the function returns a text that is shorter than its input. -/
theorem removeUnnecessaryIfStatements_literal_guard_text (code : List Char) :
    (¬ HasLiteralGuard code →
      ∀ fuel, removeUnnecessaryIfStatementsFuel (fuel + 1) code = some code) ∧
    (HasLiteralGuard code →
      ∃ r, (∀ k, removeUnnecessaryIfStatementsFuel (code.length + 1 + k) code = some r) ∧
        r.length < code.length) := by
  constructor
  · intro h fuel
    have h3 : regex_search code ifTruePattern = none := by
      cases hs : regex_search code ifTruePattern with
      | none => rfl
      | some m => exact absurd (hasLiteralGuard_of_search (Or.inl rfl) hs) h
    have h4 : regex_search code ifFalsePattern = none := by
      cases hs : regex_search code ifFalsePattern with
      | none => rfl
      | some m => exact absurd (hasLiteralGuard_of_search (Or.inr rfl) hs) h
    exact removeUnnecessaryIfStatementsFuel_of_none h3 h4 fuel
  · intro h
    obtain ⟨r, hr, -, hlt⟩ := removeUnnecessaryIfStatementsFuel_result code
    exact ⟨r, hr, hlt (search_of_hasLiteralGuard h)⟩

theorem removeUnnecessaryIfStatements_literal_guard_text_witness :
    removeUnnecessaryIfStatementsFuel 1 "if (x == true) \x7b a(); \x7d".toList
      = some "if (x == true) \x7b a(); \x7d".toList ∧
    removeUnnecessaryIfStatementsFuel 1 "if (x) \x7b y = true; \x7d".toList
      = some "if (x) \x7b y = true; \x7d".toList ∧
    removeUnnecessaryIfStatementsFuel 1 "z = false; if (x) \x7b a(); \x7d else \x7b b(); \x7d".toList
      = some "z = false; if (x) \x7b a(); \x7d else \x7b b(); \x7d".toList :=
  ⟨(removeUnnecessaryIfStatements_literal_guard_text "if (x == true) \x7b a(); \x7d".toList).1
      (fun h => (search_of_hasLiteralGuard h).elim (fun h1 => h1 (by rfl)) (fun h2 => h2 (by rfl)))
      0,
    (removeUnnecessaryIfStatements_literal_guard_text "if (x) \x7b y = true; \x7d".toList).1
      (fun h => (search_of_hasLiteralGuard h).elim (fun h1 => h1 (by rfl)) (fun h2 => h2 (by rfl)))
      0,
    (removeUnnecessaryIfStatements_literal_guard_text
        "z = false; if (x) \x7b a(); \x7d else \x7b b(); \x7d".toList).1
      (fun h => (search_of_hasLiteralGuard h).elim (fun h1 => h1 (by rfl)) (fun h2 => h2 (by rfl)))
      0⟩

/-- C11 fails as stated: in `let s = verif (true) { 1 };` the letters `if` are the end of
the identifier `verif`, so that no conditional of the text has a literal guard, yet the
function does not return its input: it replaces `if (true) { 1 }` by ` 1 `. -/
theorem removeUnnecessaryIfStatements_identifier_tail_counterexample :
    removeUnnecessaryIfStatementsFuel 2 "let s = verif (true) \x7b 1 \x7d;".toList
      = some "let s = ver 1 ;".toList
    ∧ "let s = ver 1 ;".toList ≠ "let s = verif (true) \x7b 1 \x7d;".toList := by
  refine ⟨by rfl, by decide⟩

end gpu
